import Mathlib

/-! fastbirefstereo: depth estimation and restoration from uneven double refraction

A shallow embedding of `src/depth_estimator.{h,cpp}` and `src/rectifier.{h,cpp}`.

* Images (`cv::UMat`) are total functions from `(row, col)` to a pixel value; the
  width/height a routine reads (`.cols`, `.rows`) is passed explicitly where the
  source uses it to build a region of interest.
* `float`/`double` quantities are rationals (`ℚ`).  The estimator's pipeline and
  `reverseRectification` are embedded in exact arithmetic, and every statement
  about them is a statement "in exact arithmetic".  Where the rounding of the
  source's types decides a statement (the candidate count of the constructor,
  `buildRectification`), each operation is followed by `roundF32` or `roundF64`,
  the IEEE 754 rounding to nearest, ties to even.
* 8-bit quantities (`CV_8U`) are naturals, with OpenCV's saturating arithmetic
  written out.
* A `cv::Rect` outside its matrix makes OpenCV throw; routines that build such a
  rectangle return `Option`, with `none` for the exception.  An access outside a
  matrix (`Mat::at`) is undefined behaviour and is `none` as well.
-/

namespace FastBirefStereo

/-! ## Scalar conversions -/

/-- Conversion of a floating-point value to `int` in C++: truncation toward zero. -/
def truncToInt (q : ℚ) : Int :=
  if 0 ≤ q then Int.floor q else Int.ceil q

/-- OpenCV `cvRound`: round to the nearest integer, ties to the even one. -/
def cvRound (q : ℚ) : Int :=
  if q - (Int.floor q : ℚ) < 1 / 2 then Int.floor q
  else if 1 / 2 < q - (Int.floor q : ℚ) then Int.floor q + 1
  else if Int.floor q % 2 = 0 then Int.floor q
  else Int.floor q + 1

/-- OpenCV `saturate_cast<uchar>` of an integer. -/
def saturateU8 (z : Int) : Nat :=
  if z < 0 then 0 else if 255 < z then 255 else z.toNat

/-- Floor of the binary logarithm of `n`, by halving at most `fuel` times. -/
def log2Fuel : Nat → Nat → Nat
  | 0, _ => 0
  | fuel + 1, n => if n < 2 then 0 else log2Fuel fuel (n / 2) + 1

/-- Floor of the binary logarithm of a positive natural number. -/
def floorLog2 (n : Nat) : Nat := log2Fuel n n

/-- Exponent of the binade of a non-zero rational `q`: the integer `e` with
`2^e ≤ |q| < 2^(e+1)`. -/
def binade (q : ℚ) : Int :=
  if (2 : ℚ) ^ ((floorLog2 q.num.natAbs : Int) - (floorLog2 q.den : Int)) ≤ |q| then
    (floorLog2 q.num.natAbs : Int) - (floorLog2 q.den : Int)
  else (floorLog2 q.num.natAbs : Int) - (floorLog2 q.den : Int) - 1

/-- The result of one IEEE 754 operation whose exact value is `q`, in the binary format with
`prec` significant bits and least normal exponent `emin`: `q` rounded to the nearest multiple
of the unit in its binade (of `2^(emin - prec + 1)` below the normal range), ties to the even
multiple.  Overflow to infinity is not represented: the value is the format's for
magnitudes below its largest finite number. -/
def roundFloat (prec : Nat) (emin : Int) (q : ℚ) : ℚ :=
  (cvRound (q / 2 ^ (max (binade q) emin - ((prec : Int) - 1))) : ℚ)
    * 2 ^ (max (binade q) emin - ((prec : Int) - 1))

/-- Rounding to `float` (binary32). -/
def roundF32 (q : ℚ) : ℚ := roundFloat 24 (-126) q

/-- Rounding to `double` (binary64). -/
def roundF64 (q : ℚ) : ℚ := roundFloat 53 (-1022) q

/-- A single-channel image or one channel of a colour image, indexed `(row, col)`. -/
abbrev Img (α : Type) := Nat → Nat → α

/-! ## The estimator's parameters (`depth_estimator.h`, lines 117-125, 167) -/

/-- The scalar members of `DepthEstimator` that the pipeline reads. -/
structure DepthEstimator where
  /-- Horizontal f*baseline: disparity = m_disparityCoef / depth. -/
  m_disparityCoef : ℚ
  /-- Intensity proportion between e-ray and o-ray. -/
  m_tau : ℚ
  /-- Window for cost computation. -/
  m_winSize : Int
  /-- Number of depth candidates. -/
  m_zCount : Int
  /-- The disparity candidates. -/
  m_disparities : List ℚ
  /-- Threshold for vertical edges in mask computation (`unsigned char`). -/
  m_threshGrad : Nat
  /-- Threshold for clear winner in mask computation (`unsigned char`). -/
  m_threshCost : Nat
  /-- Whether the OpenCL bilateral filter is available. -/
  m_disparityFiltering : Bool

/-- The constructor `DepthEstimator::DepthEstimator` (`depth_estimator.cpp`, lines 39-116),
restricted to the scalar members: the look-up tables and the buffers only fix image
sizes.  `gpu` is the outcome of `context.create(cv::ocl::Device::TYPE_GPU)`.
`cv::resize` by the factor `upsampling` (line 60) throws unless the factor is positive, and
`m_disparities.resize(m_zCount)` throws for a negative count: the result is `none`.
A zero `minZ` or `maxZ` is outside the source's domain (a float division by zero), and so
is the divisor `m_zCount - 1` of the step when the count is 1; here such a quotient follows
the convention `x / 0 = 0`.  The members are computed in exact arithmetic; the count with
the roundings of the `float` variables of lines 67-68 is `DepthEstimator.zCountFloat`. -/
def DepthEstimator.new (minZ maxZ disparityCoef tau upsampling : ℚ) (winSize : Int)
    (threshGrad threshCost : Nat) (gpu : Bool) : Option DepthEstimator :=
  let coef : ℚ := upsampling * disparityCoef
  let a : ℚ := coef / maxZ
  let b : ℚ := coef / minZ
  let zCount : Int := truncToInt (a - b + 3 / 2)
  let step : ℚ := (b - a) / ((zCount - 1 : Int) : ℚ)
  let w : Int := truncToInt (upsampling * (winSize : ℚ))
  if upsampling ≤ 0 then none
  else if zCount < 0 then none
  else some
    { m_disparityCoef := coef
      m_tau := tau
      m_winSize := w + 1 - Int.tmod w 2
      m_zCount := zCount
      m_disparities := (List.range zCount.toNat).map (fun (i : Nat) => a + (i : ℚ) * step)
      m_threshGrad := threshGrad
      m_threshCost := threshCost
      m_disparityFiltering := gpu }

/-- Lines 46 and 67-68 with the roundings of the source's types: `m_disparityCoef` is the
`float` product `upsampling * disparityCoef`, `a` and `b` are `float` quotients, `a - b` is a
`float` difference, the sum with the `double` literal `1.5` is a `double`, and the assignment
to `int m_zCount` truncates it toward zero.  `DepthEstimator.new` is the same count in exact
arithmetic. -/
def DepthEstimator.zCountFloat (minZ maxZ disparityCoef upsampling : ℚ) : Int :=
  truncToInt (roundF64 (roundF32
    (roundF32 (roundF32 (upsampling * disparityCoef) / maxZ)
      - roundF32 (roundF32 (upsampling * disparityCoef) / minZ)) + 3 / 2))

/-! ## Pixel arithmetic -/

/-- The three element-wise OpenCV operations `restoreImage` and `unwarpAndFixColour`
apply to pixel values: `cv::multiply` by a scalar, `cv::subtract`, `cv::add`. -/
structure PixelOps (α : Type) where
  /-- Value of `cv::multiply(img, t, img)` at a pixel. -/
  scale : ℚ → α → α
  /-- Value of `cv::subtract(a, b, _)` at a pixel. -/
  sub : α → α → α
  /-- Value of `cv::add(a, b, _)` at a pixel. -/
  add : α → α → α

/-- Exact arithmetic: no rounding and no saturation. -/
def exactOps : PixelOps ℚ where
  scale := fun t v => v * t
  sub := fun a b => a - b
  add := fun a b => a + b

/-- The arithmetic of `CV_8U`: products are rounded by `cvRound`, every result is
saturated to `[0, 255]`. -/
def u8Ops : PixelOps Nat where
  scale := fun t v => saturateU8 (cvRound ((v : ℚ) * t))
  sub := fun a b => a - b
  add := fun a b => min (a + b) 255

/-- Mask produced by `cv::compare`: 255 where the predicate holds, 0 elsewhere. -/
def maskOf (b : Bool) : Nat := if b then 255 else 0

/-- `src.copyTo(dst, mask)`: `dst` takes the value of `src` where `mask` is non-zero. -/
def copyToMasked {α : Type} (src dst : Img α) (mask : Img Nat) : Img α :=
  fun r c => if mask r c ≠ 0 then src r c else dst r c

/-- `dst.setTo(v, mask)`. -/
def setToMasked (v : Nat) (dst : Img Nat) (mask : Img Nat) : Img Nat :=
  fun r c => if mask r c ≠ 0 then v else dst r c

/-! ## `restoreImage` (`depth_estimator.cpp`, lines 118-151) -/

/-- Lines 125-137, the translation of `reconsImgCandidate` into `translatedImg`.
Columns outside the copied rectangle keep what `translatedImg` held before.
`cols` is `reconsImgCandidate.cols`; the rectangles span every row. -/
def translate {α : Type} (cols : Nat) (disparity : ℚ) (reconsImgCandidate translatedImg : Img α) :
    Option (Img α) :=
  if disparity < 0 then
    let d : Int := truncToInt (disparity - 1 / 2)
    if 0 ≤ (cols : Int) + d then
      some (fun r c =>
        if (c : Int) < (cols : Int) + d then reconsImgCandidate r (c + (-d).toNat)
        else translatedImg r c)
    else none
  else
    let d : Int := truncToInt (disparity + 1 / 2)
    if d ≤ (cols : Int) then
      some (fun r c =>
        if d ≤ (c : Int) ∧ c < cols then reconsImgCandidate r (c - d.toNat)
        else translatedImg r c)
    else none

/-- One pass `k` of the loop of `restoreImage` (lines 123-150) on the pair
`(translatedImg, reconsImgCandidate)`; the caller updates `disparity` and `tauLocal`. -/
def restoreRound {α : Type} (ops : PixelOps α) (cols : Nat) (k : Nat) (disparity tauLocal : ℚ)
    (translatedImg reconsImgCandidate : Img α) : Option (Img α × Img α) :=
  match translate cols disparity reconsImgCandidate translatedImg with
  | none => none
  | some t =>
    let scaled : Img α := fun r c => ops.scale tauLocal (t r c)
    if k = 0 then
      some (scaled, fun r c => ops.sub (reconsImgCandidate r c) (scaled r c))
    else
      some (scaled, fun r c => ops.add (reconsImgCandidate r c) (scaled r c))

/-- `DepthEstimator::restoreImage`: returns the final `(translatedImg, reconsImgCandidate)`. -/
def restoreImage {α : Type} (ops : PixelOps α) (cols : Nat) (disparity tauLocal : ℚ)
    (imgRectified translatedImg : Img α) : Option (Img α × Img α) :=
  match restoreRound ops cols 0 disparity tauLocal translatedImg imgRectified with
  | none => none
  | some p => restoreRound ops cols 1 (disparity * 2) (tauLocal * tauLocal) p.1 p.2

/-! ## `reconstructDepthAndColour` (`depth_estimator.cpp`, lines 195-234) -/

/-- The buffers at rectified resolution that the candidate loop reads and writes. -/
structure WtaBuffers (α : Type) where
  m_translatedImg : Img α
  m_reconsImgCandidate : Img α
  m_cost : Img Nat
  m_minCost : Img Nat
  m_maxCost : Img Nat
  m_maskBest : Img Nat
  m_fullDisparityMap : Img Nat
  m_reconsImgRectified : Img α

/-- Lines 212-232, "Depth selection and reconstruction merging", for candidate `zInd`,
reading the `m_cost` and `m_reconsImgCandidate` of that candidate from the buffers.
The scalar `zInd + 1` is stored in a `CV_8UC1` map, hence saturated. -/
def selectAndMerge {α : Type} (zInd : Nat) (s : WtaBuffers α) : WtaBuffers α :=
  if zInd = 0 then
    { s with
      m_minCost := s.m_cost
      m_maxCost := s.m_cost
      m_fullDisparityMap := fun _ _ => 1
      m_reconsImgRectified := s.m_reconsImgCandidate }
  else
    let maskBest : Img Nat := fun r c => maskOf (decide (s.m_cost r c ≤ s.m_minCost r c))
    { s with
      m_maskBest := maskBest
      m_minCost := copyToMasked s.m_cost s.m_minCost maskBest
      m_maxCost := fun r c => max (s.m_maxCost r c) (s.m_cost r c)
      m_fullDisparityMap := setToMasked (saturateU8 ((zInd : Int) + 1)) s.m_fullDisparityMap maskBest
      m_reconsImgRectified := copyToMasked s.m_reconsImgCandidate s.m_reconsImgRectified maskBest }

/-- What lines 199-210 leave in the scratch buffers for one candidate: the translated
image, the restored candidate and its cost field. -/
structure Frame (α : Type) where
  translated : Img α
  candidate : Img α
  cost : Img Nat

/-- Lines 199-210 for candidate `zInd`: restoration, then the cost field.  `costOf` stands
for the library pipeline `filter2D`, `add`, `cvtColor`, `boxFilter` of lines 203-210.
Reading `m_disparities` out of range, or an invalid rectangle, gives `none`. -/
def candidateFrame {α : Type} (est : DepthEstimator) (ops : PixelOps α) (costOf : Img α → Img Nat)
    (cols : Nat) (m_imgRectified : Img α) (zInd : Nat) (m_translatedImg : Img α) :
    Option (Frame α) :=
  match est.m_disparities[zInd]? with
  | none => none
  | some d =>
    match restoreImage ops cols d est.m_tau m_imgRectified m_translatedImg with
    | none => none
    | some p => some { translated := p.1, candidate := p.2, cost := costOf p.2 }

/-- One pass of the loop of `reconstructDepthAndColour` given the frame of candidate `zInd`. -/
def wtaStep {α : Type} (zInd : Nat) (f : Frame α) (s : WtaBuffers α) : WtaBuffers α :=
  selectAndMerge zInd
    { s with m_translatedImg := f.translated, m_reconsImgCandidate := f.candidate, m_cost := f.cost }

/-- The loop of `reconstructDepthAndColour` from candidate `zInd` on, with `remaining`
candidates still to process. -/
def reconstructFrom {α : Type} (est : DepthEstimator) (ops : PixelOps α) (costOf : Img α → Img Nat)
    (cols : Nat) (m_imgRectified : Img α) : Nat → Nat → WtaBuffers α → Option (WtaBuffers α)
  | 0, _, s => some s
  | remaining + 1, zInd, s =>
    match candidateFrame est ops costOf cols m_imgRectified zInd s.m_translatedImg with
    | none => none
    | some f => reconstructFrom est ops costOf cols m_imgRectified remaining (zInd + 1) (wtaStep zInd f s)

/-- `DepthEstimator::reconstructDepthAndColour`. -/
def reconstructDepthAndColour {α : Type} (est : DepthEstimator) (ops : PixelOps α)
    (costOf : Img α → Img Nat) (cols : Nat) (m_imgRectified : Img α) (s : WtaBuffers α) :
    Option (WtaBuffers α) :=
  reconstructFrom est ops costOf cols m_imgRectified est.m_zCount.toNat 0 s

/-- The candidate loop run over a given sequence of frames, starting at index `zInd`:
the winner-take-all reduction of lines 212-232 for an arbitrary sequence of cost fields. -/
def wtaLoop {α : Type} : List (Frame α) → Nat → WtaBuffers α → WtaBuffers α
  | [], _, s => s
  | f :: rest, zInd, s => wtaLoop rest (zInd + 1) (wtaStep zInd f s)

/-- The frames the loop of `reconstructDepthAndColour` computes, in order. -/
def candidateFrames {α : Type} (est : DepthEstimator) (ops : PixelOps α) (costOf : Img α → Img Nat)
    (cols : Nat) (m_imgRectified : Img α) : Nat → Nat → Img α → Option (List (Frame α))
  | 0, _, _ => some []
  | remaining + 1, zInd, m_translatedImg =>
    match candidateFrame est ops costOf cols m_imgRectified zInd m_translatedImg with
    | none => none
    | some f =>
      match candidateFrames est ops costOf cols m_imgRectified remaining (zInd + 1) f.translated with
      | none => none
      | some fs => some (f :: fs)

/-- Minimum of a non-empty sequence of costs, by brute force. -/
def minOfCosts : List Nat → Nat
  | [] => 0
  | [a] => a
  | a :: b :: rest => min a (minOfCosts (b :: rest))

/-! ## `unwarpAndFixColour` (`depth_estimator.cpp`, lines 236-254) -/

/-- The buffers at captured resolution (`m_reconsImg`) and at mask resolution (the others). -/
structure ConfBuffers (α : Type) where
  m_reconsImg : Img α
  m_reconsImgConf : Img α
  m_fullDisparityMapConf : Img Nat
  m_confidence : Img Nat
  m_minCostConf : Img Nat
  m_edgesGreyConf : Img Nat
  m_ConfHandle : Img Nat
  m_maskConfidence : Img Nat
  m_sparseDisparityMap : Img Nat

/-- `cv::remap(src, dst, map, noArray(), INTER_NEAREST)` with the default constant border 0:
`map r c = (x, y)` is the source position of destination pixel `(r, c)`. -/
def remapNearest (srcRows srcCols : Nat) (map : Img (Int × Int)) (src : Img Nat) : Img Nat :=
  fun r c =>
    if 0 ≤ (map r c).1 ∧ (map r c).1 < (srcCols : Int) ∧ 0 ≤ (map r c).2 ∧ (map r c).2 < (srcRows : Int)
    then src (map r c).2.toNat (map r c).1.toNat
    else 0

/-- The intensity correction of line 239, `(1 + tau) / (1 + tau^4)`. -/
def colourFix (tau : ℚ) : ℚ := (1 + tau) / (1 + tau ^ 4)

/-- `DepthEstimator::unwarpAndFixColour`.  `unrectify` and `unrectifyMask` stand for the two
bilinear `cv::remap` calls (lines 242-243); `invIndMask1` is the nearest-neighbour table;
the rectified grid is `rectRows x rectCols`, `m_img` is `imgRows x imgCols` and the
un-rectified image `outRows x outCols`.  A boundary rectangle that does not fit gives `none`. -/
def unwarpAndFixColour {α : Type} (est : DepthEstimator) (ops : PixelOps α)
    (unrectify unrectifyMask : Img α → Img α) (invIndMask1 : Img (Int × Int))
    (rectRows rectCols imgRows imgCols outRows outCols : Nat) (m_img : Img α)
    (w : WtaBuffers α) (s : ConfBuffers α) : Option (WtaBuffers α × ConfBuffers α) :=
  let fixed : Img α := fun r c => ops.scale (colourFix est.m_tau) (w.m_reconsImgRectified r c)
  let recons : Img α := unrectify fixed
  if 5 ≤ imgRows ∧ 40 ≤ imgCols ∧ imgRows ≤ outRows ∧ imgCols ≤ outCols then
    some
      ({ w with m_reconsImgRectified := fixed },
       { s with
         m_reconsImg := fun r c =>
           if imgCols - 40 ≤ c ∧ c < imgCols ∧ r < imgRows then m_img r c
           else if imgRows - 5 ≤ r ∧ r < imgRows ∧ c < imgCols then m_img r c
           else if r < 5 ∧ c < imgCols then m_img r c
           else recons r c
         m_reconsImgConf := unrectifyMask fixed
         m_fullDisparityMapConf := remapNearest rectRows rectCols invIndMask1 w.m_fullDisparityMap
         m_confidence := remapNearest rectRows rectCols invIndMask1 w.m_maxCost
         m_minCostConf := remapNearest rectRows rectCols invIndMask1 w.m_minCost })
  else none

/-! ## `maskDisparityMap` (`depth_estimator.cpp`, lines 256-288) -/

/-- `cv::erode` with the kernel `ones(2, 2)`: the anchor is the kernel centre `(1, 1)`, so
the minimum runs over the pixel itself and its left, upper and upper-left neighbours; the
default border never lowers the minimum. -/
def erode2x2 (src : Img Nat) : Img Nat :=
  fun r c =>
    let v0 : Nat := src r c
    let v1 : Nat := if 0 < c then min v0 (src r (c - 1)) else v0
    let v2 : Nat := if 0 < r then min v1 (src (r - 1) c) else v1
    if 0 < r ∧ 0 < c then min v2 (src (r - 1) (c - 1)) else v2

/-- Line 264: `int(float(m_winSize * m_fullDisparityMapConf.cols) / (m_fullDisparityMap.cols * 2))`. -/
def displacementOf (est : DepthEstimator) (confCols fullCols : Nat) : Int :=
  truncToInt (((est.m_winSize * (confCols : Int) : Int) : ℚ) / (((fullCols : Int) * 2 : Int) : ℚ))

/-- Lines 265-270: the copy of columns `[0, cols - displacement)` onto
`[displacement, cols)`, through `m_ConfHandle`. -/
def shiftColumns (displacement : Int) (cols : Nat) (img : Img Nat) : Img Nat :=
  fun r c => if displacement ≤ (c : Int) ∧ c < cols then img r (c - displacement.toNat) else img r c

/-- `DepthEstimator::maskDisparityMap`.  `gradGrey` stands for the library pipeline of lines
278-281 (`filter2D` twice, `add`, `cvtColor`); `confCols` is the width of the mask-resolution
buffers and `fullCols` that of `m_fullDisparityMap`.  A displacement outside `[0, confCols]`
makes the rectangles of lines 266-270 invalid: `none`. -/
def maskDisparityMap {α : Type} (est : DepthEstimator) (gradGrey : Img α → Img Nat)
    (confCols fullCols : Nat) (s : ConfBuffers α) : Option (ConfBuffers α) :=
  let spread : Img Nat := fun r c => s.m_confidence r c - s.m_minCostConf r c
  let maskCost : Img Nat := fun r c => maskOf (decide (spread r c ≤ est.m_threshCost))
  let displacement : Int := displacementOf est confCols fullCols
  if 0 ≤ displacement ∧ displacement ≤ (confCols : Int) then
    let disparity : Img Nat := shiftColumns displacement confCols s.m_fullDisparityMapConf
    let conf1 : Img Nat := shiftColumns displacement confCols s.m_confidence
    let conf2 : Img Nat := fun r c => conf1 r c - 1
    let conf3 : Img Nat := setToMasked 0 conf2 maskCost
    let conf4 : Img Nat := setToMasked 1 conf3 conf3
    let edges : Img Nat := gradGrey s.m_reconsImgConf
    let maskGrad : Img Nat := fun r c => maskOf (decide (edges r c < est.m_threshGrad))
    let conf5 : Img Nat := setToMasked 0 conf4 maskGrad
    let conf6 : Img Nat := erode2x2 conf5
    let maskZero : Img Nat := fun r c => maskOf (decide (conf6 r c = 0))
    some
      { s with
        m_minCostConf := spread
        m_ConfHandle := s.m_confidence
        m_edgesGreyConf := edges
        m_confidence := conf6
        m_maskConfidence := maskZero
        m_fullDisparityMapConf := setToMasked 0 disparity maskZero }
  else none

/-! ## `filterDisparity` (`depth_estimator.cpp`, lines 290-319) -/

/-- `cv::multiply(m_fullDisparityMapConf, 255. / m_zCount, _)` at one pixel of a `CV_8UC1` map. -/
def rescaleIndex (est : DepthEstimator) (v : Nat) : Nat :=
  saturateU8 (cvRound ((v : ℚ) * (255 / (est.m_zCount : ℚ))))

/-- `DepthEstimator::filterDisparity`.  `kernelBilateral` stands for the OpenCL kernel of
`bilateral_filter.cl` run on the rescaled map and the restored image. -/
def filterDisparity {α : Type} (est : DepthEstimator) (kernelBilateral : Img Nat → Img α → Img Nat)
    (s : ConfBuffers α) : ConfBuffers α :=
  let scaled : Img Nat := fun r c => rescaleIndex est (s.m_fullDisparityMapConf r c)
  if est.m_disparityFiltering then
    let filtered : Img Nat := kernelBilateral scaled s.m_reconsImgConf
    let diff : Img Nat := fun r c => (scaled r c - filtered r c) + (filtered r c - scaled r c)
    let maskOut : Img Nat := fun r c => maskOf (decide (6 < diff r c))
    { s with
      m_fullDisparityMapConf := diff
      m_maskConfidence := maskOut
      m_sparseDisparityMap := setToMasked 0 filtered maskOut }
  else
    { s with m_sparseDisparityMap := scaled }

/-! ## `getDepth` (`depth_estimator.h`, lines 184-202) -/

/-- `m_disparities[i]` for an `int` index; an index outside the vector reads 0 here (it is
undefined behaviour in the source). -/
def DepthEstimator.disparityAt (est : DepthEstimator) (i : Int) : ℚ :=
  if 0 ≤ i then est.m_disparities.getD i.toNat 0 else 0

/-- The local `minDepth` of `getDepth` (line 192). -/
def DepthEstimator.minDepth (est : DepthEstimator) : ℚ :=
  1 / (est.disparityAt (est.m_zCount - 1) / est.m_disparityCoef)

/-- The local `maxDepth` of `getDepth` (line 192). -/
def DepthEstimator.maxDepth (est : DepthEstimator) : ℚ :=
  1 / (est.disparityAt 0 / est.m_disparityCoef)

/-- Lines 189-194: the inverse depth of a filtered disparity-map value `v`. -/
def DepthEstimator.inverseDepth (est : DepthEstimator) (v : Nat) : ℚ :=
  ((v : ℚ) * (1 / 255) + (-1 / (est.m_zCount : ℚ))) * (1 / est.minDepth - 1 / est.maxDepth)
    + 1 / est.maxDepth

/-- `cv::divide(1., x, _)` on floating-point data: regular division; `none` is the
non-finite result of a zero divisor. -/
def reciprocal (x : ℚ) : Option ℚ :=
  if x = 0 then none else some (1 / x)

/-- `DepthEstimator::getDepth`: the returned depth map.  (The scratch mask
`m_maskConfidence` it also overwrites is not part of the result.) -/
def getDepth {α : Type} (est : DepthEstimator) (s : ConfBuffers α) : Img (Option ℚ) :=
  fun r c =>
    if s.m_sparseDisparityMap r c = 0 then some 0
    else reciprocal (est.inverseDepth (s.m_sparseDisparityMap r c))

/-- Consistency of the winner-take-all bookkeeping at pixel `(r, c)` after the candidates
`done` have been processed: the index map designates the last candidate whose cost equals
the running minimum, and the running-best image holds that candidate's restoration. -/
def WtaConsistent {α : Type} (done : List (Frame α)) (s : WtaBuffers α) (r c : Nat) : Prop :=
  1 ≤ s.m_fullDisparityMap r c ∧ s.m_fullDisparityMap r c ≤ done.length ∧
  ∃ f, done[s.m_fullDisparityMap r c - 1]? = some f ∧
    f.cost r c = s.m_minCost r c ∧
    s.m_reconsImgRectified r c = f.candidate r c ∧
    ∀ (j : Nat) (g : Frame α), s.m_fullDisparityMap r c - 1 < j → done[j]? = some g →
      s.m_minCost r c < g.cost r c

/-! ## `Rectifier` (`rectifier.cpp`) -/

/-- A two-channel float pixel (`cv::Point2f`, `CV_32FC2`): `(x, y)`. -/
abbrev Vec2 := ℚ × ℚ

/-- A pixel of a `rows x cols` field, read with the constant border 0 of `cv::remap`. -/
def pixelOrZero (rows cols : Nat) (src : Img Vec2) (y x : Int) : Vec2 :=
  if 0 ≤ x ∧ x < (cols : Int) ∧ 0 ≤ y ∧ y < (rows : Int) then src y.toNat x.toNat else (0, 0)

/-- Bilinear combination of the four neighbours `p00` (at `(x0, y0)`), `p10` (at `x0 + 1`),
`p01` (at `y0 + 1`) and `p11` with the fractional offsets `fx`, `fy`, in exact arithmetic. -/
def bilinearMix (fx fy : ℚ) (p00 p10 p01 p11 : Vec2) : Vec2 :=
  ((1 - fx) * (1 - fy) * p00.1 + fx * (1 - fy) * p10.1 + (1 - fx) * fy * p01.1 + fx * fy * p11.1,
   (1 - fx) * (1 - fy) * p00.2 + fx * (1 - fy) * p10.2 + (1 - fx) * fy * p01.2 + fx * fy * p11.2)

/-- The bilinear sample of a field at the exact position `pos = (x, y)`, pixels outside the
field counting as 0, in exact arithmetic: the sample as the specification words it, and the
composition of one field with another. -/
def bilinearSample (rows cols : Nat) (src : Img Vec2) (pos : Vec2) : Vec2 :=
  bilinearMix (pos.1 - (Int.floor pos.1 : ℚ)) (pos.2 - (Int.floor pos.2 : ℚ))
    (pixelOrZero rows cols src (Int.floor pos.2) (Int.floor pos.1))
    (pixelOrZero rows cols src (Int.floor pos.2) (Int.floor pos.1 + 1))
    (pixelOrZero rows cols src (Int.floor pos.2 + 1) (Int.floor pos.1))
    (pixelOrZero rows cols src (Int.floor pos.2 + 1) (Int.floor pos.1 + 1))

/-- OpenCV `saturate_cast<short>` of an integer. -/
def saturateS16 (z : Int) : Int :=
  if z < -32768 then -32768 else if 32767 < z then 32767 else z

/-- The weighted sum `S0*w0 + S1*w1 + S2*w2 + S3*w3` of `cv::remap` on a `float` source:
every product and every sum, taken left to right, is a `float` operation. -/
def mixF32 (w0 w1 w2 w3 s0 s1 s2 s3 : ℚ) : ℚ :=
  roundF32 (roundF32 (roundF32 (roundF32 (s0 * w0) + roundF32 (s1 * w1)) + roundF32 (s2 * w2))
    + roundF32 (s3 * w3))

/-- One destination pixel of `cv::remap(src, _, map, noArray(), INTER_LINEAR)` for the map
position `pos = (x, y)`, on the CPU path.  The position is converted to fixed point with 5
fractional bits, `cvRound(32 * x)`; the integer part, saturated to `short`, selects the 2 x 2
neighbourhood (constant border 0) and the fractional part, a multiple of `1/32`, the
weights of the interpolation table. -/
def remapLinear (rows cols : Nat) (src : Img Vec2) (pos : Vec2) : Vec2 :=
  (mixF32
      ((1 - ((cvRound (pos.1 * 32) % 32 : Int) : ℚ) / 32)
        * (1 - ((cvRound (pos.2 * 32) % 32 : Int) : ℚ) / 32))
      (((cvRound (pos.1 * 32) % 32 : Int) : ℚ) / 32
        * (1 - ((cvRound (pos.2 * 32) % 32 : Int) : ℚ) / 32))
      ((1 - ((cvRound (pos.1 * 32) % 32 : Int) : ℚ) / 32)
        * (((cvRound (pos.2 * 32) % 32 : Int) : ℚ) / 32))
      (((cvRound (pos.1 * 32) % 32 : Int) : ℚ) / 32
        * (((cvRound (pos.2 * 32) % 32 : Int) : ℚ) / 32))
      (pixelOrZero rows cols src (saturateS16 (cvRound (pos.2 * 32) / 32))
        (saturateS16 (cvRound (pos.1 * 32) / 32))).1
      (pixelOrZero rows cols src (saturateS16 (cvRound (pos.2 * 32) / 32))
        (saturateS16 (cvRound (pos.1 * 32) / 32) + 1)).1
      (pixelOrZero rows cols src (saturateS16 (cvRound (pos.2 * 32) / 32) + 1)
        (saturateS16 (cvRound (pos.1 * 32) / 32))).1
      (pixelOrZero rows cols src (saturateS16 (cvRound (pos.2 * 32) / 32) + 1)
        (saturateS16 (cvRound (pos.1 * 32) / 32) + 1)).1,
   mixF32
      ((1 - ((cvRound (pos.1 * 32) % 32 : Int) : ℚ) / 32)
        * (1 - ((cvRound (pos.2 * 32) % 32 : Int) : ℚ) / 32))
      (((cvRound (pos.1 * 32) % 32 : Int) : ℚ) / 32
        * (1 - ((cvRound (pos.2 * 32) % 32 : Int) : ℚ) / 32))
      ((1 - ((cvRound (pos.1 * 32) % 32 : Int) : ℚ) / 32)
        * (((cvRound (pos.2 * 32) % 32 : Int) : ℚ) / 32))
      (((cvRound (pos.1 * 32) % 32 : Int) : ℚ) / 32
        * (((cvRound (pos.2 * 32) % 32 : Int) : ℚ) / 32))
      (pixelOrZero rows cols src (saturateS16 (cvRound (pos.2 * 32) / 32))
        (saturateS16 (cvRound (pos.1 * 32) / 32))).2
      (pixelOrZero rows cols src (saturateS16 (cvRound (pos.2 * 32) / 32))
        (saturateS16 (cvRound (pos.1 * 32) / 32) + 1)).2
      (pixelOrZero rows cols src (saturateS16 (cvRound (pos.2 * 32) / 32) + 1)
        (saturateS16 (cvRound (pos.1 * 32) / 32))).2
      (pixelOrZero rows cols src (saturateS16 (cvRound (pos.2 * 32) / 32) + 1)
        (saturateS16 (cvRound (pos.1 * 32) / 32) + 1)).2)

/-- `cv::add` on a two-channel `float` pixel. -/
def addVec (a b : Vec2) : Vec2 := (roundF32 (a.1 + b.1), roundF32 (a.2 + b.2))

/-- Line 49: `bO2E = bO2D - bE2D`, a `float` subtraction per channel. -/
def differenceField (bO2D bE2D : Img Vec2) : Img Vec2 :=
  fun r c => (roundF32 ((bO2D r c).1 - (bE2D r c).1), roundF32 ((bO2D r c).2 - (bE2D r c).2))

/-- Line 52: `float baseline(cv::mean(bO2E)[0])`, the mean of the horizontal channel over the
field, converted to `float`; the `double` accumulation of `cv::mean` is taken as exact. -/
def baselineOf (rows cols : Nat) (bO2E : Img Vec2) : ℚ :=
  roundF32
    ((∑ r in Finset.range rows, ∑ c in Finset.range cols, (bO2E r c).1)
      / ((rows : ℚ) * (cols : ℚ)))

/-- Lines 49-53: the difference field divided, channel by channel, by the baseline, a `float`
division.  A zero baseline is outside the source's domain; the quotient then follows the
convention `x / 0 = 0`. -/
def normalisedField (rows cols : Nat) (bO2D bE2D : Img Vec2) : Img Vec2 :=
  fun r c =>
    (roundF32 ((differenceField bO2D bE2D r c).1
        / baselineOf rows cols (differenceField bO2D bE2D)),
     roundF32 ((differenceField bO2D bE2D r c).2
        / baselineOf rows cols (differenceField bO2D bE2D)))

/-- Lines 55-71: entry `(i, j)` of the forward field, column by column.  Column 0 is the
identity grid of lines 56-61: row 0 stays zero, row `i >= 1` holds
`(0, float(i) * float(bO2E.rows) / float(tformInd.rows))`, a `float` product followed by a
`float` quotient.  Column `j + 1` adds to column `j` the sample `cv::remap` takes from the
normalised field at the position column `j` holds. -/
def forwardColumn (rows cols : Nat) (bO2E : Img Vec2) : Nat → Nat → Vec2
  | 0, i =>
    if i = 0 then (0, 0)
    else (0, roundF32 (roundF32 (roundF32 (i : ℚ) * roundF32 (rows : ℚ)) / roundF32 (rows : ℚ)))
  | j + 1, i =>
    addVec (forwardColumn rows cols bO2E j i)
      (remapLinear rows cols bO2E (forwardColumn rows cols bO2E j i))

/-- A two-channel matrix with its size. -/
structure Field where
  rows : Nat
  cols : Nat
  px : Img Vec2

/-- `Rectifier::buildRectification` (lines 41-74) on two `rows x cols` offset fields: the
forward field `tformInd` and the returned baseline. -/
def buildRectification (rows cols : Nat) (bO2D bE2D : Img Vec2) : Field × ℚ :=
  ({ rows := rows
     cols := cols + 30
     px := fun i j => forwardColumn rows cols (normalisedField rows cols bO2D bE2D) j i },
   baselineOf rows cols (differenceField bO2D bE2D))

/-- The macro `POINTS_DIFF(a, bx, by)` (line 39): squared distance from `a` to `(bx, by)`. -/
def pointsDiff (a : Vec2) (bx bY : ℚ) : ℚ :=
  (a.1 - bx) * (a.1 - bx) + (a.2 - bY) * (a.2 - bY)

/-- Assignment to `mat.at(r, c)`. -/
def setPixel {α : Type} (img : Img α) (r c : Nat) (v : α) : Img α :=
  fun r2 c2 => if r2 = r ∧ c2 = c then v else img r2 c2

/-- The two matrices the scan of `reverseRectification` writes (lines 82-83). -/
structure ScatterState where
  invIndMat : Img Vec2
  bestDiff : Img ℚ

/-- Lines 103-113, the body of the loop on `k`, for the source pixel `(i, j)` mapped to
`currPos` with `currIndices = (cx, cy)`.  The test of line 109 reads
`bestDiff.at<float>(currIndices)`, the record of the cell `(cx, cy)`; lines 111-112 write
the cell `(x, y)`.  `bestDiff` has `bestRows x bestCols` entries (line 83): an access outside
it is undefined behaviour, `none`.  The cell `(x, y)` lies inside `invIndMat` by the test of
lines 95-96. -/
def testNeighbour (bestRows bestCols : Nat) (currPos : Vec2) (cx cy : Int) (i j k : Nat)
    (st : ScatterState) : Option ScatterState :=
  let x : Int := cx - 1 + ((k % 3 : Nat) : Int)
  let y : Int := cy - 1 + ((k / 3 : Nat) : Int)
  let diff : ℚ := pointsDiff currPos (x : ℚ) (y : ℚ) / 2
  if cy < (bestRows : Int) ∧ cx < (bestCols : Int) then
    if diff < st.bestDiff cy.toNat cx.toNat then
      if y < (bestRows : Int) ∧ x < (bestCols : Int) then
        some
          { bestDiff := setPixel st.bestDiff y.toNat x.toNat diff
            invIndMat := setPixel st.invIndMat y.toNat x.toNat ((j : ℚ), (i : ℚ)) }
      else none
    else some st
  else none

/-- Lines 89-115, the body of the scan for the source pixel `(i, j)`; `cv::Point2i(currPos)`
rounds each coordinate with `cvRound`.  `invRows x invCols` is the size of `invIndMat`,
`bestRows x bestCols` that of `bestDiff`. -/
def scatterPixel (invRows invCols : Int) (bestRows bestCols : Nat) (tformIndMat : Img Vec2)
    (i j : Nat) (st : ScatterState) : Option ScatterState :=
  if 1 < cvRound (tformIndMat i j).1 ∧ 1 < cvRound (tformIndMat i j).2 ∧
      cvRound (tformIndMat i j).1 < invCols - 1 ∧ cvRound (tformIndMat i j).2 < invRows - 1 then
    (List.range 9).foldl
      (fun acc k => acc.bind (testNeighbour bestRows bestCols (tformIndMat i j)
        (cvRound (tformIndMat i j).1) (cvRound (tformIndMat i j).2) i j k)) (some st)
  else some st

/-- Lines 87-116: the loop on `j` for row `i` of a field with `cols` columns. -/
def scatterRow (invRows invCols : Int) (tformIndMat : Img Vec2) (rows cols : Nat) (i : Nat)
    (st : ScatterState) : Option ScatterState :=
  (List.range (cols - 2)).foldl
    (fun acc j => acc.bind (scatterPixel invRows invCols rows cols tformIndMat i (j + 1)))
    (some st)

/-- Lines 85-117: the scan of a `rows x cols` field; `bestDiff` has the field's size. -/
def scatterScan (invRows invCols : Int) (tformIndMat : Img Vec2) (rows cols : Nat)
    (st : ScatterState) : Option ScatterState :=
  (List.range (rows - 2)).foldl
    (fun acc i => acc.bind (scatterRow invRows invCols tformIndMat rows cols (i + 1)))
    (some st)

/-- Source index and fractional offset of `cv::resize(..., INTER_LINEAR)` for destination
index `d`, a source of `srcSize` pixels and `scale` source pixels per destination pixel:
pixel centres are aligned and the position is clamped to the source. -/
def resizeCoord (srcSize : Nat) (scale : ℚ) (d : Nat) : Int × ℚ :=
  if Int.floor (((d : ℚ) + 1 / 2) * scale - 1 / 2) < 0 then (0, 0)
  else if (srcSize : Int) - 1 ≤ Int.floor (((d : ℚ) + 1 / 2) * scale - 1 / 2) then
    ((srcSize : Int) - 1, 0)
  else (Int.floor (((d : ℚ) + 1 / 2) * scale - 1 / 2),
    ((d : ℚ) + 1 / 2) * scale - 1 / 2 - (Int.floor (((d : ℚ) + 1 / 2) * scale - 1 / 2) : ℚ))

/-- One destination pixel of `cv::resize(src, _, _, INTER_LINEAR)` in exact arithmetic. -/
def resizeLinear (srcRows srcCols : Nat) (scaleY scaleX : ℚ) (src : Img Vec2) : Img Vec2 :=
  fun r c =>
    bilinearMix (resizeCoord srcCols scaleX c).2 (resizeCoord srcRows scaleY r).2
      (src (resizeCoord srcRows scaleY r).1.toNat (resizeCoord srcCols scaleX c).1.toNat)
      (src (resizeCoord srcRows scaleY r).1.toNat ((resizeCoord srcCols scaleX c).1 + 1).toNat)
      (src ((resizeCoord srcRows scaleY r).1 + 1).toNat (resizeCoord srcCols scaleX c).1.toNat)
      (src ((resizeCoord srcRows scaleY r).1 + 1).toNat
        ((resizeCoord srcCols scaleX c).1 + 1).toNat)

/-- The state of the scan before the first source: `zeros` and `ones` (lines 82-83). -/
def scatterInit : ScatterState where
  invIndMat := fun _ _ => (0, 0)
  bestDiff := fun _ _ => 1

/-- `Rectifier::reverseRectification` (lines 76-124) in exact arithmetic, for a forward field
`tformInd` and an inverse field initialised to `invRows x invCols`.  An empty matrix or a
non-positive scale makes `cv::resize` throw, and an access outside `bestDiff` during the scan
is undefined behaviour: `none`. -/
def reverseRectification (tformInd : Field) (invRows invCols : Nat) (scale : ℚ) :
    Option Field :=
  let upRows : Int := cvRound ((tformInd.rows : ℚ) * scale)
  let upCols : Int := cvRound ((tformInd.cols : ℚ) * scale)
  let matRows : Int := truncToInt ((invRows : ℚ) * scale)
  let matCols : Int := truncToInt ((invCols : ℚ) * scale)
  if tformInd.rows = 0 ∨ tformInd.cols = 0 ∨ scale ≤ 0 ∨ upRows ≤ 0 ∨ upCols ≤ 0 ∨
      invRows = 0 ∨ invCols = 0 ∨ matRows ≤ 0 ∨ matCols ≤ 0 then none
  else
    let tformIndGreater : Img Vec2 := fun r c =>
      ((resizeLinear tformInd.rows tformInd.cols (1 / scale) (1 / scale) tformInd.px r c).1 * scale,
       (resizeLinear tformInd.rows tformInd.cols (1 / scale) (1 / scale) tformInd.px r c).2 * scale)
    (scatterScan matRows matCols tformIndGreater upRows.toNat upCols.toNat scatterInit).map
      (fun final =>
        { rows := invRows
          cols := invCols
          px := fun r c =>
            ((resizeLinear matRows.toNat matCols.toNat ((matRows : ℚ) / (invRows : ℚ))
                ((matCols : ℚ) / (invCols : ℚ)) final.invIndMat r c).1 * (1 / scale) - 1,
             (resizeLinear matRows.toNat matCols.toNat ((matRows : ℚ) / (invRows : ℚ))
                ((matCols : ℚ) / (invCols : ℚ)) final.invIndMat r c).2 * (1 / scale) - 1) })

/-! ## The scan of `reverseRectification` without bounds

The same scan on matrices that are total functions.  It returns what `scatterScan` returns
whenever no access leaves `bestDiff`; the proofs about the scan are carried out on it. -/

/-- The body of the loop on `k` (`testNeighbour`) without the bounds of `bestDiff`. -/
def testNeighbourFree (currPos : Vec2) (cx cy : Int) (i j k : Nat) (st : ScatterState) :
    ScatterState :=
  let x : Int := cx - 1 + ((k % 3 : Nat) : Int)
  let y : Int := cy - 1 + ((k / 3 : Nat) : Int)
  let diff : ℚ := pointsDiff currPos (x : ℚ) (y : ℚ) / 2
  if diff < st.bestDiff cy.toNat cx.toNat then
    { bestDiff := setPixel st.bestDiff y.toNat x.toNat diff
      invIndMat := setPixel st.invIndMat y.toNat x.toNat ((j : ℚ), (i : ℚ)) }
  else st

/-- The body of the scan for one source pixel (`scatterPixel`) without the bounds of
`bestDiff`. -/
def scatterPixelFree (invRows invCols : Int) (tformIndMat : Img Vec2) (i j : Nat)
    (st : ScatterState) : ScatterState :=
  if 1 < cvRound (tformIndMat i j).1 ∧ 1 < cvRound (tformIndMat i j).2 ∧
      cvRound (tformIndMat i j).1 < invCols - 1 ∧ cvRound (tformIndMat i j).2 < invRows - 1 then
    (List.range 9).foldl
      (fun acc k => testNeighbourFree (tformIndMat i j) (cvRound (tformIndMat i j).1)
        (cvRound (tformIndMat i j).2) i j k acc) st
  else st

/-- The loop on `j` (`scatterRow`) without the bounds of `bestDiff`. -/
def scatterRowFree (invRows invCols : Int) (tformIndMat : Img Vec2) (cols : Nat) (i : Nat)
    (st : ScatterState) : ScatterState :=
  (List.range (cols - 2)).foldl
    (fun acc j => scatterPixelFree invRows invCols tformIndMat i (j + 1) acc) st

/-- The scan (`scatterScan`) without the bounds of `bestDiff`. -/
def scatterScanFree (invRows invCols : Int) (tformIndMat : Img Vec2) (rows cols : Nat)
    (st : ScatterState) : ScatterState :=
  (List.range (rows - 2)).foldl
    (fun acc i => scatterRowFree invRows invCols tformIndMat cols (i + 1) acc) st

/-- The identity forward field of `rows x cols` pixels: `forward(i, j) = (j, i)`. -/
def identityField (rows cols : Nat) : Field where
  rows := rows
  cols := cols
  px := fun i j => ((j : ℚ), (i : ℚ))

/-- Coordinate that the 6-fold upsampling of an identity field of `size` pixels, multiplied
by 6, holds at index `n`: `n - 5/2`, clamped to `[0, 6 * size - 6]`. -/
def clampedPos (size n : Nat) : ℚ :=
  if n ≤ 2 then 0 else if 6 * size ≤ n + 3 then 6 * (size : ℚ) - 6 else (n : ℚ) - 5 / 2

/-- The least even number that is at least `n`. -/
def ceilEven (n : Nat) : Nat := n + n % 2

/-- Source `(I, J)` has been processed once the scan has completed the rows `1..a` and the
first `b` source pixels of row `a + 1`. -/
abbrev scanned (a b I J : Nat) : Prop := I ≤ a ∨ (I = a + 1 ∧ J ≤ b)

/-- State of the scan over the upsampled identity field (`H` rows, inverse field `H x W`)
after the sources counted by `a` and `b`: an even centre `(X, Y)` keeps the record 1 until
its first source `(Y + 2, X + 2)` is processed and a record of at most `1/4` afterwards; a
cell `(x, y)` away from the last rows holds the first source of the centre
`(ceilEven x, ceilEven y)` once that source is processed, and zero before. -/
def ScatterInv (H W a b : Nat) (st : ScatterState) : Prop :=
  (∀ X Y : Nat, X % 2 = 0 → Y % 2 = 0 → 2 ≤ X → X + 2 ≤ 6 * W → 2 ≤ Y → Y + 6 ≤ 6 * H →
    (¬ scanned a b (Y + 2) (X + 2) → st.bestDiff Y X = 1) ∧
    (scanned a b (Y + 2) (X + 2) → st.bestDiff Y X ≤ 1 / 4)) ∧
  (∀ x y : Nat, 1 ≤ x → x + 2 ≤ 6 * W → 1 ≤ y → y + 7 ≤ 6 * H →
    st.invIndMat y x =
      if scanned a b (ceilEven y + 2) (ceilEven x + 2)
      then (((ceilEven x + 2 : Nat) : ℚ), ((ceilEven y + 2 : Nat) : ℚ)) else (0, 0))

/-- The forward field `forward(i, j) = (j, i + j / 8)` of `rows x cols` pixels: the identity
with every column lowered by one eighth of a pixel more than the previous one. -/
def tiltField (rows cols : Nat) : Field where
  rows := rows
  cols := cols
  px := fun i j => ((j : ℚ), (i : ℚ) + (j : ℚ) / 8)

/-- An 8 x 8 forward field: source `(1, 1)` maps to `(3, 3)`, source `(1, 2)` to
`(31/8, 31/8)`, every other source to the origin. -/
def clashField : Img Vec2 :=
  fun i j => if i = 1 ∧ j = 1 then (3, 3) else if i = 1 ∧ j = 2 then (31 / 8, 31 / 8) else (0, 0)

/-- The field `clashField` as an 8 x 8 matrix. -/
def clashTform : Field where
  rows := 8
  cols := 8
  px := clashField

/-- The forward field `tiltField 4 5` upsampled 6 times and multiplied by 6 (lines 79-80 of
`reverseRectification`). -/
def tiltUp : Img Vec2 := fun r c =>
  ((resizeLinear 4 5 (1 / 6) (1 / 6) (tiltField 4 5).px r c).1 * 6,
   (resizeLinear 4 5 (1 / 6) (1 / 6) (tiltField 4 5).px r c).2 * 6)

/-! ## The scan on an encoded state

For the evaluation of a whole scan the two matrices are kept as two natural numbers, one
digit in base 1024 for each cell of a window, and every state is evaluated before the next
step.  `codeScan_sound` relates the encoded scan to `scatterScanFree`. -/

/-- Digit `p` of `n` in base 1024. -/
def getDigit (n p : Nat) : Nat := n / 1024 ^ p % 1024

/-- The number `n` with its digit `p` in base 1024 replaced by `v`. -/
def setDigit (n p v : Nat) : Nat :=
  n / 1024 ^ (p + 1) * 1024 ^ (p + 1) + v * 1024 ^ p + n % 1024 ^ p

/-- The number whose first `n` digits in base 1024 are all 512. -/
def fillDigits : Nat → Nat
  | 0 => 0
  | n + 1 => setDigit (fillDigits n) n 512

/-- Evaluation of a natural number before its use. -/
def strictNat {β : Type} (n : Nat) (k : Nat → β) : β :=
  match n with
  | 0 => k 0
  | m + 1 => k (m + 1)

/-- Evaluation of an integer before its use. -/
def strictInt {β : Type} (z : Int) (k : Int → β) : β :=
  match z with
  | Int.ofNat n => strictNat n fun m => k (Int.ofNat m)
  | Int.negSucc n => strictNat n fun m => k (Int.negSucc m)

/-- A left fold of a fallible step that evaluates each state before the next step. -/
def foldStrict {ι : Type} (f : ι → Nat × Nat → Option (Nat × Nat)) :
    List ι → Option (Nat × Nat) → Option (Nat × Nat)
  | [], acc => acc
  | x :: xs, acc =>
    match acc with
    | none => none
    | some code =>
      match f x code with
      | none => none
      | some next => foldStrict f xs (some next)

/-- The body of the loop on `k` (`testNeighbourFree`) on the encoded state, for a source
mapped to `(p1 / 16, p2 / 16)`.  Cell `(r, c)` of a window `cols` wide is digit
`r * cols + c`; the first number holds the records in units of `1/512`, the second the
entries `(x, y)` as `32 * x + y`.  An entry that does not fit is `none`. -/
def codeTest (cols : Nat) (p1 p2 cx cy : Int) (i j k : Nat) (code : Nat × Nat) :
    Option (Nat × Nat) :=
  if (p1 - 16 * (cx - 1 + ((k % 3 : Nat) : Int))) * (p1 - 16 * (cx - 1 + ((k % 3 : Nat) : Int)))
      + (p2 - 16 * (cy - 1 + ((k / 3 : Nat) : Int))) * (p2 - 16 * (cy - 1 + ((k / 3 : Nat) : Int)))
      < ((getDigit code.1 (cy.toNat * cols + cx.toNat) : Nat) : Int) then
    if i < 32 ∧ j < 32 then
      strictNat
        (setDigit code.1
          ((cy - 1 + ((k / 3 : Nat) : Int)).toNat * cols + (cx - 1 + ((k % 3 : Nat) : Int)).toNat)
          ((p1 - 16 * (cx - 1 + ((k % 3 : Nat) : Int))) * (p1 - 16 * (cx - 1 + ((k % 3 : Nat) : Int)))
            + (p2 - 16 * (cy - 1 + ((k / 3 : Nat) : Int)))
              * (p2 - 16 * (cy - 1 + ((k / 3 : Nat) : Int)))).toNat) fun b =>
        strictNat
          (setDigit code.2
            ((cy - 1 + ((k / 3 : Nat) : Int)).toNat * cols
              + (cx - 1 + ((k % 3 : Nat) : Int)).toNat) (j * 32 + i)) fun v =>
          some (b, v)
    else none
  else some code

/-- The body of the scan for one source pixel (`scatterPixelFree`) on the encoded state.  A
position that is not a multiple of `1/16` is `none`. -/
def codePixel (cols : Nat) (invRows invCols : Int) (tformIndMat : Img Vec2) (i j : Nat)
    (code : Nat × Nat) : Option (Nat × Nat) :=
  if ((tformIndMat i j).1 * 16).den = 1 ∧ ((tformIndMat i j).2 * 16).den = 1 then
    strictInt ((tformIndMat i j).1 * 16).num fun p1 =>
      strictInt ((tformIndMat i j).2 * 16).num fun p2 =>
        strictInt (cvRound (tformIndMat i j).1) fun cx =>
          strictInt (cvRound (tformIndMat i j).2) fun cy =>
            if 1 < cx ∧ 1 < cy ∧ cx < invCols - 1 ∧ cy < invRows - 1 then
              foldStrict (fun k => codeTest cols p1 p2 cx cy i j k) (List.range 9) (some code)
            else some code
  else none

/-- The loop on `j` (`scatterRowFree`) on the encoded state. -/
def codeRow (cols : Nat) (invRows invCols : Int) (tformIndMat : Img Vec2) (fieldCols : Nat)
    (i : Nat) (code : Nat × Nat) : Option (Nat × Nat) :=
  foldStrict (fun j => codePixel cols invRows invCols tformIndMat i (j + 1))
    (List.range (fieldCols - 2)) (some code)

/-- The scan (`scatterScanFree`) on the encoded state. -/
def codeScan (cols : Nat) (invRows invCols : Int) (tformIndMat : Img Vec2)
    (fieldRows fieldCols : Nat) (code : Nat × Nat) : Option (Nat × Nat) :=
  foldStrict (fun i => codeRow cols invRows invCols tformIndMat fieldCols (i + 1))
    (List.range (fieldRows - 2)) (some code)

/-- The encoded state `code` holds the first `rows x cols` cells of the state `st`. -/
def Encodes (rows cols : Nat) (code : Nat × Nat) (st : ScatterState) : Prop :=
  ∀ r c : Nat, r < rows → c < cols →
    st.bestDiff r c = ((getDigit code.1 (r * cols + c) : Nat) : ℚ) / 512 ∧
    st.invIndMat r c =
      (((getDigit code.2 (r * cols + c) / 32 : Nat) : ℚ),
       ((getDigit code.2 (r * cols + c) % 32 : Nat) : ℚ))

/-! ## Concrete inputs used to evaluate the definitions -/

/-- Rectified-resolution buffers as the constructor leaves them: all zero. -/
def zeroBuffers : WtaBuffers Nat where
  m_translatedImg := fun _ _ => 0
  m_reconsImgCandidate := fun _ _ => 0
  m_cost := fun _ _ => 0
  m_minCost := fun _ _ => 0
  m_maxCost := fun _ _ => 0
  m_maskBest := fun _ _ => 0
  m_fullDisparityMap := fun _ _ => 0
  m_reconsImgRectified := fun _ _ => 0

/-- The frame of a candidate on a flat-grey image: restoration 128, cost 0 everywhere. -/
def flatFrame : Frame Nat where
  translated := fun _ _ => 37
  candidate := fun _ _ => 128
  cost := fun _ _ => 0

/-- A frame whose cost is `k` everywhere. -/
def constFrame (k : Nat) : Frame Nat where
  translated := fun _ _ => 0
  candidate := fun _ _ => k
  cost := fun _ _ => k

/-- The estimator built from `minZ = 4/3`, `maxZ = 4`, `disparityCoef = -4`, `tau = 1/4`,
`upsampling = 1` and the default window and thresholds, without a GPU context. -/
def demoEst : DepthEstimator where
  m_disparityCoef := -4
  m_tau := 1 / 4
  m_winSize := 61
  m_zCount := 3
  m_disparities := [-1, -2, -3]
  m_threshGrad := 220
  m_threshCost := 1
  m_disparityFiltering := false

/-- Mask-resolution buffers with running max `hi`, running min `lo` and disparity index `k`
at every pixel. -/
def constConf (hi lo k : Nat) : ConfBuffers Nat where
  m_reconsImg := fun _ _ => 0
  m_reconsImgConf := fun _ _ => 0
  m_fullDisparityMapConf := fun _ _ => k
  m_confidence := fun _ _ => hi
  m_minCostConf := fun _ _ => lo
  m_edgesGreyConf := fun _ _ => 0
  m_ConfHandle := fun _ _ => 0
  m_maskConfidence := fun _ _ => 0
  m_sparseDisparityMap := fun _ _ => 0

/-- A scene that is 1 on the non-negative columns and 0 to their left. -/
def demoScene : Nat → Int → ℚ := fun _ z => if 0 ≤ z then 1 else 0

/-- The capture of `demoScene` blended with ratio `tau` at disparity `d`. -/
def demoCaptured (tau : ℚ) (d : Nat) : Img ℚ :=
  fun r x => demoScene r (x : Int) + tau * demoScene r ((x : Int) - (d : Int))

/-- The estimator built from `minZ = 1`, `maxZ = 2`, `disparityCoef = -12`, `tau = 1/4`,
`upsampling = 1`, without a GPU context: seven candidates `-6, ..., -12`. -/
def sevenEst : DepthEstimator where
  m_disparityCoef := -12
  m_tau := 1 / 4
  m_winSize := 61
  m_zCount := 7
  m_disparities := [-6, -7, -8, -9, -10, -11, -12]
  m_threshGrad := 220
  m_threshCost := 1
  m_disparityFiltering := false

/-- The estimator built from `minZ = 1`, `maxZ = 2` and the positive `disparityCoef = 1/2`:
a single candidate. -/
def positiveCoefEst : DepthEstimator where
  m_disparityCoef := 1 / 2
  m_tau := 1 / 4
  m_winSize := 61
  m_zCount := 1
  m_disparities := [1 / 4]
  m_threshGrad := 220
  m_threshCost := 1
  m_disparityFiltering := false

/-! ## Theorems -/

theorem truncToInt_eq_floor {q : ℚ} (h : 0 ≤ q) : truncToInt q = Int.floor q := by
  simp [truncToInt, h]

/-- Fields of a constructed estimator, in terms of the constructor's arguments. -/
theorem DepthEstimator.new_eq_some {minZ maxZ disparityCoef tau upsampling : ℚ} {winSize : Int}
    {threshGrad threshCost : Nat} {gpu : Bool} {est : DepthEstimator}
    (h : DepthEstimator.new minZ maxZ disparityCoef tau upsampling winSize threshGrad
      threshCost gpu = some est) :
    est.m_zCount = truncToInt (upsampling * disparityCoef / maxZ
        - upsampling * disparityCoef / minZ + 3 / 2) ∧
    est.m_disparityCoef = upsampling * disparityCoef ∧
    est.m_disparities = (List.range est.m_zCount.toNat).map (fun (i : Nat) =>
      upsampling * disparityCoef / maxZ + (i : ℚ) *
        ((upsampling * disparityCoef / minZ - upsampling * disparityCoef / maxZ)
          / ((est.m_zCount - 1 : Int) : ℚ))) := by
  unfold DepthEstimator.new at h
  simp only [] at h
  split at h
  · exact absurd h (by simp)
  · split at h
    · exact absurd h (by simp)
    · cases Option.some.inj h
      exact ⟨rfl, rfl, rfl⟩

/-- A constructed estimator has a positive `upsampling` and a non-negative count. -/
theorem DepthEstimator.new_guards {minZ maxZ disparityCoef tau upsampling : ℚ} {winSize : Int}
    {threshGrad threshCost : Nat} {gpu : Bool} {est : DepthEstimator}
    (h : DepthEstimator.new minZ maxZ disparityCoef tau upsampling winSize threshGrad
      threshCost gpu = some est) :
    0 < upsampling ∧ 0 ≤ est.m_zCount := by
  unfold DepthEstimator.new at h
  simp only [] at h
  split at h
  · exact absurd h (by simp)
  · rename_i hup
    split at h
    · exact absurd h (by simp)
    · rename_i hz
      cases Option.some.inj h
      exact ⟨not_le.mp hup, not_lt.mp hz⟩

theorem truncToInt_bounds_of_two_le {q : ℚ} (h : 2 ≤ truncToInt q) :
    ((truncToInt q : Int) : ℚ) ≤ q ∧ q < ((truncToInt q : Int) : ℚ) + 1 := by
  unfold truncToInt at h ⊢
  by_cases hq : 0 ≤ q
  · simp only [hq, if_true] at h ⊢
    exact ⟨Int.floor_le q, Int.lt_floor_add_one q⟩
  · simp only [hq, if_false] at h
    have h0 : Int.ceil q ≤ 0 := by
      apply Int.ceil_le.mpr
      push_neg at hq
      exact_mod_cast hq.le
    omega

/-- The candidate at index `i` of a constructed estimator with count `N >= 2` is
`a + i * (b - a) / (N - 1)`, and the count brackets `a - b + 3/2`. -/
theorem DepthEstimator.new_candidates {minZ maxZ disparityCoef tau upsampling : ℚ} {winSize : Int}
    {threshGrad threshCost : Nat} {gpu : Bool} {est : DepthEstimator}
    (h : DepthEstimator.new minZ maxZ disparityCoef tau upsampling winSize threshGrad
      threshCost gpu = some est) (hN : 2 ≤ est.m_zCount) :
    est.m_disparities.length = est.m_zCount.toNat ∧
    (∀ i : Nat, (i : Int) < est.m_zCount → est.m_disparities[i]? = some
      (upsampling * disparityCoef / maxZ + (i : ℚ) *
        ((upsampling * disparityCoef / minZ - upsampling * disparityCoef / maxZ)
          / ((est.m_zCount : ℚ) - 1)))) ∧
    (est.m_zCount : ℚ) ≤ upsampling * disparityCoef / maxZ
        - upsampling * disparityCoef / minZ + 3 / 2 ∧
    upsampling * disparityCoef / maxZ - upsampling * disparityCoef / minZ + 3 / 2
      < (est.m_zCount : ℚ) + 1 := by
  obtain ⟨hz, -, hd⟩ := DepthEstimator.new_eq_some h
  have hb := truncToInt_bounds_of_two_le (hz ▸ hN)
  rw [← hz] at hb
  refine ⟨?_, ?_, hb.1, hb.2⟩
  · rw [hd]; simp
  · intro i hi
    have hi2 : i < est.m_zCount.toNat := by omega
    rw [hd, List.getElem?_map, List.getElem?_range hi2]
    simp

/-- C4. Depth Candidate Set endpoints and order: whenever the constructor derives
`N >= 2` candidates, in exact arithmetic `candidate[0] = upsampling*disparityCoef/maxDepth`,
`candidate[N-1] = upsampling*disparityCoef/minDepth`, and the `N` candidates are strictly
monotonic (strictly decreasing: each later candidate lies below each earlier one). -/
theorem candidates_endpoints_strictly_monotonic (minZ maxZ disparityCoef tau upsampling : ℚ)
    (winSize : Int) (threshGrad threshCost : Nat) (gpu : Bool) (est : DepthEstimator)
    (h : DepthEstimator.new minZ maxZ disparityCoef tau upsampling winSize threshGrad
      threshCost gpu = some est) (hN : 2 ≤ est.m_zCount) :
    est.m_disparities.length = est.m_zCount.toNat ∧
    est.m_disparities[0]? = some (upsampling * disparityCoef / maxZ) ∧
    est.m_disparities[(est.m_zCount - 1).toNat]? = some (upsampling * disparityCoef / minZ) ∧
    ∀ i j : Nat, i < j → (j : Int) < est.m_zCount →
      ∃ x y : ℚ, est.m_disparities[i]? = some x ∧ est.m_disparities[j]? = some y ∧ y < x := by
  obtain ⟨hlen, hget, hlo, hhi⟩ := DepthEstimator.new_candidates h hN
  have hN1 : (0 : ℚ) < (est.m_zCount : ℚ) - 1 := by
    have : (2 : ℚ) ≤ (est.m_zCount : ℚ) := by exact_mod_cast hN
    linarith
  refine ⟨hlen, ?_, ?_, ?_⟩
  · rw [hget 0 (by omega)]; simp
  · have hlast : (((est.m_zCount - 1).toNat : Nat) : Int) < est.m_zCount := by omega
    rw [hget _ hlast]
    have hc : (((est.m_zCount - 1).toNat : Nat) : ℚ) = (est.m_zCount : ℚ) - 1 := by
      have : (((est.m_zCount - 1).toNat : Nat) : Int) = est.m_zCount - 1 := by omega
      exact_mod_cast congrArg (fun z : Int => (z : ℚ)) this
    rw [hc]
    congr 1
    field_simp
  · intro i j hij hj
    refine ⟨_, _, hget i (by omega), hget j hj, ?_⟩
    have hstep : (upsampling * disparityCoef / minZ - upsampling * disparityCoef / maxZ)
        / ((est.m_zCount : ℚ) - 1) < 0 := by
      apply div_neg_of_neg_of_pos _ hN1
      have : (2 : ℚ) ≤ (est.m_zCount : ℚ) := by exact_mod_cast hN
      linarith
    have hijq : (i : ℚ) < (j : ℚ) := by exact_mod_cast hij
    nlinarith

/-- C5. Candidate spacing is about one pixel: whenever the constructor derives `N >= 2`
candidates, in exact arithmetic every consecutive difference `|candidate[i+1] - candidate[i]|`
differs from 1 by at most `1 / (2 * (N - 1))`, hence lies in `[1/2, 3/2]`. -/
theorem candidates_step_about_one (minZ maxZ disparityCoef tau upsampling : ℚ)
    (winSize : Int) (threshGrad threshCost : Nat) (gpu : Bool) (est : DepthEstimator)
    (h : DepthEstimator.new minZ maxZ disparityCoef tau upsampling winSize threshGrad
      threshCost gpu = some est) (hN : 2 ≤ est.m_zCount) :
    ∀ i : Nat, ((i + 1 : Nat) : Int) < est.m_zCount →
      ∃ x y : ℚ, est.m_disparities[i]? = some x ∧ est.m_disparities[i + 1]? = some y ∧
        |(|y - x|) - 1| ≤ 1 / (2 * ((est.m_zCount : ℚ) - 1)) ∧
        1 / 2 ≤ |y - x| ∧ |y - x| ≤ 3 / 2 := by
  obtain ⟨-, hget, hlo, hhi⟩ := DepthEstimator.new_candidates h hN
  have hN2 : (2 : ℚ) ≤ (est.m_zCount : ℚ) := by exact_mod_cast hN
  have hN1 : (0 : ℚ) < (est.m_zCount : ℚ) - 1 := by linarith
  intro i hi
  refine ⟨_, _, hget i (by omega), hget (i + 1) hi, ?_⟩
  set a := upsampling * disparityCoef / maxZ with ha
  set b := upsampling * disparityCoef / minZ with hb
  set n1 := (est.m_zCount : ℚ) - 1 with hn1
  have hdiff : a + ((i + 1 : Nat) : ℚ) * ((b - a) / n1) - (a + (i : ℚ) * ((b - a) / n1))
      = -((a - b) / n1) := by
    push_cast
    ring
  rw [hdiff, abs_neg]
  have hpos : 0 ≤ (a - b) / n1 := div_nonneg (by linarith) hN1.le
  rw [abs_of_nonneg hpos]
  have hle : (a - b) / n1 - 1 ≤ 1 / (2 * n1) := by
    rw [div_sub_one hN1.ne', div_le_div_iff₀ hN1 (by linarith)]
    nlinarith
  have hge : -(1 / (2 * n1)) ≤ (a - b) / n1 - 1 := by
    rw [div_sub_one hN1.ne', neg_le_iff_add_nonneg, div_add_div _ _ hN1.ne' (by linarith : (2 * n1) ≠ 0)]
    apply div_nonneg _ (by nlinarith)
    nlinarith
  have hhalf : 1 / (2 * n1) ≤ 1 / 2 := by
    rw [div_le_div_iff₀ (by linarith) (by norm_num)]
    linarith
  refine ⟨abs_le.mpr ⟨hge, hle⟩, by linarith, by linarith⟩

/-! ### The winner-take-all loop -/

theorem maskOf_ne_zero_iff (b : Bool) : maskOf b ≠ 0 ↔ b = true := by
  cases b <;> simp [maskOf]

theorem wtaStep_zero_minCost {α : Type} (f : Frame α) (s : WtaBuffers α) :
    (wtaStep 0 f s).m_minCost = f.cost := by
  simp [wtaStep, selectAndMerge]

theorem wtaStep_zero_map {α : Type} (f : Frame α) (s : WtaBuffers α) :
    (wtaStep 0 f s).m_fullDisparityMap = fun _ _ => 1 := by
  simp [wtaStep, selectAndMerge]

theorem wtaStep_succ_minCost {α : Type} (z : Nat) (f : Frame α) (s : WtaBuffers α) (r c : Nat) :
    (wtaStep (z + 1) f s).m_minCost r c = min (s.m_minCost r c) (f.cost r c) := by
  simp only [wtaStep, selectAndMerge, Nat.succ_ne_zero, if_false, copyToMasked,
    maskOf_ne_zero_iff, decide_eq_true_eq]
  split
  · rename_i h; exact (Nat.min_eq_right h).symm
  · rename_i h; exact (Nat.min_eq_left (by omega)).symm

theorem wtaStep_succ_map {α : Type} (z : Nat) (f : Frame α) (s : WtaBuffers α) (r c : Nat) :
    (wtaStep (z + 1) f s).m_fullDisparityMap r c =
      if f.cost r c ≤ s.m_minCost r c then saturateU8 (((z + 1 : Nat) : Int) + 1)
      else s.m_fullDisparityMap r c := by
  simp only [wtaStep, selectAndMerge, Nat.succ_ne_zero, if_false, setToMasked,
    maskOf_ne_zero_iff, decide_eq_true_eq]

theorem wtaLoop_succ_minCost {α : Type} (frames : List (Frame α)) (z : Nat) (s : WtaBuffers α)
    (r c : Nat) :
    (wtaLoop frames (z + 1) s).m_minCost r c =
      (frames.map (fun f => f.cost r c)).foldl min (s.m_minCost r c) := by
  induction frames generalizing z s with
  | nil => rfl
  | cons f rest ih =>
    simp only [wtaLoop, List.map_cons, List.foldl_cons]
    rw [ih, wtaStep_succ_minCost]

theorem foldl_min_comm (a b : Nat) (l : List Nat) :
    min a (l.foldl min b) = l.foldl min (min a b) := by
  induction l generalizing b with
  | nil => rfl
  | cons x rest ih =>
    simp only [List.foldl_cons]
    rw [ih, Nat.min_assoc]

theorem minOfCosts_cons (a : Nat) (l : List Nat) : minOfCosts (a :: l) = l.foldl min a := by
  induction l generalizing a with
  | nil => rfl
  | cons b rest ih =>
    simp only [minOfCosts, List.foldl_cons]
    rw [ih, foldl_min_comm]

theorem minOfCosts_le (l : List Nat) : ∀ x ∈ l, minOfCosts l ≤ x := by
  induction l with
  | nil => intro x hx; cases hx
  | cons a rest ih =>
    intro x hx
    cases rest with
    | nil =>
      simp only [List.mem_singleton] at hx
      simp [minOfCosts, hx]
    | cons b rest2 =>
      simp only [minOfCosts]
      rcases List.mem_cons.mp hx with h | h
      · rw [h]; exact Nat.min_le_left _ _
      · exact le_trans (Nat.min_le_right _ _) (ih x h)

theorem minOfCosts_mem (l : List Nat) (h : l ≠ []) : minOfCosts l ∈ l := by
  induction l with
  | nil => exact absurd rfl h
  | cons a rest ih =>
    cases rest with
    | nil => simp [minOfCosts]
    | cons b rest2 =>
      simp only [minOfCosts]
      rcases Nat.le_total a (minOfCosts (b :: rest2)) with h1 | h1
      · rw [Nat.min_eq_left h1]; exact List.mem_cons_self _ _
      · rw [Nat.min_eq_right h1]
        exact List.mem_cons_of_mem _ (ih (by simp))

/-- The interleaved loop of `reconstructDepthAndColour` is the winner-take-all loop run
over the frames it computes. -/
theorem reconstructFrom_eq_wtaLoop {α : Type} (est : DepthEstimator) (ops : PixelOps α)
    (costOf : Img α → Img Nat) (cols : Nat) (img : Img α) (n z : Nat) (s : WtaBuffers α) :
    reconstructFrom est ops costOf cols img n z s =
      (candidateFrames est ops costOf cols img n z s.m_translatedImg).map
        (fun frames => wtaLoop frames z s) := by
  induction n generalizing z s with
  | zero => rfl
  | succ n ih =>
    simp only [reconstructFrom, candidateFrames]
    cases hf : candidateFrame est ops costOf cols img z s.m_translatedImg with
    | none => rfl
    | some f =>
      simp only []
      rw [ih]
      have ht : (wtaStep z f s).m_translatedImg = f.translated := by
        unfold wtaStep selectAndMerge
        split <;> rfl
      rw [ht]
      cases candidateFrames est ops costOf cols img n (z + 1) f.translated with
      | none => rfl
      | some fs => rfl

/-- C1. Winner-take-all minimum: for every candidate count `N >= 1`, every sequence of `N`
per-pixel cost fields and every pixel, the running-min cost held in `m_minCost` when the
loop of `reconstructDepthAndColour` ends equals the minimum over all `N` candidates of the
cost at that pixel: it is the brute-force minimum, a lower bound of every candidate's cost,
and attained by one of them. -/
theorem wta_running_min_is_minimum {α : Type} (N : Nat) (hN : 1 ≤ N) (frames : List (Frame α))
    (hlen : frames.length = N) (s : WtaBuffers α) (r c : Nat) :
    (wtaLoop frames 0 s).m_minCost r c = minOfCosts (frames.map (fun f => f.cost r c)) ∧
    (∀ f ∈ frames, (wtaLoop frames 0 s).m_minCost r c ≤ f.cost r c) ∧
    (∃ f ∈ frames, (wtaLoop frames 0 s).m_minCost r c = f.cost r c) := by
  have hmin : (wtaLoop frames 0 s).m_minCost r c
      = minOfCosts (frames.map (fun f => f.cost r c)) := by
    cases frames with
    | nil => simp at hlen; omega
    | cons f rest =>
      simp only [wtaLoop, List.map_cons]
      rw [wtaLoop_succ_minCost, wtaStep_zero_minCost, minOfCosts_cons]
  have hne : frames.map (fun f => f.cost r c) ≠ [] := by
    cases frames with
    | nil => simp at hlen; omega
    | cons f rest => simp
  refine ⟨hmin, ?_, ?_⟩
  · intro f hf
    rw [hmin]
    exact minOfCosts_le _ _ (List.mem_map_of_mem _ hf)
  · obtain ⟨f, hf, hfe⟩ := List.mem_map.mp (minOfCosts_mem _ hne)
    exact ⟨f, hf, by rw [hmin]; exact hfe.symm⟩

theorem saturateU8_natCast (n : Nat) : saturateU8 (n : Int) = min n 255 := by
  unfold saturateU8
  split
  · omega
  · split <;> omega

theorem wtaLoop_succ_tie_map {α : Type} (frames : List (Frame α)) (z : Nat) (s : WtaBuffers α)
    (r c : Nat) (hne : frames ≠ [])
    (htie : ∀ f ∈ frames, f.cost r c = s.m_minCost r c) :
    (wtaLoop frames (z + 1) s).m_fullDisparityMap r c = min (z + 1 + frames.length) 255 := by
  induction frames generalizing z s with
  | nil => exact absurd rfl hne
  | cons f rest ih =>
    have hf : f.cost r c = s.m_minCost r c := htie f (List.mem_cons_self _ _)
    have hmin : (wtaStep (z + 1) f s).m_minCost r c = s.m_minCost r c := by
      rw [wtaStep_succ_minCost, hf, Nat.min_self]
    have hmap : (wtaStep (z + 1) f s).m_fullDisparityMap r c = min (z + 2) 255 := by
      rw [wtaStep_succ_map, if_pos (le_of_eq hf)]
      have := saturateU8_natCast (z + 2)
      push_cast at this ⊢
      rw [← this]
      congr 1
    simp only [wtaLoop]
    cases rest with
    | nil =>
      simp only [wtaLoop, List.length_singleton]
      exact hmap
    | cons g rest2 =>
      rw [ih (z + 1) (wtaStep (z + 1) f s) (by simp)]
      · simp only [List.length_cons]
        congr 1
        omega
      · intro f2 hf2
        rw [hmin]
        exact htie f2 (List.mem_cons_of_mem _ hf2)

/-- C2, as stated, fails. Two candidates tie at cost 0 on every pixel, yet the disparity
map at pixel `(0, 0)` holds 2, which designates candidate index 1, not candidate index 0. -/
theorem tie_first_candidate_wins_counterexample :
    (∀ f ∈ [flatFrame, flatFrame], ∀ g ∈ [flatFrame, flatFrame], ∀ r c : Nat,
      f.cost r c = g.cost r c) ∧
    (wtaLoop [flatFrame, flatFrame] 0 zeroBuffers).m_fullDisparityMap 0 0 = 2 := by
  refine ⟨?_, by decide⟩
  intro f hf g hg r c
  simp only [List.mem_cons, List.mem_singleton, List.not_mem_nil, or_false, or_self] at hf hg
  rw [hf, hg]

/-- C2, amended. Last-candidate-wins tie rule: if at a pixel every candidate yields the
same cost, then for every candidate count `N >= 1` the disparity map written by the loop of
`reconstructDepthAndColour` holds `min N 255` at that pixel; for `N <= 255` this is `N`,
which designates candidate index `N - 1`, the last candidate (the first only when `N = 1`). -/
theorem tie_last_candidate_wins {α : Type} (N : Nat) (hN : 1 ≤ N) (frames : List (Frame α))
    (hlen : frames.length = N) (s : WtaBuffers α) (r c : Nat)
    (htie : ∀ f ∈ frames, ∀ g ∈ frames, f.cost r c = g.cost r c) :
    (wtaLoop frames 0 s).m_fullDisparityMap r c = min N 255 := by
  cases frames with
  | nil => simp at hlen; omega
  | cons f rest =>
    simp only [wtaLoop]
    cases rest with
    | nil =>
      simp only [wtaLoop, wtaStep_zero_map]
      simp at hlen
      omega
    | cons g rest2 =>
      rw [wtaLoop_succ_tie_map _ _ _ _ _ (by simp)]
      · simp only [List.length_cons] at hlen ⊢
        congr 1
        omega
      · intro f2 hf2
        rw [wtaStep_zero_minCost]
        exact htie f2 (List.mem_cons_of_mem _ hf2) f (List.mem_cons_self _ _)

/-- Evaluation of `tie_last_candidate_wins` on three tied candidates. -/
theorem tie_last_candidate_wins_witness :
    (wtaLoop [flatFrame, flatFrame, flatFrame] 0 zeroBuffers).m_fullDisparityMap 0 0
      = min 3 255 :=
  tie_last_candidate_wins 3 (by decide) [flatFrame, flatFrame, flatFrame] rfl zeroBuffers 0 0
    (by
      intro f hf g hg
      simp only [List.mem_cons, List.mem_singleton, List.not_mem_nil, or_false, or_self] at hf hg
      rw [hf, hg])

/-- Evaluation of `wta_running_min_is_minimum` on the costs 5, 2, 7. -/
theorem wta_running_min_is_minimum_witness :
    (wtaLoop [constFrame 5, constFrame 2, constFrame 7] 0 zeroBuffers).m_minCost 0 0
        = minOfCosts ([constFrame 5, constFrame 2, constFrame 7].map (fun f => f.cost 0 0)) ∧
    (∀ f ∈ [constFrame 5, constFrame 2, constFrame 7],
      (wtaLoop [constFrame 5, constFrame 2, constFrame 7] 0 zeroBuffers).m_minCost 0 0
        ≤ f.cost 0 0) ∧
    (∃ f ∈ [constFrame 5, constFrame 2, constFrame 7],
      (wtaLoop [constFrame 5, constFrame 2, constFrame 7] 0 zeroBuffers).m_minCost 0 0
        = f.cost 0 0) :=
  wta_running_min_is_minimum 3 (by decide) [constFrame 5, constFrame 2, constFrame 7] rfl
    zeroBuffers 0 0

/-! ### Confidence masking -/

theorem erode2x2_eq_zero (src : Img Nat) (r c : Nat) (h : src r c = 0) : erode2x2 src r c = 0 := by
  unfold erode2x2
  simp only [h]
  split <;> split <;> split <;> simp

theorem cvRound_zero : cvRound 0 = 0 := by
  simp [cvRound]

theorem cvRound_intCast (z : Int) : cvRound (z : ℚ) = z := by
  simp [cvRound]

theorem rescaleIndex_zero (est : DepthEstimator) : rescaleIndex est 0 = 0 := by
  simp [rescaleIndex, cvRound_zero, saturateU8]

/-- A pixel disqualified by the cost-spread filter or by the edge filter ends
`maskDisparityMap` with confidence 0 and masked disparity 0. -/
theorem maskDisparityMap_unreliable_pixel {α : Type} (est : DepthEstimator)
    (gradGrey : Img α → Img Nat) (confCols fullCols : Nat) (s : ConfBuffers α)
    (hroi : 0 ≤ displacementOf est confCols fullCols ∧
      displacementOf est confCols fullCols ≤ (confCols : Int)) :
    ∃ s2, maskDisparityMap est gradGrey confCols fullCols s = some s2 ∧
      s2.m_reconsImgConf = s.m_reconsImgConf ∧
      ∀ r c : Nat,
        (s.m_confidence r c - s.m_minCostConf r c ≤ est.m_threshCost ∨
          gradGrey s.m_reconsImgConf r c < est.m_threshGrad) →
        s2.m_confidence r c = 0 ∧ s2.m_fullDisparityMapConf r c = 0 := by
  unfold maskDisparityMap
  simp only [hroi, and_self, if_true]
  refine ⟨_, rfl, rfl, ?_⟩
  intro r c hbad
  have hconf : erode2x2 (setToMasked 0 (setToMasked 1
      (setToMasked 0 (fun r c => shiftColumns (displacementOf est confCols fullCols) confCols
        s.m_confidence r c - 1)
        (fun r c => maskOf (decide (s.m_confidence r c - s.m_minCostConf r c ≤ est.m_threshCost))))
      (setToMasked 0 (fun r c => shiftColumns (displacementOf est confCols fullCols) confCols
        s.m_confidence r c - 1)
        (fun r c => maskOf (decide (s.m_confidence r c - s.m_minCostConf r c ≤ est.m_threshCost)))))
      (fun r c => maskOf (decide (gradGrey s.m_reconsImgConf r c < est.m_threshGrad)))) r c = 0 := by
    apply erode2x2_eq_zero
    rcases hbad with h | h
    · simp only [setToMasked, maskOf_ne_zero_iff, decide_eq_true_eq, h, if_true]
      simp
    · simp only [setToMasked, maskOf_ne_zero_iff, decide_eq_true_eq, h, if_true]
  refine ⟨hconf, ?_⟩
  simp only [setToMasked, maskOf_ne_zero_iff, decide_eq_true_eq]
  rw [if_pos hconf]

/-- The nearest-neighbour resampling of `unwarpAndFixColour` keeps a flat cost volume flat:
if the running max equals the running min on the rectified grid, then `m_confidence` equals
`m_minCostConf` at every pixel on entry of `maskDisparityMap`. -/
theorem unwarpAndFixColour_flat {α : Type} (est : DepthEstimator) (ops : PixelOps α)
    (unrectify unrectifyMask : Img α → Img α) (invIndMask1 : Img (Int × Int))
    (rectRows rectCols imgRows imgCols outRows outCols : Nat) (m_img : Img α)
    (w w1 : WtaBuffers α) (s s1 : ConfBuffers α)
    (hun : unwarpAndFixColour est ops unrectify unrectifyMask invIndMask1 rectRows rectCols
      imgRows imgCols outRows outCols m_img w s = some (w1, s1))
    (hflat : ∀ r c : Nat, w.m_maxCost r c = w.m_minCost r c) :
    ∀ r c : Nat, s1.m_confidence r c = s1.m_minCostConf r c := by
  unfold unwarpAndFixColour at hun
  simp only [] at hun
  split at hun
  · cases Option.some.inj hun
    intro r c
    simp only [remapNearest, hflat]
  · exact absurd hun (by simp)

/-- C3. Flat scene is fully unreliable: if the running-max cost (held in `m_confidence`
after the resampling of `unwarpAndFixColour`) equals the running-min cost (held in
`m_minCostConf`) at every pixel, then for every estimator, hence every value of `threshCost`
and `threshGrad`, `maskDisparityMap` completes (its displacement rectangle being valid) and
leaves the confidence map and the masked disparity map `m_fullDisparityMapConf` equal to 0
at every pixel. -/
theorem flat_scene_fully_unreliable {α : Type} (est : DepthEstimator)
    (gradGrey : Img α → Img Nat) (confCols fullCols : Nat) (s : ConfBuffers α)
    (hroi : 0 ≤ displacementOf est confCols fullCols ∧
      displacementOf est confCols fullCols ≤ (confCols : Int))
    (hflat : ∀ r c : Nat, s.m_confidence r c = s.m_minCostConf r c) :
    ∃ s2, maskDisparityMap est gradGrey confCols fullCols s = some s2 ∧
      ∀ r c : Nat, s2.m_confidence r c = 0 ∧ s2.m_fullDisparityMapConf r c = 0 := by
  obtain ⟨s2, h2, -, hz⟩ := maskDisparityMap_unreliable_pixel est gradGrey confCols fullCols s hroi
  refine ⟨s2, h2, fun r c => hz r c (Or.inl ?_)⟩
  rw [hflat r c, Nat.sub_self]
  exact Nat.zero_le _

/-- C8. Confidence monotonicity: if the cost-spread filter marks pixel `(r, c)` unreliable
(max cost minus min cost at the pixel `<= threshCost`) or the edge filter marks it unreliable
(grey gradient response at the pixel `< threshGrad`), then `maskDisparityMap` ends with
confidence 0 and masked disparity 0 at that pixel (the set-to-1 normalisation and the 2x2
erosion do not revive it), and on the non-GPU path the rescale of `filterDisparity` keeps
the filtered disparity at 0 and `getDepth` returns depth 0 there. -/
theorem confidence_monotone {α : Type} (est : DepthEstimator)
    (gradGrey : Img α → Img Nat) (kernelBilateral : Img Nat → Img α → Img Nat)
    (confCols fullCols : Nat) (s : ConfBuffers α) (r c : Nat)
    (hroi : 0 ≤ displacementOf est confCols fullCols ∧
      displacementOf est confCols fullCols ≤ (confCols : Int))
    (hbad : s.m_confidence r c - s.m_minCostConf r c ≤ est.m_threshCost ∨
      gradGrey s.m_reconsImgConf r c < est.m_threshGrad) :
    ∃ s2, maskDisparityMap est gradGrey confCols fullCols s = some s2 ∧
      s2.m_confidence r c = 0 ∧ s2.m_fullDisparityMapConf r c = 0 ∧
      (est.m_disparityFiltering = false →
        (filterDisparity est kernelBilateral s2).m_sparseDisparityMap r c = 0 ∧
        getDepth est (filterDisparity est kernelBilateral s2) r c = some 0) := by
  obtain ⟨s2, h2, -, hz⟩ := maskDisparityMap_unreliable_pixel est gradGrey confCols fullCols s hroi
  obtain ⟨hc, hd⟩ := hz r c hbad
  refine ⟨s2, h2, hc, hd, ?_⟩
  intro hgpu
  have hs : (filterDisparity est kernelBilateral s2).m_sparseDisparityMap r c = 0 := by
    simp only [filterDisparity, hgpu, Bool.false_eq_true, if_false, hd, rescaleIndex_zero]
  exact ⟨hs, by simp only [getDepth, hs, if_true]⟩

/-- C9. Depth sentinel: for every estimator whose depth bounds satisfy
`0 < minDepth < maxDepth` (the range in which every quotient of `getDepth` is defined) and
every filtered disparity map, `getDepth` returns depth 0 at a pixel if and only if the
filtered disparity-map value `m_sparseDisparityMap` at that pixel is 0; a non-zero value
gives a non-zero depth, or no finite depth at all. -/
theorem getDepth_zero_iff {α : Type} (est : DepthEstimator) (s : ConfBuffers α) (r c : Nat)
    (_hdepth : 0 < est.minDepth ∧ est.minDepth < est.maxDepth) :
    getDepth est s r c = some 0 ↔ s.m_sparseDisparityMap r c = 0 := by
  constructor
  · intro h
    by_contra hne
    simp only [getDepth, hne, if_false, reciprocal] at h
    split at h
    · exact absurd h (by simp)
    · rename_i hx
      have h1 := Option.some.inj h
      rw [one_div, inv_eq_zero] at h1
      exact hx h1
  · intro h
    simp only [getDepth, h, if_true]

/-! ### Depth conversion of a stored index -/

/-- When `N * k = 255`, the non-GPU rescale of a stored index `v <= N` is exactly `v * k`. -/
theorem rescaleIndex_of_dvd (est : DepthEstimator) (k v : Nat)
    (hk : est.m_zCount * (k : Int) = 255) (hv : (v : Int) ≤ est.m_zCount) :
    rescaleIndex est v = v * k := by
  have hN0 : (est.m_zCount : ℚ) ≠ 0 := by
    intro h0
    have : est.m_zCount = 0 := by exact_mod_cast h0
    rw [this] at hk
    omega
  have hkq : (est.m_zCount : ℚ) * (k : ℚ) = 255 := by exact_mod_cast congrArg (fun z : Int => (z : ℚ)) hk
  have hq : (v : ℚ) * (255 / (est.m_zCount : ℚ)) = (((v * k : Nat) : Int) : ℚ) := by
    push_cast
    field_simp
    rw [← hkq]
    ring
  unfold rescaleIndex
  rw [hq, cvRound_intCast, saturateU8_natCast]
  apply Nat.min_eq_left
  have hk0 : (0 : Int) ≤ (k : Int) := Int.natCast_nonneg k
  have : (v : Int) * (k : Int) ≤ 255 := by
    rw [← hk]
    exact Int.mul_le_mul_of_nonneg_right hv hk0
  exact_mod_cast this

/-- What `getDepth` computes for a stored index `v` (candidate `v - 1`) when `N * k = 255`:
the normalised disparity is `(v - 1) / N`, not `(v - 1) / (N - 1)`. -/
theorem inverseDepth_of_index (est : DepthEstimator) (k v : Nat)
    (hk : est.m_zCount * (k : Int) = 255) (hv : (v : Int) ≤ est.m_zCount) :
    est.inverseDepth (rescaleIndex est v) =
      (((v : ℚ) - 1) / (est.m_zCount : ℚ)) * (1 / est.minDepth - 1 / est.maxDepth)
        + 1 / est.maxDepth := by
  have hN0 : (est.m_zCount : ℚ) ≠ 0 := by
    intro h0
    have : est.m_zCount = 0 := by exact_mod_cast h0
    rw [this] at hk
    omega
  have hkq : (est.m_zCount : ℚ) * (k : ℚ) = 255 := by exact_mod_cast congrArg (fun z : Int => (z : ℚ)) hk
  rw [rescaleIndex_of_dvd est k v hk hv]
  unfold DepthEstimator.inverseDepth
  congr 2
  push_cast
  rw [← hkq]
  field_simp
  ring

/-! ### Restoration in exact arithmetic -/

theorem truncToInt_natCast_add_half (n : Nat) : truncToInt ((n : ℚ) + 1 / 2) = (n : Int) := by
  have h0 : (0 : ℚ) ≤ (n : ℚ) + 1 / 2 := by positivity
  rw [truncToInt_eq_floor h0, Int.floor_eq_iff]
  push_cast
  constructor <;> linarith

/-- The translation by a non-negative integer disparity that fits the image. -/
theorem translate_natCast {α : Type} (cols d : Nat) (hd : d ≤ cols) (recons translated : Img α) :
    translate cols (d : ℚ) recons translated =
      some (fun r c => if d ≤ c ∧ c < cols then recons r (c - d) else translated r c) := by
  have hneg : ¬ ((d : ℚ) < 0) := not_lt.mpr (Nat.cast_nonneg d)
  unfold translate
  simp only [hneg, if_false, truncToInt_natCast_add_half, Nat.cast_le, hd, if_true, Int.toNat_ofNat]

/-- The two passes of `restoreImage` in exact arithmetic, for a non-negative integer
disparity `d` with `2 * d <= cols`. -/
theorem restoreImage_exact (cols d : Nat) (tau : ℚ) (C T : Img ℚ) (h2 : 2 * d ≤ cols) :
    ∃ p, restoreImage exactOps cols (d : ℚ) tau C T = some p ∧
      ∀ r x : Nat, 3 * d ≤ x → x < cols →
        p.2 r x = C r x - tau * C r (x - d) + tau ^ 2 * C r (x - 2 * d)
          - tau ^ 3 * C r (x - 2 * d - d) := by
  have hd : d ≤ cols := by omega
  have hcast : (d : ℚ) * 2 = ((2 * d : Nat) : ℚ) := by push_cast; ring
  unfold restoreImage restoreRound
  rw [translate_natCast cols d hd]
  simp only [if_true, hcast]
  rw [translate_natCast cols (2 * d) h2]
  simp only [Nat.succ_ne_zero, if_false, one_ne_zero]
  refine ⟨_, rfl, ?_⟩
  intro r x h3 hx
  have c1 : d ≤ x ∧ x < cols := ⟨by omega, hx⟩
  have c2 : 2 * d ≤ x ∧ x < cols := ⟨by omega, hx⟩
  have c3 : d ≤ x - 2 * d ∧ x - 2 * d < cols := ⟨by omega, by omega⟩
  simp only [exactOps, c1, c2, c3, and_self, if_true]
  ring

/-- The closed form of `restoreImage` on a blended scene, at a column `x >= 3 * d`. -/
theorem restoreImage_exact_blend (cols d : Nat) (tau : ℚ) (O : Nat → Int → ℚ) (C T : Img ℚ)
    (hC : ∀ r x : Nat, x < cols → C r x = O r (x : Int) + tau * O r ((x : Int) - (d : Int)))
    (x : Nat) (h3 : 3 * d ≤ x) (hx : x < cols) :
    ∃ p, restoreImage exactOps cols (d : ℚ) tau C T = some p ∧
      ∀ r : Nat, p.2 r x = O r (x : Int) - tau ^ 4 * O r ((x : Int) - 4 * (d : Int)) := by
  obtain ⟨p, hp, hval⟩ := restoreImage_exact cols d tau C T (by omega)
  refine ⟨p, hp, fun r => ?_⟩
  rw [hval r x h3 hx, hC r x hx, hC r (x - d) (by omega), hC r (x - 2 * d) (by omega),
    hC r (x - 2 * d - d) (by omega)]
  have e1 : (((x - d : Nat) : Int)) = (x : Int) - d := by omega
  have e2 : (((x - 2 * d : Nat) : Int)) = (x : Int) - 2 * d := by omega
  have e3 : (((x - 2 * d - d : Nat) : Int)) = (x : Int) - 3 * d := by omega
  rw [e1, e2, e3]
  have a1 : (x : Int) - d - d = (x : Int) - 2 * d := by ring
  have a2 : (x : Int) - 2 * d - d = (x : Int) - 3 * d := by ring
  have a3 : (x : Int) - 3 * d - d = (x : Int) - 4 * d := by ring
  rw [a1, a2, a3]
  ring

/-- C6. Closed-form deblending: in exact arithmetic, for every `tau` (in particular every
`tau` in (0,1)), every integer disparity `d >= 0`, every scene `O` and captured image `C`
with `C(x) = O(x) + tau * O(x - d)` on its columns, at every column `x` with
`3 * d <= x < width` the call `restoreImage(d, tau, C)` completes and returns
`O(x) - tau^4 * O(x - 4 * d)`, whatever the scratch buffer held. -/
theorem restoreImage_closed_form (cols d : Nat) (tau : ℚ) (O : Nat → Int → ℚ) (C T : Img ℚ)
    (hC : ∀ r x : Nat, x < cols → C r x = O r (x : Int) + tau * O r ((x : Int) - (d : Int)))
    (x : Nat) (h3 : 3 * d ≤ x) (hx : x < cols) :
    ∃ p, restoreImage exactOps cols (d : ℚ) tau C T = some p ∧
      ∀ r : Nat, p.2 r x = O r (x : Int) - tau ^ 4 * O r ((x : Int) - 4 * (d : Int)) := by
  obtain ⟨p, hp, hval⟩ := restoreImage_exact cols d tau C T (by omega)
  refine ⟨p, hp, fun r => ?_⟩
  have e1 : (((x - d : Nat) : Int)) - (d : Int) = (x : Int) - 2 * d := by omega
  have e2 : (((x - 2 * d : Nat) : Int)) = (x : Int) - 2 * d := by omega
  have e3 : (((x - 2 * d - d : Nat) : Int)) = (x : Int) - 3 * d := by omega
  have e4 : (x : Int) - 2 * d - d = (x : Int) - 3 * d := by ring
  have e5 : (x : Int) - 3 * d - d = (x : Int) - 4 * d := by ring
  have e6 : (((x - d : Nat) : Int)) = (x : Int) - d := by omega
  rw [hval r x h3 hx, hC r x hx, hC r (x - d) (by omega), hC r (x - 2 * d) (by omega),
    hC r (x - 2 * d - d) (by omega), e1, e2, e3, e4, e5, e6]
  ring

theorem colourFix_error_bound (tau M u v : ℚ) (h0 : 0 < tau) (h1 : tau < 1)
    (hu : 0 ≤ u ∧ u ≤ M) (hv : 0 ≤ v ∧ v ≤ M) :
    |(u - tau ^ 4 * v) * colourFix tau - u| ≤ tau * M := by
  have hden : 0 < 1 + tau ^ 4 := by positivity
  have hM : 0 ≤ M := le_trans hu.1 hu.2
  have ht3 : tau ^ 3 ≤ 1 := pow_le_one₀ h0.le h1.le
  have ht4 : 0 ≤ tau ^ 4 := by positivity
  have ht3' : 0 ≤ tau ^ 3 := by positivity
  have key : (u - tau ^ 4 * v) * colourFix tau - u
      = (u * (tau - tau ^ 4) - v * (tau ^ 4 * (1 + tau))) / (1 + tau ^ 4) := by
    unfold colourFix
    field_simp
    ring
  rw [key, abs_le]
  constructor
  · rw [le_div_iff₀ hden]
    have hv1 : v * (tau ^ 4 * (1 + tau)) ≤ M * (tau ^ 4 * (1 + tau)) :=
      mul_le_mul_of_nonneg_right hv.2 (by positivity)
    have hu1 : 0 ≤ u * (tau - tau ^ 4) := by
      apply mul_nonneg hu.1
      have : tau ^ 4 = tau * tau ^ 3 := by ring
      rw [this]
      nlinarith
    have hM1 : M * (tau ^ 4 * (1 + tau)) ≤ tau * M * (1 + tau ^ 4) := by
      have : tau * M * (1 + tau ^ 4) - M * (tau ^ 4 * (1 + tau)) = M * tau * (1 - tau ^ 3) := by
        ring
      have h2 : 0 ≤ M * tau * (1 - tau ^ 3) :=
        mul_nonneg (mul_nonneg hM h0.le) (by linarith)
      linarith
    linarith
  · rw [div_le_iff₀ hden]
    have hu1 : u * (tau - tau ^ 4) ≤ M * (tau - tau ^ 4) := by
      apply mul_le_mul_of_nonneg_right hu.2
      have : tau ^ 4 = tau * tau ^ 3 := by ring
      rw [this]
      nlinarith
    have hv1 : 0 ≤ v * (tau ^ 4 * (1 + tau)) := mul_nonneg hv.1 (by positivity)
    have hM1 : M * (tau - tau ^ 4) ≤ tau * M * (1 + tau ^ 4) := by
      have : tau * M * (1 + tau ^ 4) - M * (tau - tau ^ 4) = M * tau ^ 4 * (1 + tau) := by ring
      have h2 : 0 ≤ M * tau ^ 4 * (1 + tau) := by positivity
      linarith
    linarith

/-- C7. Restoration error shrinks with tau: in exact arithmetic, for every `tau` in (0,1),
integer disparity `d >= 0` and scene `O` with `0 <= O <= M` blended as
`C(x) = O(x) + tau * O(x - d)`, the output of `restoreImage` multiplied by the correction
factor `(1 + tau) / (1 + tau^4)` of `unwarpAndFixColour` differs from `O(x)` by at most
`tau * M` at every column `x` with `3 * d <= x < width`; and that bound tends to 0 with
`tau`: it is below any `eps > 0` once `tau` is below some `delta > 0`. -/
theorem restoreImage_error_bound (cols d : Nat) (tau M : ℚ) (O : Nat → Int → ℚ) (C T : Img ℚ)
    (h0 : 0 < tau) (h1 : tau < 1) (hO : ∀ (r : Nat) (z : Int), 0 ≤ O r z ∧ O r z ≤ M)
    (hC : ∀ r x : Nat, x < cols → C r x = O r (x : Int) + tau * O r ((x : Int) - (d : Int)))
    (x : Nat) (h3 : 3 * d ≤ x) (hx : x < cols) :
    (∃ p, restoreImage exactOps cols (d : ℚ) tau C T = some p ∧
      ∀ r : Nat, |exactOps.scale (colourFix tau) (p.2 r x) - O r (x : Int)| ≤ tau * M) ∧
    (∀ eps : ℚ, 0 < eps → ∃ delta : ℚ, 0 < delta ∧
      ∀ t : ℚ, 0 < t → t < delta → t * M < eps) := by
  constructor
  · obtain ⟨p, hp, hval⟩ := restoreImage_exact_blend cols d tau O C T hC x h3 hx
    refine ⟨p, hp, fun r => ?_⟩
    rw [hval r]
    exact colourFix_error_bound tau M _ _ h0 h1 (hO r _) (hO r _)
  · intro eps heps
    have hM : 0 ≤ M := le_trans (hO 0 0).1 (hO 0 0).2
    refine ⟨eps / (M + 1), by positivity, fun t ht htd => ?_⟩
    have hM1 : 0 < M + 1 := by linarith
    rw [lt_div_iff₀ hM1] at htd
    nlinarith

/-! ### Evaluations on concrete inputs -/

theorem truncToInt_eq_of_bounds {q : ℚ} {n : Int} (h0 : 0 ≤ q) (h1 : (n : ℚ) ≤ q)
    (h2 : q < (n : ℚ) + 1) : truncToInt q = n := by
  rw [truncToInt_eq_floor h0, Int.floor_eq_iff]
  exact ⟨h1, h2⟩

theorem DepthEstimator.new_demo :
    DepthEstimator.new (4 / 3) 4 (-4) (1 / 4) 1 61 220 1 false = some demoEst := by
  have hq : ((1 : ℚ) * (-4) / 4 - 1 * (-4) / (4 / 3) + 3 / 2) = 7 / 2 := by norm_num
  have ht : truncToInt ((7 : ℚ) / 2) = 3 :=
    truncToInt_eq_of_bounds (by norm_num) (by norm_num) (by norm_num)
  have hw : truncToInt ((1 : ℚ) * ((61 : Int) : ℚ)) = 61 :=
    truncToInt_eq_of_bounds (by norm_num) (by norm_num) (by norm_num)
  unfold DepthEstimator.new
  simp only [hq, ht, hw]
  norm_num [demoEst, List.range, List.range.loop, Int.tmod]

theorem displacementOf_demo : displacementOf demoEst 40 70 = 17 := by
  unfold displacementOf
  exact truncToInt_eq_of_bounds (by norm_num [demoEst]) (by norm_num [demoEst])
    (by norm_num [demoEst])

theorem demoEst_roi :
    0 ≤ displacementOf demoEst 40 70 ∧ displacementOf demoEst 40 70 ≤ ((40 : Nat) : Int) := by
  rw [displacementOf_demo]
  decide

/-- Evaluation of `candidates_endpoints_strictly_monotonic` on the three candidates
`-1, -2, -3` of `demoEst`. -/
theorem candidates_endpoints_strictly_monotonic_witness :
    DepthEstimator.new (4 / 3) 4 (-4) (1 / 4) 1 61 220 1 false = some demoEst ∧
    2 ≤ demoEst.m_zCount ∧
    (demoEst.m_disparities.length = demoEst.m_zCount.toNat ∧
      demoEst.m_disparities[0]? = some ((1 : ℚ) * (-4) / 4) ∧
      demoEst.m_disparities[(demoEst.m_zCount - 1).toNat]? = some ((1 : ℚ) * (-4) / (4 / 3)) ∧
      ∀ i j : Nat, i < j → (j : Int) < demoEst.m_zCount →
        ∃ x y : ℚ, demoEst.m_disparities[i]? = some x ∧ demoEst.m_disparities[j]? = some y ∧
          y < x) :=
  ⟨DepthEstimator.new_demo, by decide,
    candidates_endpoints_strictly_monotonic (4 / 3) 4 (-4) (1 / 4) 1 61 220 1 false demoEst
      DepthEstimator.new_demo (by decide)⟩

/-- Evaluation of `candidates_step_about_one` on `demoEst`, whose step is exactly 1. -/
theorem candidates_step_about_one_witness :
    DepthEstimator.new (4 / 3) 4 (-4) (1 / 4) 1 61 220 1 false = some demoEst ∧
    2 ≤ demoEst.m_zCount ∧
    (∀ i : Nat, ((i + 1 : Nat) : Int) < demoEst.m_zCount →
      ∃ x y : ℚ, demoEst.m_disparities[i]? = some x ∧ demoEst.m_disparities[i + 1]? = some y ∧
        |(|y - x|) - 1| ≤ 1 / (2 * ((demoEst.m_zCount : ℚ) - 1)) ∧
        1 / 2 ≤ |y - x| ∧ |y - x| ≤ 3 / 2) :=
  ⟨DepthEstimator.new_demo, by decide,
    candidates_step_about_one (4 / 3) 4 (-4) (1 / 4) 1 61 220 1 false demoEst
      DepthEstimator.new_demo (by decide)⟩

/-- Evaluation of `flat_scene_fully_unreliable` on a flat cost volume (max = min = 9). -/
theorem flat_scene_fully_unreliable_witness :
    (∀ r c : Nat, (constConf 9 9 3).m_confidence r c = (constConf 9 9 3).m_minCostConf r c) ∧
    ∃ s2, maskDisparityMap demoEst (fun _ _ _ => 255) 40 70 (constConf 9 9 3) = some s2 ∧
      ∀ r c : Nat, s2.m_confidence r c = 0 ∧ s2.m_fullDisparityMapConf r c = 0 :=
  ⟨fun _ _ => rfl,
    flat_scene_fully_unreliable demoEst (fun _ _ _ => 255) 40 70 (constConf 9 9 3) demoEst_roi
      (fun _ _ => rfl)⟩

/-- Evaluation of `confidence_monotone` at a pixel whose cost spread `9 - 8 = 1` does not
exceed `threshCost = 1`, although its gradient response 255 passes the edge filter. -/
theorem confidence_monotone_witness :
    ((constConf 9 8 3).m_confidence 2 5 - (constConf 9 8 3).m_minCostConf 2 5
        ≤ demoEst.m_threshCost) ∧
    ∃ s2, maskDisparityMap demoEst (fun _ _ _ => 255) 40 70 (constConf 9 8 3) = some s2 ∧
      s2.m_confidence 2 5 = 0 ∧ s2.m_fullDisparityMapConf 2 5 = 0 ∧
      (demoEst.m_disparityFiltering = false →
        (filterDisparity demoEst (fun m _ => m) s2).m_sparseDisparityMap 2 5 = 0 ∧
        getDepth demoEst (filterDisparity demoEst (fun m _ => m) s2) 2 5 = some 0) :=
  ⟨by decide,
    confidence_monotone demoEst (fun _ _ _ => 255) (fun m _ => m) 40 70 (constConf 9 8 3) 2 5
      demoEst_roi (Or.inl (by decide))⟩

theorem demoEst_depths : demoEst.minDepth = 4 / 3 ∧ demoEst.maxDepth = 4 := by
  have hz : demoEst.m_zCount - 1 = 2 := by decide
  have hd2 : demoEst.disparityAt 2 = -3 := by simp [DepthEstimator.disparityAt, demoEst]
  have hd0 : demoEst.disparityAt 0 = -1 := by simp [DepthEstimator.disparityAt, demoEst]
  unfold DepthEstimator.minDepth DepthEstimator.maxDepth
  rw [hz, hd2, hd0]
  norm_num [demoEst]

/-- Evaluation of `getDepth_zero_iff` on `demoEst` (`minDepth = 4/3`, `maxDepth = 4`) and a
map that is 0 everywhere. -/
theorem getDepth_zero_iff_witness :
    (0 < demoEst.minDepth ∧ demoEst.minDepth < demoEst.maxDepth) ∧
    (getDepth demoEst (constConf 9 0 3) 0 0 = some 0 ↔
      (constConf 9 0 3).m_sparseDisparityMap 0 0 = 0) :=
  have hd : 0 < demoEst.minDepth ∧ demoEst.minDepth < demoEst.maxDepth := by
    rw [demoEst_depths.1, demoEst_depths.2]
    norm_num
  ⟨hd, getDepth_zero_iff demoEst (constConf 9 0 3) 0 0 hd⟩

theorem demoScene_bounds (r : Nat) (z : Int) : 0 ≤ demoScene r z ∧ demoScene r z ≤ 1 := by
  unfold demoScene
  split <;> norm_num

/-- Evaluation of `restoreImage_closed_form` on a step scene, `d = 1`, `tau = 1/2`, at
column 3 of a 4-column image. -/
theorem restoreImage_closed_form_witness :
    3 * 1 ≤ 3 ∧ 3 < 4 ∧
    ∃ p, restoreImage exactOps 4 ((1 : Nat) : ℚ) (1 / 2) (demoCaptured (1 / 2) 1)
        (fun _ _ => 7) = some p ∧
      ∀ r : Nat, p.2 r 3
        = demoScene r ((3 : Nat) : Int) - (1 / 2) ^ 4 * demoScene r (((3 : Nat) : Int) - 4 * ((1 : Nat) : Int)) :=
  ⟨by decide, by decide,
    restoreImage_closed_form 4 1 (1 / 2) demoScene (demoCaptured (1 / 2) 1) (fun _ _ => 7)
      (fun _ _ _ => rfl) 3 (by decide) (by decide)⟩

/-- Evaluation of `restoreImage_error_bound` on the same step scene, with `M = 1`. -/
theorem restoreImage_error_bound_witness :
    (0 : ℚ) < 1 / 2 ∧ (1 / 2 : ℚ) < 1 ∧
    ((∃ p, restoreImage exactOps 4 ((1 : Nat) : ℚ) (1 / 2) (demoCaptured (1 / 2) 1)
        (fun _ _ => 7) = some p ∧
      ∀ r : Nat, |exactOps.scale (colourFix (1 / 2)) (p.2 r 3) - demoScene r ((3 : Nat) : Int)|
        ≤ 1 / 2 * 1) ∧
    (∀ eps : ℚ, 0 < eps → ∃ delta : ℚ, 0 < delta ∧
      ∀ t : ℚ, 0 < t → t < delta → t * 1 < eps)) :=
  ⟨by norm_num, by norm_num,
    restoreImage_error_bound 4 1 (1 / 2) 1 demoScene (demoCaptured (1 / 2) 1) (fun _ _ => 7)
      (by norm_num) (by norm_num) demoScene_bounds (fun _ _ _ => rfl) 3 (by decide) (by decide)⟩

/-- C10, evaluated where it fails. With `minZ = 4/3`, `maxZ = 4`, `disparityCoef = -4` the
constructor derives `N = 3` candidates `-1, -2, -3` (255 is a multiple of 3). A reliable
pixel won by the last candidate (stored index 3) is rescaled to 255 on the non-GPU path and
`getDepth` returns `12/7` there, whereas `m_disparityCoef / candidate[2] = 4/3 = minZ`. -/
theorem getDepth_last_candidate_evaluation :
    DepthEstimator.new (4 / 3) 4 (-4) (1 / 4) 1 61 220 1 false = some demoEst ∧
    (filterDisparity demoEst (fun m _ => m) (constConf 9 0 3)).m_sparseDisparityMap 0 0 = 255 ∧
    getDepth demoEst (filterDisparity demoEst (fun m _ => m) (constConf 9 0 3)) 0 0
      = some (12 / 7) ∧
    demoEst.m_disparityCoef / demoEst.disparityAt 2 = 4 / 3 := by
  have hr : rescaleIndex demoEst 3 = 255 := by
    have h : ((3 : Nat) : ℚ) * (255 / ((3 : Int) : ℚ)) = ((255 : Int) : ℚ) := by norm_num
    unfold rescaleIndex
    simp only [demoEst, h, cvRound_intCast]
    decide
  have hs : (filterDisparity demoEst (fun m _ => m) (constConf 9 0 3)).m_sparseDisparityMap 0 0
      = 255 := by
    simp only [filterDisparity, demoEst, Bool.false_eq_true, if_false, constConf]
    exact hr
  have hd2 : demoEst.disparityAt 2 = -3 := by
    simp [DepthEstimator.disparityAt, demoEst]
  have hd0 : demoEst.disparityAt 0 = -1 := by
    simp [DepthEstimator.disparityAt, demoEst]
  have hinv : demoEst.inverseDepth 255 = 7 / 12 := by
    have hz : demoEst.m_zCount - 1 = 2 := by decide
    unfold DepthEstimator.inverseDepth DepthEstimator.minDepth DepthEstimator.maxDepth
    rw [hz, hd2, hd0]
    norm_num [demoEst]
  refine ⟨DepthEstimator.new_demo, hs, ?_, ?_⟩
  · simp only [getDepth, hs]
    rw [if_neg (by decide), hinv]
    norm_num [reciprocal]
  · rw [hd2]
    norm_num [demoEst]

/-! ### The candidate count -/

theorem two_le_truncToInt_iff (q : ℚ) : 2 ≤ truncToInt q ↔ 2 ≤ q := by
  constructor
  · intro h
    have hb := (truncToInt_bounds_of_two_le h).1
    have : (2 : ℚ) ≤ ((truncToInt q : Int) : ℚ) := by exact_mod_cast h
    linarith
  · intro h
    rw [truncToInt_eq_floor (by linarith)]
    exact Int.le_floor.mpr (by exact_mod_cast h)

theorem truncToInt_le_one_of_lt_two {q : ℚ} (h : q < 2) : truncToInt q ≤ 1 := by
  by_contra hc
  have h2 : 2 ≤ truncToInt q := by omega
  have := (two_le_truncToInt_iff q).mp h2
  linarith

theorem DepthEstimator.new_positiveCoef :
    DepthEstimator.new 1 2 (1 / 2) (1 / 4) 1 61 220 1 false = some positiveCoefEst := by
  have hq : ((1 : ℚ) * (1 / 2) / 2 - 1 * (1 / 2) / 1 + 3 / 2) = 5 / 4 := by norm_num
  have ht : truncToInt ((5 : ℚ) / 4) = 1 :=
    truncToInt_eq_of_bounds (by norm_num) (by norm_num) (by norm_num)
  have hw : truncToInt ((1 : ℚ) * ((61 : Int) : ℚ)) = 61 :=
    truncToInt_eq_of_bounds (by norm_num) (by norm_num) (by norm_num)
  unfold DepthEstimator.new
  simp only [hq, ht, hw]
  norm_num [positiveCoefEst, List.range, List.range.loop, Int.tmod]

/-- The candidate count in exact arithmetic: with `a = upsampling*disparityCoef/maxDepth`
and `b = upsampling*disparityCoef/minDepth`, an estimator constructed by `DepthEstimator.new`
has the count `N = a - b + 3/2` truncated toward zero, so `N >= 2` (and then the divisor
`N - 1` of the step is non-zero) if and only if `a - b >= 1/2`; in particular for every
`0 < minDepth < maxDepth` and every `disparityCoef > 0` the count is at most 1, there are
no two candidates for a step to separate, and when the count is 1 the divisor is 0. -/
theorem candidate_count_guard (minZ maxZ disparityCoef tau upsampling : ℚ)
    (winSize : Int) (threshGrad threshCost : Nat) (gpu : Bool) (est : DepthEstimator)
    (h : DepthEstimator.new minZ maxZ disparityCoef tau upsampling winSize threshGrad
      threshCost gpu = some est) :
    est.m_zCount = truncToInt (upsampling * disparityCoef / maxZ
        - upsampling * disparityCoef / minZ + 3 / 2) ∧
    ((2 ≤ est.m_zCount ∧ ((est.m_zCount - 1 : Int) : ℚ) ≠ 0) ↔
      1 / 2 ≤ upsampling * disparityCoef / maxZ - upsampling * disparityCoef / minZ) ∧
    (0 < minZ → minZ < maxZ → 0 < disparityCoef →
      est.m_zCount ≤ 1 ∧ est.m_disparities.length ≤ 1 ∧
      (est.m_zCount = 1 → ((est.m_zCount - 1 : Int) : ℚ) = 0)) := by
  obtain ⟨hz, -, hd⟩ := DepthEstimator.new_eq_some h
  obtain ⟨hup, -⟩ := DepthEstimator.new_guards h
  refine ⟨hz, ?_, ?_⟩
  · rw [hz, two_le_truncToInt_iff]
    constructor
    · rintro ⟨h2, -⟩
      linarith
    · intro h2
      have h3 : (2 : ℚ) ≤ upsampling * disparityCoef / maxZ
          - upsampling * disparityCoef / minZ + 3 / 2 := by linarith
      refine ⟨h3, ?_⟩
      have h4 := (two_le_truncToInt_iff _).mpr h3
      have h5 : (truncToInt (upsampling * disparityCoef / maxZ
          - upsampling * disparityCoef / minZ + 3 / 2) - 1 : Int) ≠ 0 := by omega
      exact_mod_cast h5
  · intro hmin hlt hcoef
    have hc : 0 < upsampling * disparityCoef := mul_pos hup hcoef
    have hmax : 0 < maxZ := lt_trans hmin hlt
    have hab : upsampling * disparityCoef / maxZ < upsampling * disparityCoef / minZ :=
      div_lt_div_of_pos_left hc hmin hlt
    have hN : est.m_zCount ≤ 1 := by
      rw [hz]
      exact truncToInt_le_one_of_lt_two (by linarith)
    refine ⟨hN, ?_, ?_⟩
    · rw [hd]
      simp only [List.length_map, List.length_range]
      omega
    · intro h1
      rw [h1]
      norm_num

/-- Evaluation of `candidate_count_guard` on `minZ = 1 < maxZ = 2`, `disparityCoef = 1/2`:
one candidate. -/
theorem candidate_count_guard_witness :
    DepthEstimator.new 1 2 (1 / 2) (1 / 4) 1 61 220 1 false = some positiveCoefEst ∧
    positiveCoefEst.m_zCount = truncToInt ((1 : ℚ) * (1 / 2) / 2 - 1 * (1 / 2) / 1 + 3 / 2) ∧
    ((2 ≤ positiveCoefEst.m_zCount ∧ ((positiveCoefEst.m_zCount - 1 : Int) : ℚ) ≠ 0) ↔
      1 / 2 ≤ (1 : ℚ) * (1 / 2) / 2 - 1 * (1 / 2) / 1) ∧
    ((0 : ℚ) < 1 → (1 : ℚ) < 2 → (0 : ℚ) < 1 / 2 →
      positiveCoefEst.m_zCount ≤ 1 ∧ positiveCoefEst.m_disparities.length ≤ 1 ∧
      (positiveCoefEst.m_zCount = 1 → ((positiveCoefEst.m_zCount - 1 : Int) : ℚ) = 0)) :=
  ⟨DepthEstimator.new_positiveCoef,
    candidate_count_guard 1 2 (1 / 2) (1 / 4) 1 61 220 1 false positiveCoefEst
      DepthEstimator.new_positiveCoef⟩

/-! ### The range of the converted depth -/

theorem cvRound_sub_le (q : ℚ) :
    ((cvRound q : Int) : ℚ) - q ≤ 1 / 2 ∧ q - ((cvRound q : Int) : ℚ) ≤ 1 / 2 := by
  have h1 := Int.floor_le q
  have h2 := Int.lt_floor_add_one q
  unfold cvRound
  split
  · constructor <;> linarith
  · split
    · push_cast
      constructor <;> linarith
    · split
      · constructor <;> linarith
      · push_cast
        constructor <;> linarith

theorem cvRound_eq_of_lt_half {q : ℚ} {n : Int} (h1 : (n : ℚ) ≤ q) (h2 : q - (n : ℚ) < 1 / 2) :
    cvRound q = n := by
  have hf : Int.floor q = n := by
    rw [Int.floor_eq_iff]
    exact ⟨h1, by linarith⟩
  unfold cvRound
  rw [hf, if_pos h2]

/-- The non-GPU rescale of a stored index `1 <= v <= N <= 255`: a value in `[1, 255]` within
`1/2` of `255 * v / N`. -/
theorem rescaleIndex_bounds (est : DepthEstimator) (v : Nat) (hN : est.m_zCount ≤ 255)
    (hv1 : 1 ≤ v) (hv : (v : Int) ≤ est.m_zCount) :
    1 ≤ rescaleIndex est v ∧ rescaleIndex est v ≤ 255 ∧
    |((rescaleIndex est v : Nat) : ℚ) - 255 * (v : ℚ) / (est.m_zCount : ℚ)| ≤ 1 / 2 := by
  have hNpos : (0 : ℚ) < (est.m_zCount : ℚ) := by
    have : (1 : Int) ≤ est.m_zCount := by omega
    have h1 : ((1 : Int) : ℚ) ≤ (est.m_zCount : ℚ) := by exact_mod_cast this
    push_cast at h1
    linarith
  have hNq : (est.m_zCount : ℚ) ≤ 255 := by exact_mod_cast hN
  have hvq : (v : ℚ) ≤ (est.m_zCount : ℚ) := by exact_mod_cast hv
  have hv1q : (1 : ℚ) ≤ (v : ℚ) := by exact_mod_cast hv1
  have hq : (v : ℚ) * (255 / (est.m_zCount : ℚ)) = 255 * (v : ℚ) / (est.m_zCount : ℚ) := by
    ring
  have hlo : (1 : ℚ) ≤ 255 * (v : ℚ) / (est.m_zCount : ℚ) := by
    rw [le_div_iff₀ hNpos]
    nlinarith
  have hhi : 255 * (v : ℚ) / (est.m_zCount : ℚ) ≤ 255 := by
    rw [div_le_iff₀ hNpos]
    nlinarith
  obtain ⟨hr1, hr2⟩ := cvRound_sub_le (255 * (v : ℚ) / (est.m_zCount : ℚ))
  have hz1 : (1 : Int) ≤ cvRound (255 * (v : ℚ) / (est.m_zCount : ℚ)) := by
    have : (0 : ℚ) < ((cvRound (255 * (v : ℚ) / (est.m_zCount : ℚ)) : Int) : ℚ) := by linarith
    have h0 : (0 : Int) < cvRound (255 * (v : ℚ) / (est.m_zCount : ℚ)) := by exact_mod_cast this
    omega
  have hz2 : cvRound (255 * (v : ℚ) / (est.m_zCount : ℚ)) ≤ 255 := by
    have : ((cvRound (255 * (v : ℚ) / (est.m_zCount : ℚ)) : Int) : ℚ) < 256 := by linarith
    have h0 : cvRound (255 * (v : ℚ) / (est.m_zCount : ℚ)) < 256 := by exact_mod_cast this
    omega
  have hs : ((rescaleIndex est v : Nat) : Int) = cvRound (255 * (v : ℚ) / (est.m_zCount : ℚ)) := by
    unfold rescaleIndex saturateU8
    rw [hq, if_neg (by omega), if_neg (by omega)]
    omega
  have hsq : ((rescaleIndex est v : Nat) : ℚ)
      = ((cvRound (255 * (v : ℚ) / (est.m_zCount : ℚ)) : Int) : ℚ) := by
    exact_mod_cast congrArg (fun z : Int => (z : ℚ)) hs
  refine ⟨by omega, by omega, ?_⟩
  rw [hsq, abs_le]
  constructor <;> linarith

/-- The normalised disparity `s/255 - 1/N` of the rescaled index `v`, compared with
`(v - 1) / N`: the rounding moves it by at most `1/510`. -/
theorem normalised_disparity_bounds (est : DepthEstimator) (v : Nat) (hN2 : 2 ≤ est.m_zCount)
    (hN : est.m_zCount ≤ 255) (hv1 : 1 ≤ v) (hv : (v : Int) ≤ est.m_zCount) :
    -(1 / 510) ≤ ((rescaleIndex est v : Nat) : ℚ) * (1 / 255) + (-1 / (est.m_zCount : ℚ)) ∧
    ((rescaleIndex est v : Nat) : ℚ) * (1 / 255) + (-1 / (est.m_zCount : ℚ)) ≤ 1 ∧
    (2 ≤ v → 0 ≤ ((rescaleIndex est v : Nat) : ℚ) * (1 / 255) + (-1 / (est.m_zCount : ℚ))) := by
  obtain ⟨-, -, habs⟩ := rescaleIndex_bounds est v hN hv1 hv
  have hN2q : (2 : ℚ) ≤ (est.m_zCount : ℚ) := by exact_mod_cast hN2
  have hNpos : (0 : ℚ) < (est.m_zCount : ℚ) := by linarith
  have hNq : (est.m_zCount : ℚ) ≤ 255 := by exact_mod_cast hN
  have hvq : (v : ℚ) ≤ (est.m_zCount : ℚ) := by exact_mod_cast hv
  have hv1q : (1 : ℚ) ≤ (v : ℚ) := by exact_mod_cast hv1
  obtain ⟨ha, hb⟩ := abs_le.mp habs
  have key : ((rescaleIndex est v : Nat) : ℚ) * (1 / 255) + (-1 / (est.m_zCount : ℚ))
      = ((v : ℚ) - 1) / (est.m_zCount : ℚ)
        + (((rescaleIndex est v : Nat) : ℚ) - 255 * (v : ℚ) / (est.m_zCount : ℚ)) / 255 := by
    field_simp
    ring
  have hfrac0 : 0 ≤ ((v : ℚ) - 1) / (est.m_zCount : ℚ) := div_nonneg (by linarith) hNpos.le
  have hfrac1 : ((v : ℚ) - 1) / (est.m_zCount : ℚ) ≤ 1 - 1 / (est.m_zCount : ℚ) := by
    rw [div_le_iff₀ hNpos]
    field_simp
    linarith
  have hinv : 1 / 255 ≤ 1 / (est.m_zCount : ℚ) := by
    rw [div_le_div_iff₀ (by norm_num) hNpos]
    linarith
  rw [key]
  refine ⟨by linarith, by linarith, ?_⟩
  intro hv2
  have hv2q : (2 : ℚ) ≤ (v : ℚ) := by exact_mod_cast hv2
  have hfrac2 : 1 / (est.m_zCount : ℚ) ≤ ((v : ℚ) - 1) / (est.m_zCount : ℚ) := by
    rw [div_le_div_iff₀ hNpos hNpos]
    nlinarith
  linarith

theorem DepthEstimator.new_seven :
    DepthEstimator.new 1 2 (-12) (1 / 4) 1 61 220 1 false = some sevenEst := by
  have hq : ((1 : ℚ) * (-12) / 2 - 1 * (-12) / 1 + 3 / 2) = 15 / 2 := by norm_num
  have ht : truncToInt ((15 : ℚ) / 2) = 7 :=
    truncToInt_eq_of_bounds (by norm_num) (by norm_num) (by norm_num)
  have hw : truncToInt ((1 : ℚ) * ((61 : Int) : ℚ)) = 61 :=
    truncToInt_eq_of_bounds (by norm_num) (by norm_num) (by norm_num)
  unfold DepthEstimator.new
  simp only [hq, ht, hw]
  norm_num [sevenEst, List.range, List.range.loop, Int.tmod]

theorem rescaleIndex_seven_one : rescaleIndex sevenEst 1 = 36 := by
  have h : cvRound (((1 : Nat) : ℚ) * (255 / ((7 : Int) : ℚ))) = 36 :=
    cvRound_eq_of_lt_half (by norm_num) (by norm_num)
  unfold rescaleIndex
  simp only [sevenEst, h]
  decide

theorem sevenEst_depths : sevenEst.minDepth = 1 ∧ sevenEst.maxDepth = 2 := by
  have hz : sevenEst.m_zCount - 1 = 6 := by decide
  have hd6 : sevenEst.disparityAt 6 = -12 := by simp [DepthEstimator.disparityAt, sevenEst]
  have hd0 : sevenEst.disparityAt 0 = -6 := by simp [DepthEstimator.disparityAt, sevenEst]
  unfold DepthEstimator.minDepth DepthEstimator.maxDepth
  rw [hz, hd6, hd0]
  norm_num [sevenEst]

/-- C11, evaluated where it fails. With `minZ = 1`, `maxZ = 2`, `disparityCoef = -12` the
constructor derives `N = 7` candidates, in exact and in `float` arithmetic alike. A reliable
pixel won by the first candidate (stored index 1) is rescaled to `round(255/7) = 36`, whose
normalised disparity `36/255 - 1/7 = -1/595` is negative, outside the `[0, 1]` range that
`getDepth` maps to `[1/maxDepth, 1/minDepth]`, and `getDepth` returns `595/297`, above
`maxDepth = 2`. -/
theorem depth_range_counterexample :
    DepthEstimator.new 1 2 (-12) (1 / 4) 1 61 220 1 false = some sevenEst ∧
    DepthEstimator.zCountFloat 1 2 (-12) 1 = sevenEst.m_zCount ∧
    (filterDisparity sevenEst (fun m _ => m) (constConf 9 0 1)).m_sparseDisparityMap 0 0 = 36 ∧
    ((36 : Nat) : ℚ) * (1 / 255) + (-1 / (sevenEst.m_zCount : ℚ)) < 0 ∧
    getDepth sevenEst (filterDisparity sevenEst (fun m _ => m) (constConf 9 0 1)) 0 0
      = some (595 / 297) ∧
    sevenEst.maxDepth = 2 ∧ (2 : ℚ) < 595 / 297 := by
  have hs : (filterDisparity sevenEst (fun m _ => m) (constConf 9 0 1)).m_sparseDisparityMap 0 0
      = 36 := by
    simp only [filterDisparity, sevenEst, Bool.false_eq_true, if_false, constConf]
    exact rescaleIndex_seven_one
  have hinv : sevenEst.inverseDepth 36 = 297 / 595 := by
    unfold DepthEstimator.inverseDepth
    rw [sevenEst_depths.1, sevenEst_depths.2]
    norm_num [sevenEst]
  refine ⟨DepthEstimator.new_seven, by decide!, hs, by norm_num [sevenEst], ?_,
    sevenEst_depths.2, by norm_num⟩
  simp only [getDepth, hs]
  rw [if_neg (by decide), hinv]
  norm_num [reciprocal]

/-- The depth returned for a non-zero filtered value whose normalised disparity lies in
`[0, 1]` lies in `[minDepth, maxDepth]`. -/
theorem getDepth_in_range {α : Type} (est : DepthEstimator) (s : ConfBuffers α) (r c : Nat)
    (hdepth : 0 < est.minDepth ∧ est.minDepth < est.maxDepth)
    (hs : s.m_sparseDisparityMap r c ≠ 0)
    (h0 : 0 ≤ ((s.m_sparseDisparityMap r c : Nat) : ℚ) * (1 / 255) + (-1 / (est.m_zCount : ℚ)))
    (h1 : ((s.m_sparseDisparityMap r c : Nat) : ℚ) * (1 / 255) + (-1 / (est.m_zCount : ℚ)) ≤ 1) :
    ∃ d : ℚ, getDepth est s r c = some d ∧ est.minDepth ≤ d ∧ d ≤ est.maxDepth := by
  obtain ⟨hmin, hlt⟩ := hdepth
  have hmax : 0 < est.maxDepth := lt_trans hmin hlt
  have hinvlt : 1 / est.maxDepth < 1 / est.minDepth := one_div_lt_one_div_of_lt hmin hlt
  have hinvpos : 0 < 1 / est.maxDepth := one_div_pos.mpr hmax
  set t := ((s.m_sparseDisparityMap r c : Nat) : ℚ) * (1 / 255) + (-1 / (est.m_zCount : ℚ))
    with ht
  have hlo : 1 / est.maxDepth ≤ est.inverseDepth (s.m_sparseDisparityMap r c) := by
    unfold DepthEstimator.inverseDepth
    rw [← ht]
    have := mul_nonneg h0 (sub_pos.mpr hinvlt).le
    linarith
  have hhi : est.inverseDepth (s.m_sparseDisparityMap r c) ≤ 1 / est.minDepth := by
    unfold DepthEstimator.inverseDepth
    rw [← ht]
    have := mul_le_mul_of_nonneg_right h1 (sub_pos.mpr hinvlt).le
    linarith
  have hpos : 0 < est.inverseDepth (s.m_sparseDisparityMap r c) := lt_of_lt_of_le hinvpos hlo
  refine ⟨1 / est.inverseDepth (s.m_sparseDisparityMap r c), ?_, ?_, ?_⟩
  · simp only [getDepth, hs, if_false, reciprocal, hpos.ne']
  · rw [le_div_iff₀ hpos]
    rw [le_div_iff₀ hmin] at hhi
    linarith
  · rw [div_le_iff₀ hpos]
    rw [div_le_iff₀ hmax] at hlo
    linarith

/-- The extent of the excursion out of the depth range: for every candidate count
`N` with `2 <= N <= 255` and every stored index `v` with `1 <= v <= N`, the value
`s = round(255*v/N)` produced on the non-GPU path has normalised disparity `s/255 - 1/N` in
`[-1/510, 1]`, and in `[0, 1]` whenever `v >= 2`; whenever that normalised disparity is
non-negative (so for every `v >= 2`) and `0 < minDepth < maxDepth`, the depth `getDepth`
returns lies in `[minDepth, maxDepth]`.  Only the first candidate can leave the range. -/
theorem depth_range_amended {α : Type} (est : DepthEstimator)
    (kernelBilateral : Img Nat → Img α → Img Nat) (s : ConfBuffers α) (r c : Nat)
    (hN2 : 2 ≤ est.m_zCount) (hN : est.m_zCount ≤ 255)
    (hgpu : est.m_disparityFiltering = false)
    (hv1 : 1 ≤ s.m_fullDisparityMapConf r c)
    (hv : ((s.m_fullDisparityMapConf r c : Nat) : Int) ≤ est.m_zCount)
    (hdepth : 0 < est.minDepth ∧ est.minDepth < est.maxDepth) :
    (filterDisparity est kernelBilateral s).m_sparseDisparityMap r c
      = rescaleIndex est (s.m_fullDisparityMapConf r c) ∧
    -(1 / 510) ≤ ((rescaleIndex est (s.m_fullDisparityMapConf r c) : Nat) : ℚ) * (1 / 255)
      + (-1 / (est.m_zCount : ℚ)) ∧
    ((rescaleIndex est (s.m_fullDisparityMapConf r c) : Nat) : ℚ) * (1 / 255)
      + (-1 / (est.m_zCount : ℚ)) ≤ 1 ∧
    (2 ≤ s.m_fullDisparityMapConf r c →
      0 ≤ ((rescaleIndex est (s.m_fullDisparityMapConf r c) : Nat) : ℚ) * (1 / 255)
        + (-1 / (est.m_zCount : ℚ))) ∧
    (0 ≤ ((rescaleIndex est (s.m_fullDisparityMapConf r c) : Nat) : ℚ) * (1 / 255)
        + (-1 / (est.m_zCount : ℚ)) →
      ∃ d : ℚ, getDepth est (filterDisparity est kernelBilateral s) r c = some d ∧
        est.minDepth ≤ d ∧ d ≤ est.maxDepth) := by
  have hs : (filterDisparity est kernelBilateral s).m_sparseDisparityMap r c
      = rescaleIndex est (s.m_fullDisparityMapConf r c) := by
    simp only [filterDisparity, hgpu, Bool.false_eq_true, if_false]
  obtain ⟨hb1, hb2, hb3⟩ := normalised_disparity_bounds est _ hN2 hN hv1 hv
  obtain ⟨hr1, -, -⟩ := rescaleIndex_bounds est _ hN hv1 hv
  refine ⟨hs, hb1, hb2, hb3, ?_⟩
  intro h0
  apply getDepth_in_range est _ r c hdepth
  · rw [hs]; omega
  · rw [hs]; exact h0
  · rw [hs]; exact hb2

/-- Evaluation of `depth_range_amended` on `sevenEst` at a pixel won by the second
candidate (stored index 2). -/
theorem depth_range_amended_witness :
    (2 ≤ (constConf 9 0 2).m_fullDisparityMapConf 0 0 →
      0 ≤ ((rescaleIndex sevenEst ((constConf 9 0 2).m_fullDisparityMapConf 0 0) : Nat) : ℚ)
        * (1 / 255) + (-1 / (sevenEst.m_zCount : ℚ))) ∧
    (0 ≤ ((rescaleIndex sevenEst ((constConf 9 0 2).m_fullDisparityMapConf 0 0) : Nat) : ℚ)
        * (1 / 255) + (-1 / (sevenEst.m_zCount : ℚ)) →
      ∃ d : ℚ, getDepth sevenEst (filterDisparity sevenEst (fun m _ => m) (constConf 9 0 2)) 0 0
          = some d ∧ sevenEst.minDepth ≤ d ∧ d ≤ sevenEst.maxDepth) :=
  have hd : 0 < sevenEst.minDepth ∧ sevenEst.minDepth < sevenEst.maxDepth := by
    rw [sevenEst_depths.1, sevenEst_depths.2]
    norm_num
  (depth_range_amended sevenEst (fun m _ => m) (constConf 9 0 2) 0 0 (by decide) (by decide)
    rfl (by decide) (by decide) hd).2.2.2

/-! ### The boundary override -/

/-- C12. Boundary override: for every input frame with at least 5 rows and 40 columns whose
size equals that of the inverse field, `unwarpAndFixColour` completes, and the restored image
equals the captured input at every pixel of the top 5 rows, the bottom 5 rows and the
rightmost 40 columns, while every other pixel keeps the value produced by the bilinear
un-rectification of the intensity-corrected best restoration. -/
theorem boundary_override {α : Type} (est : DepthEstimator) (ops : PixelOps α)
    (unrectify unrectifyMask : Img α → Img α) (invIndMask1 : Img (Int × Int))
    (rectRows rectCols imgRows imgCols : Nat) (m_img : Img α)
    (w : WtaBuffers α) (s : ConfBuffers α) (hrows : 5 ≤ imgRows) (hcols : 40 ≤ imgCols) :
    ∃ w1 s1, unwarpAndFixColour est ops unrectify unrectifyMask invIndMask1 rectRows rectCols
        imgRows imgCols imgRows imgCols m_img w s = some (w1, s1) ∧
      ∀ r c : Nat, r < imgRows → c < imgCols →
        ((r < 5 ∨ imgRows - 5 ≤ r ∨ imgCols - 40 ≤ c) → s1.m_reconsImg r c = m_img r c) ∧
        (¬ (r < 5 ∨ imgRows - 5 ≤ r ∨ imgCols - 40 ≤ c) →
          s1.m_reconsImg r c = unrectify
            (fun y x => ops.scale (colourFix est.m_tau) (w.m_reconsImgRectified y x)) r c) := by
  unfold unwarpAndFixColour
  simp only [hrows, hcols, le_refl, and_self, if_true]
  refine ⟨_, _, rfl, ?_⟩
  intro r c hr hc
  constructor
  · intro hband
    simp only [hr, hc, and_true]
    split
    · rfl
    · split
      · rfl
      · rw [if_pos]
        rcases hband with h | h | h
        · exact h
        · rename_i h2 h3; exact absurd h h3
        · rename_i h2 h3; exact absurd h h2
  · intro hband
    push_neg at hband
    obtain ⟨h1, h2, h3⟩ := hband
    simp only [hr, hc, and_true]
    rw [if_neg (by omega), if_neg (by omega), if_neg (by omega)]

/-- Evaluation of `boundary_override` on a 6 x 41 frame of value 200 over an all-zero
restoration: pixel `(5, 40)` of the bottom-right corner shows the captured value. -/
theorem boundary_override_witness :
    ∃ w1 s1, unwarpAndFixColour demoEst u8Ops (fun i => i) (fun i => i) (fun r c => ((c : Int), (r : Int)))
        6 71 6 41 6 41 (fun _ _ => 200) zeroBuffers (constConf 0 0 0) = some (w1, s1) ∧
      s1.m_reconsImg 5 40 = 200 := by
  obtain ⟨w1, s1, h, hpix⟩ := boundary_override demoEst u8Ops (fun i => i) (fun i => i)
    (fun r c => ((c : Int), (r : Int))) 6 71 6 41 (fun _ _ => 200) zeroBuffers (constConf 0 0 0)
    (by decide) (by decide)
  exact ⟨w1, s1, h, (hpix 5 40 (by decide) (by decide)).1 (Or.inr (Or.inl (by decide)))⟩

/-! ### Winner-take-all bookkeeping -/

theorem wtaStep_succ_recons {α : Type} (z : Nat) (f : Frame α) (s : WtaBuffers α) (r c : Nat) :
    (wtaStep (z + 1) f s).m_reconsImgRectified r c =
      if f.cost r c ≤ s.m_minCost r c then f.candidate r c
      else s.m_reconsImgRectified r c := by
  simp only [wtaStep, selectAndMerge, Nat.succ_ne_zero, if_false, copyToMasked,
    maskOf_ne_zero_iff, decide_eq_true_eq]

theorem wtaStep_zero_recons {α : Type} (f : Frame α) (s : WtaBuffers α) :
    (wtaStep 0 f s).m_reconsImgRectified = f.candidate := by
  simp [wtaStep, selectAndMerge]

theorem wtaLoop_zero_minCost {α : Type} (frames : List (Frame α)) (hne : frames ≠ [])
    (s : WtaBuffers α) (r c : Nat) :
    (wtaLoop frames 0 s).m_minCost r c = minOfCosts (frames.map (fun f => f.cost r c)) := by
  cases frames with
  | nil => exact absurd rfl hne
  | cons f rest =>
    simp only [wtaLoop, List.map_cons]
    rw [wtaLoop_succ_minCost, wtaStep_zero_minCost, minOfCosts_cons]

theorem wtaStep_consistent {α : Type} (done : List (Frame α)) (f : Frame α) (s : WtaBuffers α)
    (r c : Nat) (hpos : 1 ≤ done.length) (hlen : done.length + 1 ≤ 255)
    (h : WtaConsistent done s r c) :
    WtaConsistent (done ++ [f]) (wtaStep done.length f s) r c := by
  obtain ⟨z, hz⟩ : ∃ z, done.length = z + 1 := ⟨done.length - 1, by omega⟩
  obtain ⟨h1, h2, g, hg, hcost, hrec, hlater⟩ := h
  unfold WtaConsistent
  rw [hz, wtaStep_succ_map, wtaStep_succ_minCost, wtaStep_succ_recons]
  have hsat : saturateU8 (((z + 1 : Nat) : Int) + 1) = z + 2 := by
    have := saturateU8_natCast (z + 2)
    push_cast at this ⊢
    rw [show ((z : Int) + 1 + 1) = (z : Int) + 2 by ring, this]
    omega
  by_cases hle : f.cost r c ≤ s.m_minCost r c
  · simp only [hle, if_true, hsat, List.length_append, List.length_singleton, hz]
    refine ⟨by omega, by omega, f, ?_, ?_, rfl, ?_⟩
    · rw [List.getElem?_append_right (by omega)]
      simp [hz]
    · exact (Nat.min_eq_right hle).symm
    · intro j g2 hj hg2
      have : (done ++ [f])[j]? = none := by
        apply List.getElem?_eq_none
        simp only [List.length_append, List.length_singleton, hz]
        omega
      rw [this] at hg2
      exact absurd hg2 (by simp)
  · simp only [hle, if_false, List.length_append, List.length_singleton, hz]
    have hmin : min (s.m_minCost r c) (f.cost r c) = s.m_minCost r c :=
      Nat.min_eq_left (by omega)
    rw [hmin]
    refine ⟨h1, by omega, g, ?_, hcost, hrec, ?_⟩
    · rw [List.getElem?_append_left (by omega)]
      exact hg
    · intro j g2 hj hg2
      by_cases hjl : j < done.length
      · rw [List.getElem?_append_left hjl] at hg2
        exact hlater j g2 hj hg2
      · have hj2 : j = done.length := by
          by_contra hne
          have : (done ++ [f])[j]? = none := by
            apply List.getElem?_eq_none
            simp only [List.length_append, List.length_singleton]
            omega
          rw [this] at hg2
          exact absurd hg2 (by simp)
        rw [hj2, List.getElem?_append_right (le_refl _)] at hg2
        simp only [Nat.sub_self, List.getElem?_cons_zero, Option.some.injEq] at hg2
        rw [← hg2]
        omega

theorem wtaLoop_consistent {α : Type} (frames done : List (Frame α)) (s : WtaBuffers α)
    (r c : Nat) (hpos : 1 ≤ done.length) (hlen : done.length + frames.length ≤ 255)
    (h : WtaConsistent done s r c) :
    WtaConsistent (done ++ frames) (wtaLoop frames done.length s) r c := by
  induction frames generalizing done s with
  | nil => simpa [wtaLoop] using h
  | cons f rest ih =>
    simp only [wtaLoop]
    simp only [List.length_cons] at hlen
    have hstep := wtaStep_consistent done f s r c hpos (by omega) h
    have := ih (done ++ [f]) (wtaStep done.length f s)
      (by simp) (by simp only [List.length_append, List.length_singleton]; omega) hstep
    simpa [List.append_assoc] using this

theorem wtaStep_zero_consistent {α : Type} (f : Frame α) (s : WtaBuffers α) (r c : Nat) :
    WtaConsistent [f] (wtaStep 0 f s) r c := by
  unfold WtaConsistent
  rw [wtaStep_zero_map, wtaStep_zero_minCost, wtaStep_zero_recons]
  refine ⟨le_refl _, by simp, f, by simp, rfl, rfl, ?_⟩
  intro j g hj hg
  have : ([f] : List (Frame α))[j]? = none := by
    apply List.getElem?_eq_none
    simp only [List.length_singleton]
    omega
  rw [this] at hg
  exact absurd hg (by simp)

/-- C15. Winner-take-all bookkeeping is consistent: for every candidate count `N` with
`1 <= N <= 255`, every sequence of `N` candidate frames and every pixel, at the end of the
loop of `reconstructDepthAndColour` the disparity-index map holds a value `v` in `[1, N]`
such that candidate `v - 1` is the largest-indexed candidate whose cost at the pixel equals
the minimum cost there (every later candidate costs strictly more), and the running-best
restored image at the pixel equals the restoration of that same candidate. -/
theorem wta_bookkeeping_consistent {α : Type} (N : Nat) (hN1 : 1 ≤ N) (hN : N ≤ 255)
    (frames : List (Frame α)) (hlen : frames.length = N) (s : WtaBuffers α) (r c : Nat) :
    1 ≤ (wtaLoop frames 0 s).m_fullDisparityMap r c ∧
    (wtaLoop frames 0 s).m_fullDisparityMap r c ≤ N ∧
    ∃ f, frames[(wtaLoop frames 0 s).m_fullDisparityMap r c - 1]? = some f ∧
      f.cost r c = minOfCosts (frames.map (fun g => g.cost r c)) ∧
      (wtaLoop frames 0 s).m_minCost r c = minOfCosts (frames.map (fun g => g.cost r c)) ∧
      (wtaLoop frames 0 s).m_reconsImgRectified r c = f.candidate r c ∧
      ∀ (j : Nat) (g : Frame α), (wtaLoop frames 0 s).m_fullDisparityMap r c - 1 < j →
        frames[j]? = some g → minOfCosts (frames.map (fun g => g.cost r c)) < g.cost r c := by
  cases frames with
  | nil => simp at hlen; omega
  | cons f0 rest =>
    have hmin := wtaLoop_zero_minCost (f0 :: rest) (by simp) s r c
    simp only [List.length_cons] at hlen
    have hcons := wtaLoop_consistent rest [f0] (wtaStep 0 f0 s) r c (by simp)
      (by simp only [List.length_singleton]; omega) (wtaStep_zero_consistent f0 s r c)
    have hloop : wtaLoop (f0 :: rest) 0 s = wtaLoop rest [f0].length (wtaStep 0 f0 s) := by
      simp [wtaLoop]
    rw [← hloop] at hcons
    obtain ⟨h1, h2, f, hf, hcost, hrec, hlater⟩ := hcons
    simp only [List.singleton_append, List.length_cons] at h2 hf hlater
    refine ⟨h1, by omega, f, hf, ?_, hmin, hrec, ?_⟩
    · rw [hcost, hmin]
    · intro j g hj hg
      rw [← hmin]
      exact hlater j g hj hg

/-- Evaluation of `wta_bookkeeping_consistent` on the costs 5, 2, 2, 7: the map holds 3. -/
theorem wta_bookkeeping_consistent_witness :
    (wtaLoop [constFrame 5, constFrame 2, constFrame 2, constFrame 7] 0 zeroBuffers).m_fullDisparityMap
        0 0 = 3 ∧
    1 ≤ (wtaLoop [constFrame 5, constFrame 2, constFrame 2, constFrame 7] 0 zeroBuffers).m_fullDisparityMap
        0 0 ∧
    (wtaLoop [constFrame 5, constFrame 2, constFrame 2, constFrame 7] 0 zeroBuffers).m_fullDisparityMap
        0 0 ≤ 4 :=
  ⟨by decide,
    (wta_bookkeeping_consistent 4 (by decide) (by decide)
      [constFrame 5, constFrame 2, constFrame 2, constFrame 7] rfl zeroBuffers 0 0).1,
    (wta_bookkeeping_consistent 4 (by decide) (by decide)
      [constFrame 5, constFrame 2, constFrame 2, constFrame 7] rfl zeroBuffers 0 0).2.1⟩

/-! ### The scratch buffer of `restoreImage` -/

theorem translate_nonneg {α : Type} (cols : Nat) (disparity : ℚ) (h0 : 0 ≤ disparity)
    (hfit : truncToInt (disparity + 1 / 2) ≤ (cols : Int)) (recons translated : Img α) :
    translate cols disparity recons translated =
      some (fun (r c : Nat) =>
        if truncToInt (disparity + 1 / 2) ≤ (c : Int) ∧ c < cols
        then recons r (c - (truncToInt (disparity + 1 / 2)).toNat)
        else translated r c) := by
  unfold translate
  simp only [not_lt.mpr h0, if_false, hfit, if_true]

/-- C18. `restoreImage` does not leak scratch contents into interior columns: for every
disparity `d >= 0` with `d0 = floor(d + 1/2)` and `d1 = floor(2d + 1/2) <= width`, every
arithmetic, every `tau` and rectified image, and any two initial contents of the scratch
buffer `translatedImg`, both calls complete and the two restored outputs agree at every
column of the image outside `[0, d0)` and `[d1, d1 + d0)`, in particular at every column
`x >= d0 + d1`. -/
theorem restoreImage_scratch_independent {α : Type} (ops : PixelOps α) (cols : Nat)
    (d tau : ℚ) (img T1 T2 : Img α) (hd : 0 ≤ d)
    (hfit : Int.floor (2 * d + 1 / 2) ≤ (cols : Int)) :
    ∃ p1 p2, restoreImage ops cols d tau img T1 = some p1 ∧
      restoreImage ops cols d tau img T2 = some p2 ∧
      (∀ r x : Nat, x < cols →
        ¬ ((x : Int) < Int.floor (d + 1 / 2)) →
        ¬ (Int.floor (2 * d + 1 / 2) ≤ (x : Int) ∧
            (x : Int) < Int.floor (2 * d + 1 / 2) + Int.floor (d + 1 / 2)) →
        p1.2 r x = p2.2 r x) ∧
      (∀ r x : Nat, x < cols →
        Int.floor (d + 1 / 2) + Int.floor (2 * d + 1 / 2) ≤ (x : Int) →
        p1.2 r x = p2.2 r x) := by
  have h2d : 0 ≤ d * 2 := by linarith
  have e0 : truncToInt (d + 1 / 2) = Int.floor (d + 1 / 2) :=
    truncToInt_eq_floor (by linarith)
  have e1 : truncToInt (d * 2 + 1 / 2) = Int.floor (2 * d + 1 / 2) := by
    rw [truncToInt_eq_floor (by linarith), mul_comm]
  have hd0 : 0 ≤ Int.floor (d + 1 / 2) := Int.floor_nonneg.mpr (by linarith)
  have hd1 : 0 ≤ Int.floor (2 * d + 1 / 2) := Int.floor_nonneg.mpr (by linarith)
  have hmono : Int.floor (d + 1 / 2) ≤ Int.floor (2 * d + 1 / 2) :=
    Int.floor_mono (by linarith)
  have hfit0 : truncToInt (d + 1 / 2) ≤ (cols : Int) := by rw [e0]; omega
  have hfit1 : truncToInt (d * 2 + 1 / 2) ≤ (cols : Int) := by rw [e1]; exact hfit
  have key : ∀ r x : Nat, x < cols →
      ¬ ((x : Int) < Int.floor (d + 1 / 2)) →
      ¬ (Int.floor (2 * d + 1 / 2) ≤ (x : Int) ∧
          (x : Int) < Int.floor (2 * d + 1 / 2) + Int.floor (d + 1 / 2)) →
      ∀ P1 P2 : Img α × Img α, restoreImage ops cols d tau img T1 = some P1 →
        restoreImage ops cols d tau img T2 = some P2 → P1.2 r x = P2.2 r x := by
    intro r x hx hn0 hn1 P1 P2 hP1 hP2
    unfold restoreImage restoreRound at hP1 hP2
    rw [translate_nonneg cols d hd hfit0] at hP1 hP2
    simp only [if_true] at hP1 hP2
    rw [translate_nonneg cols (d * 2) h2d hfit1] at hP1 hP2
    simp only [Nat.succ_ne_zero, if_false, one_ne_zero] at hP1 hP2
    cases Option.some.inj hP1
    cases Option.some.inj hP2
    simp only [e0, e1]
    have c0 : Int.floor (d + 1 / 2) ≤ (x : Int) ∧ x < cols := ⟨by omega, hx⟩
    simp only [c0, and_self, if_true]
    by_cases c1 : Int.floor (2 * d + 1 / 2) ≤ (x : Int)
    · have c1' : Int.floor (2 * d + 1 / 2) ≤ (x : Int) ∧ x < cols := ⟨c1, hx⟩
      have c2 : Int.floor (d + 1 / 2) ≤ ((x - (Int.floor (2 * d + 1 / 2)).toNat : Nat) : Int) ∧
          x - (Int.floor (2 * d + 1 / 2)).toNat < cols := by
        constructor
        · have : ¬ ((x : Int) < Int.floor (2 * d + 1 / 2) + Int.floor (d + 1 / 2)) :=
            fun h => hn1 ⟨c1, h⟩
          omega
        · omega
      simp only [c1', c2, and_self, if_true]
    · have c1' : ¬ (Int.floor (2 * d + 1 / 2) ≤ (x : Int) ∧ x < cols) := fun h => c1 h.1
      simp only [c1, false_and, if_false]
  have hs1 : ∃ p1, restoreImage ops cols d tau img T1 = some p1 := by
    unfold restoreImage restoreRound
    rw [translate_nonneg cols d hd hfit0]
    simp only [if_true]
    rw [translate_nonneg cols (d * 2) h2d hfit1]
    simp
  have hs2 : ∃ p2, restoreImage ops cols d tau img T2 = some p2 := by
    unfold restoreImage restoreRound
    rw [translate_nonneg cols d hd hfit0]
    simp only [if_true]
    rw [translate_nonneg cols (d * 2) h2d hfit1]
    simp
  obtain ⟨p1, hp1⟩ := hs1
  obtain ⟨p2, hp2⟩ := hs2
  refine ⟨p1, p2, hp1, hp2, ?_, ?_⟩
  · intro r x hx hn0 hn1
    exact key r x hx hn0 hn1 p1 p2 hp1 hp2
  · intro r x hx hge
    exact key r x hx (by omega) (by omega) p1 p2 hp1 hp2

/-- Evaluation of `restoreImage_scratch_independent` with 8-bit arithmetic, `d = 1`,
`tau = 1/4`, a 6-column image and two different scratch buffers, at column 3. -/
theorem restoreImage_scratch_independent_witness :
    ∃ p1 p2, restoreImage u8Ops 6 1 (1 / 4) (fun _ x => 10 * x) (fun _ _ => 0) = some p1 ∧
      restoreImage u8Ops 6 1 (1 / 4) (fun _ x => 10 * x) (fun _ _ => 255) = some p2 ∧
      p1.2 0 3 = p2.2 0 3 := by
  have hf2 : Int.floor ((2 : ℚ) * 1 + 1 / 2) = 2 := by
    rw [Int.floor_eq_iff]; norm_num
  have hf1 : Int.floor ((1 : ℚ) + 1 / 2) = 1 := by
    rw [Int.floor_eq_iff]; norm_num
  obtain ⟨p1, p2, h1, h2, -, h3⟩ := restoreImage_scratch_independent u8Ops 6 1 (1 / 4)
    (fun _ x => 10 * x) (fun _ _ => 0) (fun _ _ => 255) (by norm_num) (by rw [hf2]; decide)
  exact ⟨p1, p2, h1, h2, h3 0 3 (by decide) (by rw [hf1, hf2]; decide)⟩

/-! ### Rounding to a binary floating-point format -/

theorem log2Fuel_eq_log2 (fuel n : Nat) (h : n ≤ fuel) : log2Fuel fuel n = Nat.log2 n := by
  induction fuel generalizing n with
  | zero =>
    have hn : n = 0 := by omega
    subst hn
    simp [log2Fuel, Nat.log2]
  | succ f ih =>
    rw [log2Fuel, Nat.log2]
    by_cases h2 : n < 2
    · rw [if_pos h2, if_neg (by omega)]
    · rw [if_neg h2, if_pos (by omega), ih (n / 2) (by omega)]

theorem floorLog2_spec (n : Nat) (hn : n ≠ 0) :
    2 ^ floorLog2 n ≤ n ∧ n < 2 ^ (floorLog2 n + 1) := by
  unfold floorLog2
  rw [log2Fuel_eq_log2 n n (le_refl n)]
  exact ⟨Nat.log2_self_le hn, Nat.lt_log2_self⟩

theorem two_zpow_pos (e : Int) : (0 : ℚ) < 2 ^ e := zpow_pos (by norm_num) e

theorem two_zpow_succ (e : Int) : (2 : ℚ) ^ (e + 1) = 2 ^ e * 2 :=
  zpow_add_one₀ (by norm_num) e

/-- The binade of a non-zero rational contains it. -/
theorem binade_spec (q : ℚ) (hq : q ≠ 0) :
    (2 : ℚ) ^ binade q ≤ |q| ∧ |q| < 2 ^ (binade q + 1) := by
  have hn : q.num.natAbs ≠ 0 := by
    intro h
    exact hq (Rat.num_eq_zero.mp (Int.natAbs_eq_zero.mp h))
  have hd : q.den ≠ 0 := q.den_nz
  obtain ⟨ha1, ha2⟩ := floorLog2_spec q.num.natAbs hn
  obtain ⟨hb1, hb2⟩ := floorLog2_spec q.den hd
  have hdq : (0 : ℚ) < (q.den : ℚ) := by exact_mod_cast Nat.pos_of_ne_zero hd
  have habs : |q| = (q.num.natAbs : ℚ) / (q.den : ℚ) := by
    have h1 : q = (q.num : ℚ) / (q.den : ℚ) := (Rat.num_div_den q).symm
    have h2 : ((q.num.natAbs : Nat) : ℚ) = |(q.num : ℚ)| := by
      rw [Nat.cast_natAbs, Int.cast_abs]
    rw [h2]
    conv_lhs => rw [h1]
    rw [abs_div, abs_of_pos hdq]
  have ha1q : (2 : ℚ) ^ (floorLog2 q.num.natAbs : Int) ≤ (q.num.natAbs : ℚ) := by
    rw [zpow_natCast]
    exact_mod_cast ha1
  have ha2q : (q.num.natAbs : ℚ) < (2 : ℚ) ^ (floorLog2 q.num.natAbs : Int) * 2 := by
    rw [zpow_natCast, ← pow_succ]
    exact_mod_cast ha2
  have hb1q : (2 : ℚ) ^ (floorLog2 q.den : Int) ≤ (q.den : ℚ) := by
    rw [zpow_natCast]
    exact_mod_cast hb1
  have hb2q : (q.den : ℚ) < (2 : ℚ) ^ (floorLog2 q.den : Int) * 2 := by
    rw [zpow_natCast, ← pow_succ]
    exact_mod_cast hb2
  have hA := two_zpow_pos (floorLog2 q.num.natAbs : Int)
  have hB := two_zpow_pos (floorLog2 q.den : Int)
  have hsub : (2 : ℚ) ^ ((floorLog2 q.num.natAbs : Int) - (floorLog2 q.den : Int))
      = 2 ^ (floorLog2 q.num.natAbs : Int) / 2 ^ (floorLog2 q.den : Int) :=
    zpow_sub₀ (by norm_num) _ _
  -- the quotient lies strictly between half and twice the first guess
  have hlo : (2 : ℚ) ^ ((floorLog2 q.num.natAbs : Int) - (floorLog2 q.den : Int)) / 2 < |q| := by
    rw [habs, hsub, div_div, div_lt_div_iff₀ (by positivity) hdq]
    nlinarith
  have hhi : |q| < (2 : ℚ) ^ ((floorLog2 q.num.natAbs : Int) - (floorLog2 q.den : Int)) * 2 := by
    rw [habs, hsub, div_mul_eq_mul_div, div_lt_div_iff₀ hdq hB]
    nlinarith
  unfold binade
  split
  · rename_i h
    exact ⟨h, by rw [two_zpow_succ]; exact hhi⟩
  · rename_i h
    have hs : (2 : ℚ) ^ ((floorLog2 q.num.natAbs : Int) - (floorLog2 q.den : Int) - 1 + 1)
        = 2 ^ ((floorLog2 q.num.natAbs : Int) - (floorLog2 q.den : Int)) := by
      rw [sub_add_cancel]
    have hm : (2 : ℚ) ^ ((floorLog2 q.num.natAbs : Int) - (floorLog2 q.den : Int))
        = 2 ^ ((floorLog2 q.num.natAbs : Int) - (floorLog2 q.den : Int) - 1) * 2 := by
      rw [← two_zpow_succ, sub_add_cancel]
    constructor
    · rw [hm] at hlo
      have := two_zpow_pos ((floorLog2 q.num.natAbs : Int) - (floorLog2 q.den : Int) - 1)
      linarith
    · rw [hs]
      exact lt_of_not_le h

/-- The binade of a rational is the only one that contains it. -/
theorem binade_unique (q : ℚ) (e : Int) (h1 : (2 : ℚ) ^ e ≤ |q|) (h2 : |q| < 2 ^ (e + 1)) :
    binade q = e := by
  have hq : q ≠ 0 := by
    intro h
    rw [h, abs_zero] at h1
    exact absurd h1 (not_le.mpr (two_zpow_pos e))
  obtain ⟨s1, s2⟩ := binade_spec q hq
  have a1 : binade q < e + 1 :=
    (zpow_lt_zpow_iff_right₀ (by norm_num : (1 : ℚ) < 2)).mp (lt_of_le_of_lt s1 h2)
  have a2 : e < binade q + 1 :=
    (zpow_lt_zpow_iff_right₀ (by norm_num : (1 : ℚ) < 2)).mp (lt_of_le_of_lt h1 s2)
  omega

theorem binade_mono_abs (x y : ℚ) (hx : x ≠ 0) (h : |x| ≤ |y|) : binade x ≤ binade y := by
  have hy : y ≠ 0 := by
    intro h0
    rw [h0, abs_zero] at h
    exact hx (abs_eq_zero.mp (le_antisymm h (abs_nonneg x)))
  obtain ⟨s1, -⟩ := binade_spec x hx
  obtain ⟨-, t2⟩ := binade_spec y hy
  have : binade x < binade y + 1 :=
    (zpow_lt_zpow_iff_right₀ (by norm_num : (1 : ℚ) < 2)).mp
      (lt_of_le_of_lt s1 (lt_of_le_of_lt h t2))
  omega

theorem cvRound_mono {x y : ℚ} (h : x ≤ y) : cvRound x ≤ cvRound y := by
  by_contra hc
  have hlt : cvRound y + 1 ≤ cvRound x := by omega
  have hq : ((cvRound y : Int) : ℚ) + 1 ≤ ((cvRound x : Int) : ℚ) := by exact_mod_cast hlt
  obtain ⟨hx1, -⟩ := cvRound_sub_le x
  obtain ⟨-, hy2⟩ := cvRound_sub_le y
  have hxy : x = y := le_antisymm h (by linarith)
  rw [hxy] at hc
  exact hc (le_refl _)

theorem cvRound_nonneg {q : ℚ} (h : 0 ≤ q) : 0 ≤ cvRound q := by
  have := cvRound_mono h
  rwa [cvRound_zero] at this

theorem cvRound_nonpos {q : ℚ} (h : q ≤ 0) : cvRound q ≤ 0 := by
  have := cvRound_mono h
  rwa [cvRound_zero] at this

/-- The unit of the grid that `roundFloat` rounds `q` onto. -/
theorem roundFloat_eq (prec : Nat) (emin : Int) (q : ℚ) :
    roundFloat prec emin q
      = ((cvRound (q / 2 ^ (max (binade q) emin - ((prec : Int) - 1))) : Int) : ℚ)
        * 2 ^ (max (binade q) emin - ((prec : Int) - 1)) := rfl

theorem roundFloat_nonneg (prec : Nat) (emin : Int) {q : ℚ} (h : 0 ≤ q) :
    0 ≤ roundFloat prec emin q := by
  rw [roundFloat_eq]
  have hu := two_zpow_pos (max (binade q) emin - ((prec : Int) - 1))
  have hc : (0 : Int) ≤ cvRound (q / 2 ^ (max (binade q) emin - ((prec : Int) - 1))) :=
    cvRound_nonneg (div_nonneg h hu.le)
  have hcq : (0 : ℚ) ≤ ((cvRound (q / 2 ^ (max (binade q) emin - ((prec : Int) - 1))) : Int) : ℚ) := by
    exact_mod_cast hc
  exact mul_nonneg hcq hu.le

theorem roundFloat_nonpos (prec : Nat) (emin : Int) {q : ℚ} (h : q ≤ 0) :
    roundFloat prec emin q ≤ 0 := by
  rw [roundFloat_eq]
  have hu := two_zpow_pos (max (binade q) emin - ((prec : Int) - 1))
  have hc : cvRound (q / 2 ^ (max (binade q) emin - ((prec : Int) - 1))) ≤ 0 :=
    cvRound_nonpos (div_nonpos_of_nonpos_of_nonneg h hu.le)
  have hcq : ((cvRound (q / 2 ^ (max (binade q) emin - ((prec : Int) - 1))) : Int) : ℚ) ≤ 0 := by
    exact_mod_cast hc
  exact mul_nonpos_of_nonpos_of_nonneg hcq hu.le

theorem roundFloat_zero (prec : Nat) (emin : Int) : roundFloat prec emin 0 = 0 :=
  le_antisymm (roundFloat_nonpos prec emin (le_refl 0)) (roundFloat_nonneg prec emin (le_refl 0))

/-- Splitting a power of two at the unit of a binade. -/
theorem two_zpow_split (E : Int) (prec : Nat) :
    (2 : ℚ) ^ (E + 1) = ((((2 : Int) ^ prec : Int)) : ℚ) * 2 ^ (E - ((prec : Int) - 1)) := by
  have h : E + 1 = (prec : Int) + (E - ((prec : Int) - 1)) := by ring
  rw [h, zpow_add₀ (by norm_num), zpow_natCast]
  push_cast
  ring

/-- The magnitude of a value stays below the top of its (clamped) binade. -/
theorem abs_lt_top (emin : Int) (q : ℚ) : |q| < 2 ^ (max (binade q) emin + 1) := by
  by_cases hq : q = 0
  · rw [hq, abs_zero]
    exact two_zpow_pos _
  · obtain ⟨-, h2⟩ := binade_spec q hq
    exact lt_of_lt_of_le h2
      (zpow_le_zpow_right₀ (by norm_num) (by have := le_max_left (binade q) emin; omega))

/-- The rounded significand has at most `prec` bits, the power `2^prec` included. -/
theorem significand_bounds (prec : Nat) (emin : Int) (q : ℚ) :
    -((2 : Int) ^ prec) ≤ cvRound (q / 2 ^ (max (binade q) emin - ((prec : Int) - 1))) ∧
    cvRound (q / 2 ^ (max (binade q) emin - ((prec : Int) - 1))) ≤ (2 : Int) ^ prec := by
  have hu := two_zpow_pos (max (binade q) emin - ((prec : Int) - 1))
  have htop := abs_lt_top emin q
  rw [two_zpow_split (max (binade q) emin) prec] at htop
  obtain ⟨h1, h2⟩ := abs_lt.mp htop
  constructor
  · have h : (((-((2 : Int) ^ prec) : Int)) : ℚ) ≤ q / 2 ^ (max (binade q) emin - ((prec : Int) - 1)) := by
      rw [le_div_iff₀ hu]
      push_cast
      push_cast at h1
      linarith
    have := cvRound_mono h
    rwa [cvRound_intCast] at this
  · have h : q / 2 ^ (max (binade q) emin - ((prec : Int) - 1)) ≤ ((((2 : Int) ^ prec : Int)) : ℚ) := by
      rw [div_le_iff₀ hu]
      linarith
    have := cvRound_mono h
    rwa [cvRound_intCast] at this

/-- A value `m * 2^k` with a significand of fewer than `prec + 1` bits and an exponent within
the format is a value of the format: rounding leaves it unchanged. -/
theorem roundFloat_exact (prec : Nat) (emin : Int) (m k : Int) (hm : |m| < (2 : Int) ^ prec)
    (hk : emin - ((prec : Int) - 1) ≤ k) :
    roundFloat prec emin ((m : ℚ) * 2 ^ k) = (m : ℚ) * 2 ^ k := by
  by_cases hm0 : m = 0
  · rw [hm0]
    simp only [Int.cast_zero, zero_mul]
    exact roundFloat_zero prec emin
  have hk2 := two_zpow_pos k
  have hmq : (m : ℚ) ≠ 0 := by exact_mod_cast hm0
  have hq : (m : ℚ) * 2 ^ k ≠ 0 := mul_ne_zero hmq hk2.ne'
  have habs : |(m : ℚ) * 2 ^ k| < 2 ^ ((prec : Int) + k) := by
    rw [abs_mul, abs_of_pos hk2, zpow_add₀ (by norm_num), zpow_natCast]
    have h1 : |(m : ℚ)| < (2 : ℚ) ^ prec := by
      have : ((|m| : Int) : ℚ) < (((2 : Int) ^ prec : Int) : ℚ) := by exact_mod_cast hm
      rw [Int.cast_abs] at this
      push_cast at this
      exact this
    exact mul_lt_mul_of_pos_right h1 hk2
  have hb : binade ((m : ℚ) * 2 ^ k) < (prec : Int) + k :=
    (zpow_lt_zpow_iff_right₀ (by norm_num : (1 : ℚ) < 2)).mp
      (lt_of_le_of_lt (binade_spec _ hq).1 habs)
  have hE : max (binade ((m : ℚ) * 2 ^ k)) emin - ((prec : Int) - 1) ≤ k := by
    rcases max_cases (binade ((m : ℚ) * 2 ^ k)) emin with ⟨h, -⟩ | ⟨h, -⟩ <;> rw [h] <;> omega
  obtain ⟨s, hs⟩ : ∃ s : Nat, k = max (binade ((m : ℚ) * 2 ^ k)) emin - ((prec : Int) - 1) + (s : Int) :=
    ⟨(k - (max (binade ((m : ℚ) * 2 ^ k)) emin - ((prec : Int) - 1))).toNat, by omega⟩
  rw [roundFloat_eq]
  have hu := two_zpow_pos (max (binade ((m : ℚ) * 2 ^ k)) emin - ((prec : Int) - 1))
  have hdiv : (m : ℚ) * 2 ^ k / 2 ^ (max (binade ((m : ℚ) * 2 ^ k)) emin - ((prec : Int) - 1))
      = (((m * 2 ^ s : Int)) : ℚ) := by
    rw [div_eq_iff hu.ne']
    conv_lhs => rw [hs]
    rw [zpow_add₀ (by norm_num), zpow_natCast]
    push_cast
    ring
  rw [hdiv, cvRound_intCast]
  conv_rhs => rw [hs]
  rw [zpow_add₀ (by norm_num), zpow_natCast]
  push_cast
  ring

theorem two_zpow_split_low (E : Int) (prec : Nat) (hp : 1 ≤ prec) :
    (2 : ℚ) ^ E = ((((2 : Int) ^ (prec - 1) : Int)) : ℚ) * 2 ^ (E - ((prec : Int) - 1)) := by
  have hc : ((prec - 1 : Nat) : Int) = (prec : Int) - 1 := by omega
  have h : E = ((prec - 1 : Nat) : Int) + (E - ((prec : Int) - 1)) := by omega
  conv_lhs => rw [h]
  rw [zpow_add₀ (by norm_num), zpow_natCast]
  push_cast
  ring

theorem roundFloat_abs_le_top (prec : Nat) (emin : Int) (q : ℚ) :
    -(2 : ℚ) ^ (max (binade q) emin + 1) ≤ roundFloat prec emin q ∧
    roundFloat prec emin q ≤ 2 ^ (max (binade q) emin + 1) := by
  obtain ⟨h1, h2⟩ := significand_bounds prec emin q
  have hu := two_zpow_pos (max (binade q) emin - ((prec : Int) - 1))
  have h1q : ((-((2 : Int) ^ prec) : Int) : ℚ)
      ≤ ((cvRound (q / 2 ^ (max (binade q) emin - ((prec : Int) - 1))) : Int) : ℚ) := by
    exact_mod_cast h1
  have h2q : ((cvRound (q / 2 ^ (max (binade q) emin - ((prec : Int) - 1))) : Int) : ℚ)
      ≤ (((2 : Int) ^ prec : Int) : ℚ) := by
    exact_mod_cast h2
  rw [roundFloat_eq, two_zpow_split (max (binade q) emin) prec]
  constructor
  · have := mul_le_mul_of_nonneg_right h1q hu.le
    push_cast at this ⊢
    linarith
  · exact mul_le_mul_of_nonneg_right h2q hu.le

theorem roundFloat_ge_bottom (prec : Nat) (emin : Int) (hp : 1 ≤ prec) (q : ℚ) (hq : 0 < q)
    (he : emin ≤ binade q) : (2 : ℚ) ^ binade q ≤ roundFloat prec emin q := by
  have hE : max (binade q) emin = binade q := max_eq_left he
  have hu := two_zpow_pos (binade q - ((prec : Int) - 1))
  have hb : (2 : ℚ) ^ binade q ≤ q := by
    have := (binade_spec q hq.ne').1
    rwa [abs_of_pos hq] at this
  rw [roundFloat_eq, hE]
  have hsplit := two_zpow_split_low (binade q) prec hp
  have h : ((((2 : Int) ^ (prec - 1) : Int)) : ℚ) ≤ q / 2 ^ (binade q - ((prec : Int) - 1)) := by
    rw [le_div_iff₀ hu, ← hsplit]
    exact hb
  have hc := cvRound_mono h
  rw [cvRound_intCast] at hc
  have hcq : ((((2 : Int) ^ (prec - 1) : Int)) : ℚ)
      ≤ ((cvRound (q / 2 ^ (binade q - ((prec : Int) - 1))) : Int) : ℚ) := by exact_mod_cast hc
  rw [hsplit]
  exact mul_le_mul_of_nonneg_right hcq hu.le

theorem roundFloat_le_bottom (prec : Nat) (emin : Int) (hp : 1 ≤ prec) (q : ℚ) (hq : q < 0)
    (he : emin ≤ binade q) : roundFloat prec emin q ≤ -(2 : ℚ) ^ binade q := by
  have hE : max (binade q) emin = binade q := max_eq_left he
  have hu := two_zpow_pos (binade q - ((prec : Int) - 1))
  have hb : q ≤ -(2 : ℚ) ^ binade q := by
    have := (binade_spec q hq.ne).1
    rw [abs_of_neg hq] at this
    linarith
  rw [roundFloat_eq, hE]
  have hsplit := two_zpow_split_low (binade q) prec hp
  have h : q / 2 ^ (binade q - ((prec : Int) - 1)) ≤ (((-((2 : Int) ^ (prec - 1)) : Int)) : ℚ) := by
    rw [div_le_iff₀ hu]
    push_cast
    push_cast at hsplit
    linarith
  have hc := cvRound_mono h
  rw [cvRound_intCast] at hc
  have hcq : ((cvRound (q / 2 ^ (binade q - ((prec : Int) - 1))) : Int) : ℚ)
      ≤ (((-((2 : Int) ^ (prec - 1)) : Int)) : ℚ) := by exact_mod_cast hc
  have := mul_le_mul_of_nonneg_right hcq hu.le
  push_cast at this hsplit
  linarith

/-- Rounding to a floating-point format is monotone. -/
theorem roundFloat_mono (prec : Nat) (emin : Int) (hp : 1 ≤ prec) {x y : ℚ} (h : x ≤ y) :
    roundFloat prec emin x ≤ roundFloat prec emin y := by
  rcases le_or_lt x 0 with hx | hx
  · rcases le_or_lt 0 y with hy | hy
    · exact le_trans (roundFloat_nonpos prec emin hx) (roundFloat_nonneg prec emin hy)
    · -- both negative
      have hxn : x < 0 := lt_of_le_of_lt h hy
      have habs : |y| ≤ |x| := by
        rw [abs_of_neg hy, abs_of_neg hxn]
        linarith
      have hbin := binade_mono_abs y x hy.ne habs
      rcases eq_or_lt_of_le (max_le_max hbin (le_refl emin)) with he | he
      · rw [roundFloat_eq, roundFloat_eq, he]
        have hu := two_zpow_pos (max (binade x) emin - ((prec : Int) - 1))
        have hc := cvRound_mono (div_le_div_of_nonneg_right h hu.le)
        have hcq : ((cvRound (x / 2 ^ (max (binade x) emin - ((prec : Int) - 1))) : Int) : ℚ)
            ≤ ((cvRound (y / 2 ^ (max (binade x) emin - ((prec : Int) - 1))) : Int) : ℚ) := by
          exact_mod_cast hc
        exact mul_le_mul_of_nonneg_right hcq hu.le
      · have hEx : emin ≤ binade x := by
          rcases max_cases (binade x) emin with ⟨h1, h2⟩ | ⟨h1, h2⟩
          · exact h2
          · rw [h1] at he
            have := le_max_right (binade y) emin
            omega
        have hmx : max (binade x) emin = binade x := max_eq_left hEx
        rw [hmx] at he
        have h1 := roundFloat_le_bottom prec emin hp x hxn hEx
        have h2 := (roundFloat_abs_le_top prec emin y).1
        have h3 : (2 : ℚ) ^ (max (binade y) emin + 1) ≤ 2 ^ binade x :=
          zpow_le_zpow_right₀ (by norm_num) (by omega)
        linarith
  · -- both positive
    have hy : 0 < y := lt_of_lt_of_le hx h
    have habs : |x| ≤ |y| := by
      rw [abs_of_pos hx, abs_of_pos hy]
      exact h
    have hbin := binade_mono_abs x y hx.ne' habs
    rcases eq_or_lt_of_le (max_le_max hbin (le_refl emin)) with he | he
    · rw [roundFloat_eq, roundFloat_eq, he]
      have hu := two_zpow_pos (max (binade y) emin - ((prec : Int) - 1))
      have hc := cvRound_mono (div_le_div_of_nonneg_right h hu.le)
      have hcq : ((cvRound (x / 2 ^ (max (binade y) emin - ((prec : Int) - 1))) : Int) : ℚ)
          ≤ ((cvRound (y / 2 ^ (max (binade y) emin - ((prec : Int) - 1))) : Int) : ℚ) := by
        exact_mod_cast hc
      exact mul_le_mul_of_nonneg_right hcq hu.le
    · have hEy : emin ≤ binade y := by
        rcases max_cases (binade y) emin with ⟨h1, h2⟩ | ⟨h1, h2⟩
        · exact h2
        · rw [h1] at he
          have := le_max_right (binade x) emin
          omega
      have hmy : max (binade y) emin = binade y := max_eq_left hEy
      rw [hmy] at he
      have h1 := roundFloat_ge_bottom prec emin hp y hy hEy
      have h2 := (roundFloat_abs_le_top prec emin x).2
      have h3 : (2 : ℚ) ^ (max (binade x) emin + 1) ≤ 2 ^ binade y :=
        zpow_le_zpow_right₀ (by norm_num) (by omega)
      linarith

/-- A rounded value is a value of the format: rounding it again changes nothing. -/
theorem roundFloat_idem (prec : Nat) (emin : Int) (hp : 1 ≤ prec) (q : ℚ) :
    roundFloat prec emin (roundFloat prec emin q) = roundFloat prec emin q := by
  obtain ⟨h1, h2⟩ := significand_bounds prec emin q
  have hU : emin - ((prec : Int) - 1) ≤ max (binade q) emin - ((prec : Int) - 1) := by
    have := le_max_right (binade q) emin
    omega
  have hpow : (2 : Int) ^ prec = 2 * 2 ^ (prec - 1) := by
    obtain ⟨n, rfl⟩ : ∃ n, prec = n + 1 := ⟨prec - 1, by omega⟩
    rw [Nat.add_sub_cancel, pow_succ]
    ring
  have hpos : (0 : Int) < 2 ^ (prec - 1) := by positivity
  rw [roundFloat_eq prec emin q]
  rcases eq_or_lt_of_le h2 with e2 | l2
  · -- the significand is `2^prec`
    have hre : ((cvRound (q / 2 ^ (max (binade q) emin - ((prec : Int) - 1))) : Int) : ℚ)
        * 2 ^ (max (binade q) emin - ((prec : Int) - 1))
        = (((2 : Int) ^ (prec - 1) : Int) : ℚ)
          * 2 ^ (max (binade q) emin - ((prec : Int) - 1) + 1) := by
      rw [e2, hpow, two_zpow_succ]
      push_cast
      ring
    rw [hre]
    exact roundFloat_exact prec emin _ _ (by rw [abs_of_pos hpos]; omega) (by omega)
  · rcases eq_or_lt_of_le h1 with e1 | l1
    · have hre : ((cvRound (q / 2 ^ (max (binade q) emin - ((prec : Int) - 1))) : Int) : ℚ)
          * 2 ^ (max (binade q) emin - ((prec : Int) - 1))
          = (((-(2 : Int) ^ (prec - 1)) : Int) : ℚ)
            * 2 ^ (max (binade q) emin - ((prec : Int) - 1) + 1) := by
        rw [← e1, hpow, two_zpow_succ]
        push_cast
        ring
      rw [hre]
      exact roundFloat_exact prec emin _ _
        (by rw [abs_neg, abs_of_pos hpos]; omega) (by omega)
    · exact roundFloat_exact prec emin _ _ (abs_lt.mpr ⟨l1, l2⟩) hU

theorem roundF32_mono {x y : ℚ} (h : x ≤ y) : roundF32 x ≤ roundF32 y :=
  roundFloat_mono 24 (-126) (by decide) h

theorem roundF64_mono {x y : ℚ} (h : x ≤ y) : roundF64 x ≤ roundF64 y :=
  roundFloat_mono 53 (-1022) (by decide) h

theorem roundF32_idem (q : ℚ) : roundF32 (roundF32 q) = roundF32 q :=
  roundFloat_idem 24 (-126) (by decide) q

theorem roundF32_nonneg {q : ℚ} (h : 0 ≤ q) : 0 ≤ roundF32 q := roundFloat_nonneg 24 (-126) h

theorem roundF32_nonpos {q : ℚ} (h : q ≤ 0) : roundF32 q ≤ 0 := roundFloat_nonpos 24 (-126) h

theorem roundF32_zero : roundF32 0 = 0 := roundFloat_zero 24 (-126)

/-- An integer below `2^24` in magnitude is a `float`. -/
theorem roundF32_intCast (m : Int) (hm : |m| < 16777216) : roundF32 (m : ℚ) = (m : ℚ) := by
  have := roundFloat_exact 24 (-126) m 0 (by norm_num; exact hm) (by norm_num)
  simpa [roundF32] using this

/-! ### The candidate count in the arithmetic of the source -/

theorem roundF64_exact (m k : Int) (hm : |m| < 9007199254740992) (hk : -1074 ≤ k) :
    roundF64 ((m : ℚ) * 2 ^ k) = (m : ℚ) * 2 ^ k :=
  roundFloat_exact 53 (-1022) m k (by norm_num; exact hm) (by norm_num; exact hk)

/-- The largest `float` below `1/2` is `1/2 - 2^-25`. -/
theorem roundF32_lt_half {q : ℚ} (h : roundF32 q < 1 / 2) :
    roundF32 q ≤ 1 / 2 - 1 / 33554432 := by
  by_contra hc
  have hlo : 1 / 2 - 1 / 33554432 < roundF32 q := lt_of_not_le hc
  have hpos : 0 < roundF32 q := by linarith
  have hb : binade (roundF32 q) = -2 := by
    apply binade_unique
    · rw [abs_of_pos hpos]
      norm_num
      linarith
    · rw [abs_of_pos hpos]
      norm_num
      linarith
  have hid := roundF32_idem q
  have hu : (2 : ℚ) ^ (max (-2 : Int) (-126) - (((24 : Nat) : Int) - 1)) = 1 / 33554432 := by
    norm_num
  have he : roundF32 (roundF32 q)
      = ((cvRound (roundF32 q / (1 / 33554432)) : Int) : ℚ) * (1 / 33554432) := by
    conv_lhs => rw [roundF32, roundFloat_eq, hb, hu]
  rw [he] at hid
  have h1 : (16777215 : ℚ) < ((cvRound (roundF32 q / (1 / 33554432)) : Int) : ℚ) := by
    linarith
  have h2 : ((cvRound (roundF32 q / (1 / 33554432)) : Int) : ℚ) < 16777216 := by
    linarith
  have h1z : (16777215 : Int) < cvRound (roundF32 q / (1 / 33554432)) := by exact_mod_cast h1
  have h2z : cvRound (roundF32 q / (1 / 33554432)) < (16777216 : Int) := by exact_mod_cast h2
  omega

/-- The count is at least 2 exactly when the `float` difference is at least `1/2`. -/
theorem two_le_count_iff (d : ℚ) :
    2 ≤ truncToInt (roundF64 (roundF32 d + 3 / 2)) ↔ 1 / 2 ≤ roundF32 d := by
  have h2 : roundF64 2 = 2 := by
    have := roundF64_exact 2 0 (by norm_num) (by norm_num)
    simpa using this
  constructor
  · intro h
    by_contra hc
    have hlt : roundF32 d < 1 / 2 := lt_of_not_le hc
    have hle := roundF32_lt_half hlt
    have hex : roundF64 (2 - 1 / 33554432) = 2 - 1 / 33554432 := by
      have := roundF64_exact 67108863 (-25) (by norm_num) (by norm_num)
      have e : ((67108863 : Int) : ℚ) * 2 ^ (-25 : Int) = 2 - 1 / 33554432 := by norm_num
      rwa [e] at this
    have hm := roundF64_mono (show roundF32 d + 3 / 2 ≤ 2 - 1 / 33554432 by linarith)
    rw [hex] at hm
    have := (two_le_truncToInt_iff _).mp h
    linarith
  · intro h
    have hm := roundF64_mono (show (2 : ℚ) ≤ roundF32 d + 3 / 2 by linarith)
    rw [h2] at hm
    exact (two_le_truncToInt_iff _).mpr hm

/-- C19, as stated, fails. With `minZ = 6`, `maxZ = 15`, `disparityCoef = -5` and
`upsampling = 1` the quotients are `a = -1/3` and `b = -5/6`, so `a - b = 1/2`; the `float`
quotients differ by `16777215/33554432 < 1/2`, the sum with `1.5` stays below 2 and the
constructor sets the count to 1, not 2. -/
theorem candidate_count_counterexample :
    (1 : ℚ) / 2 ≤ 1 * (-5) / 15 - 1 * (-5) / 6 ∧
    roundF32 (roundF32 (roundF32 (1 * (-5)) / 15) - roundF32 (roundF32 (1 * (-5)) / 6))
      = 16777215 / 33554432 ∧
    DepthEstimator.zCountFloat 6 15 (-5) 1 = 1 ∧
    ¬ (2 ≤ DepthEstimator.zCountFloat 6 15 (-5) 1) := by
  decide!

/-- C19, amended. With `coef` the `float` product `upsampling * disparityCoef` and `a`, `b`
the `float` quotients `coef / maxDepth`, `coef / minDepth`, the constructor sets the count
`N` to the `double` sum of the `float` difference `a - b` and `3/2`, truncated toward zero,
so `N >= 2` (and then the divisor `N - 1` of the step is non-zero) if and only if the `float`
difference `a - b` is at least `1/2`; in particular for every `0 < minDepth < maxDepth`,
every `disparityCoef > 0` and every positive `upsampling` the count is at most 1, and when
it is 1 the divisor is 0. -/
theorem candidate_count_guard_float (minZ maxZ disparityCoef upsampling : ℚ) :
    DepthEstimator.zCountFloat minZ maxZ disparityCoef upsampling
      = truncToInt (roundF64 (roundF32
          (roundF32 (roundF32 (upsampling * disparityCoef) / maxZ)
            - roundF32 (roundF32 (upsampling * disparityCoef) / minZ)) + 3 / 2)) ∧
    ((2 ≤ DepthEstimator.zCountFloat minZ maxZ disparityCoef upsampling ∧
        ((DepthEstimator.zCountFloat minZ maxZ disparityCoef upsampling - 1 : Int) : ℚ) ≠ 0) ↔
      1 / 2 ≤ roundF32 (roundF32 (roundF32 (upsampling * disparityCoef) / maxZ)
        - roundF32 (roundF32 (upsampling * disparityCoef) / minZ))) ∧
    (0 < upsampling → 0 < minZ → minZ < maxZ → 0 < disparityCoef →
      DepthEstimator.zCountFloat minZ maxZ disparityCoef upsampling ≤ 1 ∧
      (DepthEstimator.zCountFloat minZ maxZ disparityCoef upsampling = 1 →
        ((DepthEstimator.zCountFloat minZ maxZ disparityCoef upsampling - 1 : Int) : ℚ) = 0)) := by
  refine ⟨rfl, ?_, ?_⟩
  · unfold DepthEstimator.zCountFloat
    rw [← two_le_count_iff]
    constructor
    · rintro ⟨h, -⟩
      exact h
    · intro h
      refine ⟨h, ?_⟩
      have : (truncToInt (roundF64 (roundF32
          (roundF32 (roundF32 (upsampling * disparityCoef) / maxZ)
            - roundF32 (roundF32 (upsampling * disparityCoef) / minZ)) + 3 / 2)) - 1 : Int)
          ≠ 0 := by omega
      exact_mod_cast this
  · intro hup hmin hlt hcoef
    have hc : 0 ≤ roundF32 (upsampling * disparityCoef) :=
      roundF32_nonneg (mul_pos hup hcoef).le
    have hmax : 0 < maxZ := lt_trans hmin hlt
    have hab : roundF32 (upsampling * disparityCoef) / maxZ
        ≤ roundF32 (upsampling * disparityCoef) / minZ :=
      div_le_div_of_nonneg_left hc hmin hlt.le
    have hr := roundF32_mono hab
    have hd : roundF32 (roundF32 (roundF32 (upsampling * disparityCoef) / maxZ)
        - roundF32 (roundF32 (upsampling * disparityCoef) / minZ)) ≤ 0 :=
      roundF32_nonpos (by linarith)
    have hN : DepthEstimator.zCountFloat minZ maxZ disparityCoef upsampling ≤ 1 := by
      by_contra hcon
      have h2 : 2 ≤ DepthEstimator.zCountFloat minZ maxZ disparityCoef upsampling := by omega
      unfold DepthEstimator.zCountFloat at h2
      have := (two_le_count_iff _).mp h2
      linarith
    refine ⟨hN, ?_⟩
    intro h1
    rw [h1]
    norm_num

/-- Evaluation of `candidate_count_guard_float` on `minZ = 1 < maxZ = 2`,
`disparityCoef = 1/2`, `upsampling = 1`: one candidate. -/
theorem candidate_count_guard_float_witness :
    (0 : ℚ) < 1 ∧ (0 : ℚ) < 1 ∧ (1 : ℚ) < 2 ∧ (0 : ℚ) < 1 / 2 ∧
    DepthEstimator.zCountFloat 1 2 (1 / 2) 1 ≤ 1 ∧
    (DepthEstimator.zCountFloat 1 2 (1 / 2) 1 = 1 →
      ((DepthEstimator.zCountFloat 1 2 (1 / 2) 1 - 1 : Int) : ℚ) = 0) :=
  ⟨by norm_num, by norm_num, by norm_num, by norm_num,
    (candidate_count_guard_float 1 2 (1 / 2) 1).2.2 (by norm_num) (by norm_num) (by norm_num)
      (by norm_num)⟩

/-! ### The forward field -/

theorem roundF32_natCast (n : Nat) (hn : n < 16777216) : roundF32 (n : ℚ) = (n : ℚ) := by
  have := roundF32_intCast (n : Int) (by rw [abs_of_nonneg (by positivity)]; omega)
  simpa using this

/-- Column 0 of the forward field of at most 4096 rows is the identity mapping: the `float`
product `i * H` is below `2^24` and therefore exact. -/
theorem first_column_identity_small (H W : Nat) (bO2D bE2D : Img Vec2) (hH : H ≤ 4096)
    (i : Nat) (hi : i < H) :
    (buildRectification H W bO2D bE2D).1.px i 0 = (0, (i : ℚ)) := by
  have hHq : (H : ℚ) ≠ 0 := by
    have : 0 < H := by omega
    exact_mod_cast this.ne'
  have hprod : i * H < 16777216 := by
    have h1 : i * H ≤ 4095 * 4096 := Nat.mul_le_mul (by omega) hH
    omega
  simp only [buildRectification, forwardColumn]
  split
  · rename_i h0
    rw [h0]
    simp
  · rw [roundF32_natCast i (by omega), roundF32_natCast H (by omega)]
    have hp : (i : ℚ) * (H : ℚ) = ((i * H : Nat) : ℚ) := by push_cast; ring
    rw [hp, roundF32_natCast (i * H) hprod]
    have hq : ((i * H : Nat) : ℚ) / (H : ℚ) = (i : ℚ) := by
      push_cast
      field_simp
    rw [hq, roundF32_natCast i (by omega)]

/-- C13, evaluated where it fails. For offset fields of height `H = 4099` (and any width
`W`) the forward field has height 4099 and width `W + 30`, but row 4095 of column 0 is not
`(0, 4095)`: the `float` product `4095 * 4099 = 16785405` exceeds `2^24` and is rounded to
`16785404`, and the `float` quotient by 4099 is `16773119/4096 = 4094.999755859375`. -/
theorem first_column_not_identity (W : Nat) (bO2D bE2D : Img Vec2) :
    (buildRectification 4099 W bO2D bE2D).1.rows = 4099 ∧
    (buildRectification 4099 W bO2D bE2D).1.cols = W + 30 ∧
    roundF32 ((4095 : ℚ) * 4099) = 16785404 ∧
    (buildRectification 4099 W bO2D bE2D).1.px 4095 0 = (0, 16773119 / 4096) ∧
    (buildRectification 4099 W bO2D bE2D).1.px 4095 0 ≠ (0, 4095) := by
  have hv : roundF32 (roundF32 (roundF32 ((4095 : Nat) : ℚ) * roundF32 ((4099 : Nat) : ℚ))
      / roundF32 ((4099 : Nat) : ℚ)) = 16773119 / 4096 := by decide!
  have hpx : (buildRectification 4099 W bO2D bE2D).1.px 4095 0 = (0, 16773119 / 4096) := by
    simp only [buildRectification, forwardColumn]
    rw [if_neg (by decide), hv]
  refine ⟨rfl, rfl, by decide!, hpx, ?_⟩
  rw [hpx]
  intro h
  have := congrArg Prod.snd h
  norm_num at this

theorem pixelOrZero_fst_nonneg (rows cols : Nat) (src : Img Vec2)
    (h : ∀ r c : Nat, r < rows → c < cols → 0 ≤ (src r c).1) (y x : Int) :
    0 ≤ (pixelOrZero rows cols src y x).1 := by
  unfold pixelOrZero
  split
  · rename_i hb
    exact h _ _ (by omega) (by omega)
  · exact le_refl _

theorem mixF32_nonneg {w0 w1 w2 w3 s0 s1 s2 s3 : ℚ} (hw0 : 0 ≤ w0) (hw1 : 0 ≤ w1)
    (hw2 : 0 ≤ w2) (hw3 : 0 ≤ w3) (hs0 : 0 ≤ s0) (hs1 : 0 ≤ s1) (hs2 : 0 ≤ s2) (hs3 : 0 ≤ s3) :
    0 ≤ mixF32 w0 w1 w2 w3 s0 s1 s2 s3 := by
  unfold mixF32
  have p0 := roundF32_nonneg (mul_nonneg hs0 hw0)
  have p1 := roundF32_nonneg (mul_nonneg hs1 hw1)
  have p2 := roundF32_nonneg (mul_nonneg hs2 hw2)
  have p3 := roundF32_nonneg (mul_nonneg hs3 hw3)
  have a1 := roundF32_nonneg (add_nonneg p0 p1)
  have a2 := roundF32_nonneg (add_nonneg a1 p2)
  exact roundF32_nonneg (add_nonneg a2 p3)

/-- The fractional part of a fixed-point coordinate, as a weight in `[0, 1]`. -/
theorem remap_weight_bounds (z : Int) :
    0 ≤ ((z % 32 : Int) : ℚ) / 32 ∧ 0 ≤ 1 - ((z % 32 : Int) : ℚ) / 32 := by
  have h0 : 0 ≤ z % 32 := Int.emod_nonneg z (by norm_num)
  have h1 : z % 32 < 32 := Int.emod_lt_of_pos z (by norm_num)
  have h0q : (0 : ℚ) ≤ ((z % 32 : Int) : ℚ) := by exact_mod_cast h0
  have h1q : ((z % 32 : Int) : ℚ) < 32 := by exact_mod_cast h1
  constructor
  · positivity
  · rw [sub_nonneg, div_le_one (by norm_num)]
    exact h1q.le

/-- The sample `cv::remap` takes from a field with non-negative horizontal components has a
non-negative horizontal component. -/
theorem remapLinear_fst_nonneg (rows cols : Nat) (src : Img Vec2)
    (h : ∀ r c : Nat, r < rows → c < cols → 0 ≤ (src r c).1) (pos : Vec2) :
    0 ≤ (remapLinear rows cols src pos).1 := by
  obtain ⟨hx0, hx1⟩ := remap_weight_bounds (cvRound (pos.1 * 32))
  obtain ⟨hy0, hy1⟩ := remap_weight_bounds (cvRound (pos.2 * 32))
  unfold remapLinear
  exact mixF32_nonneg (mul_nonneg hx1 hy1) (mul_nonneg hx0 hy1) (mul_nonneg hx1 hy0)
    (mul_nonneg hx0 hy0) (pixelOrZero_fst_nonneg rows cols src h _ _)
    (pixelOrZero_fst_nonneg rows cols src h _ _) (pixelOrZero_fst_nonneg rows cols src h _ _)
    (pixelOrZero_fst_nonneg rows cols src h _ _)

/-- The horizontal coordinate of every entry of the forward field is a `float`. -/
theorem forwardColumn_fst_float (rows cols : Nat) (bO2E : Img Vec2) (j i : Nat) :
    roundF32 (forwardColumn rows cols bO2E j i).1 = (forwardColumn rows cols bO2E j i).1 := by
  cases j with
  | zero =>
    simp only [forwardColumn]
    split <;> exact roundF32_zero
  | succ k =>
    simp only [forwardColumn, addVec]
    exact roundF32_idem _

/-- The field of the counterexample of C16: horizontal offsets `33/64` in column 0 and
`95/64` in column 1, of mean 1. -/
theorem normalisedField_steps (r c : Nat) :
    normalisedField 2 2 (fun _ c => if c = 0 then (33 / 64, 0) else (95 / 64, 0))
      (fun _ _ => (0, 0)) r c = if c = 0 then (33 / 64, 0) else (95 / 64, 0) := by
  have hb : baselineOf 2 2 (differenceField (fun _ c => if c = 0 then (33 / 64, 0) else (95 / 64, 0))
      (fun _ _ => (0, 0))) = 1 := by
    decide!
  unfold normalisedField
  rw [hb]
  by_cases hc : c = 0
  · simp only [differenceField, hc, if_true]
    decide!
  · simp only [differenceField, hc, if_false]
    decide!

/-- C16, as stated, fails. For the 2 x 2 offset fields with horizontal difference `33/64` in
column 0 and `95/64` in column 1 (baseline 1, normalised field non-negative), row 1 of the
forward field holds `(33/64, 1)` in column 1.  The exact bilinear sample of the normalised
field there is `2079/2048`, but `cv::remap` rounds the position to `16/32` and samples `1`:
column 2 holds `97/64`, not `33/64 + 2079/2048`. -/
theorem exact_sample_counterexample :
    (∀ r c : Nat, r < 2 → c < 2 →
      0 ≤ (normalisedField 2 2 (fun _ c => if c = 0 then (33 / 64, 0) else (95 / 64, 0))
        (fun _ _ => (0, 0)) r c).1) ∧
    (buildRectification 2 2 (fun _ c => if c = 0 then (33 / 64, 0) else (95 / 64, 0))
      (fun _ _ => (0, 0))).1.px 1 1 = (33 / 64, 1) ∧
    bilinearSample 2 2 (normalisedField 2 2
      (fun _ c => if c = 0 then (33 / 64, 0) else (95 / 64, 0)) (fun _ _ => (0, 0)))
      (33 / 64, 1) = (2079 / 2048, 0) ∧
    (buildRectification 2 2 (fun _ c => if c = 0 then (33 / 64, 0) else (95 / 64, 0))
      (fun _ _ => (0, 0))).1.px 1 2 = (97 / 64, 1) ∧
    (97 : ℚ) / 64 ≠ 33 / 64 + 2079 / 2048 := by
  have hn : normalisedField 2 2 (fun _ c => if c = 0 then (33 / 64, 0) else (95 / 64, 0))
      (fun _ _ => (0, 0)) = fun _ c => if c = 0 then (33 / 64, 0) else (95 / 64, 0) := by
    funext r c
    exact normalisedField_steps r c
  refine ⟨?_, ?_, ?_, ?_, by norm_num⟩
  · intro r c _ _
    rw [normalisedField_steps]
    split <;> norm_num
  · simp only [buildRectification, hn]
    decide!
  · rw [hn]
    decide!
  · simp only [buildRectification, hn]
    decide!

/-- C16, amended. For every pair of offset fields whose normalised difference field has a
non-negative horizontal component everywhere, the forward field built by
`buildRectification` satisfies, for every `j >= 1` and in each channel,
`forward(i, j) = forward(i, j-1) + s` rounded to `float`, where `s` is the sample `cv::remap`
takes from the normalised field at `forward(i, j-1)` rounded to `1/32` px (zero outside the
field); its horizontal coordinate is non-decreasing along every row. -/
theorem forward_field_accumulates (H W : Nat) (bO2D bE2D : Img Vec2)
    (hpos : ∀ r c : Nat, r < H → c < W → 0 ≤ (normalisedField H W bO2D bE2D r c).1)
    (i j : Nat) (hj : 1 ≤ j) :
    ((buildRectification H W bO2D bE2D).1.px i j).1 =
      roundF32 (((buildRectification H W bO2D bE2D).1.px i (j - 1)).1
        + (remapLinear H W (normalisedField H W bO2D bE2D)
            ((buildRectification H W bO2D bE2D).1.px i (j - 1))).1) ∧
    ((buildRectification H W bO2D bE2D).1.px i j).2 =
      roundF32 (((buildRectification H W bO2D bE2D).1.px i (j - 1)).2
        + (remapLinear H W (normalisedField H W bO2D bE2D)
            ((buildRectification H W bO2D bE2D).1.px i (j - 1))).2) ∧
    ((buildRectification H W bO2D bE2D).1.px i (j - 1)).1
      ≤ ((buildRectification H W bO2D bE2D).1.px i j).1 := by
  obtain ⟨k, rfl⟩ : ∃ k, j = k + 1 := ⟨j - 1, by omega⟩
  simp only [buildRectification, Nat.add_sub_cancel, forwardColumn, addVec, true_and]
  have hs := remapLinear_fst_nonneg H W (normalisedField H W bO2D bE2D) hpos
    (forwardColumn H W (normalisedField H W bO2D bE2D) k i)
  have hm := roundF32_mono
    (show (forwardColumn H W (normalisedField H W bO2D bE2D) k i).1
      ≤ (forwardColumn H W (normalisedField H W bO2D bE2D) k i).1
        + (remapLinear H W (normalisedField H W bO2D bE2D)
            (forwardColumn H W (normalisedField H W bO2D bE2D) k i)).1 by linarith)
  rw [forwardColumn_fst_float] at hm
  exact hm

/-- Evaluation of `forward_field_accumulates` on the 2 x 2 fields of the counterexample,
between columns 1 and 2 of row 1. -/
theorem forward_field_accumulates_witness :
    (∀ r c : Nat, r < 2 → c < 2 →
      0 ≤ (normalisedField 2 2 (fun _ c => if c = 0 then (33 / 64, 0) else (95 / 64, 0))
        (fun _ _ => (0, 0)) r c).1) ∧
    ((buildRectification 2 2 (fun _ c => if c = 0 then (33 / 64, 0) else (95 / 64, 0))
      (fun _ _ => (0, 0))).1.px 1 (2 - 1)).1
      ≤ ((buildRectification 2 2 (fun _ c => if c = 0 then (33 / 64, 0) else (95 / 64, 0))
        (fun _ _ => (0, 0))).1.px 1 2).1 :=
  have hp : ∀ r c : Nat, r < 2 → c < 2 →
      0 ≤ (normalisedField 2 2 (fun _ c => if c = 0 then (33 / 64, 0) else (95 / 64, 0))
        (fun _ _ => (0, 0)) r c).1 := by
    intro r c _ _
    rw [normalisedField_steps]
    split <;> norm_num
  ⟨hp, (forward_field_accumulates 2 2 (fun _ c => if c = 0 then (33 / 64, 0) else (95 / 64, 0))
    (fun _ _ => (0, 0)) hp 1 2 (by decide)).2.2⟩

/-! ### The scan of `reverseRectification` and its bounds -/

theorem foldl_bind_eq_some {σ ι : Type} (f : ι → σ → Option σ) (g : σ → ι → σ) (l : List ι)
    (h : ∀ k ∈ l, ∀ s : σ, f k s = some (g s k)) (s : σ) :
    l.foldl (fun acc k => acc.bind (f k)) (some s) = some (l.foldl g s) := by
  induction l generalizing s with
  | nil => rfl
  | cons a t ih =>
    simp only [List.foldl_cons, Option.some_bind]
    rw [h a (List.mem_cons_self a t) s]
    exact ih (fun k hk => h k (List.mem_cons_of_mem a hk)) (g s a)

/-- One test of the loop on `k` stays inside `bestDiff` when the 3 x 3 block around the
centre does. -/
theorem testNeighbour_eq_free (bestRows bestCols : Nat) (currPos : Vec2) (cx cy : Int)
    (i j k : Nat) (st : ScatterState) (hk : k < 9) (hx : cx + 1 < (bestCols : Int))
    (hy : cy + 1 < (bestRows : Int)) :
    testNeighbour bestRows bestCols currPos cx cy i j k st
      = some (testNeighbourFree currPos cx cy i j k st) := by
  have hk3 : ((k % 3 : Nat) : Int) ≤ 2 := by
    have : k % 3 < 3 := Nat.mod_lt k (by decide)
    omega
  have hk9 : ((k / 3 : Nat) : Int) ≤ 2 := by
    have : k / 3 < 3 := Nat.div_lt_of_lt_mul (by omega)
    omega
  unfold testNeighbour testNeighbourFree
  simp only []
  rw [if_pos ⟨by omega, by omega⟩]
  split
  · rw [if_pos ⟨by omega, by omega⟩]
  · rfl

theorem scatterPixel_eq_free (invRows invCols : Int) (bestRows bestCols : Nat)
    (tformIndMat : Img Vec2) (i j : Nat) (st : ScatterState)
    (hR : invRows ≤ (bestRows : Int)) (hC : invCols ≤ (bestCols : Int)) :
    scatterPixel invRows invCols bestRows bestCols tformIndMat i j st
      = some (scatterPixelFree invRows invCols tformIndMat i j st) := by
  unfold scatterPixel scatterPixelFree
  split
  · rename_i hg
    apply foldl_bind_eq_some
      (fun k => testNeighbour bestRows bestCols (tformIndMat i j) (cvRound (tformIndMat i j).1)
        (cvRound (tformIndMat i j).2) i j k)
      (fun acc k => testNeighbourFree (tformIndMat i j) (cvRound (tformIndMat i j).1)
        (cvRound (tformIndMat i j).2) i j k acc)
    intro k hk s
    exact testNeighbour_eq_free bestRows bestCols _ _ _ i j k s (List.mem_range.mp hk)
      (by omega) (by omega)
  · rfl

theorem scatterRow_eq_free (invRows invCols : Int) (tformIndMat : Img Vec2) (rows cols : Nat)
    (i : Nat) (st : ScatterState) (hR : invRows ≤ (rows : Int)) (hC : invCols ≤ (cols : Int)) :
    scatterRow invRows invCols tformIndMat rows cols i st
      = some (scatterRowFree invRows invCols tformIndMat cols i st) := by
  unfold scatterRow scatterRowFree
  apply foldl_bind_eq_some
    (fun j => scatterPixel invRows invCols rows cols tformIndMat i (j + 1))
    (fun acc j => scatterPixelFree invRows invCols tformIndMat i (j + 1) acc)
  intro j _ s
  exact scatterPixel_eq_free invRows invCols rows cols tformIndMat i (j + 1) s hR hC

/-- When `bestDiff` is at least as large as `invIndMat` in both directions no access leaves
it, and the scan is the scan without bounds. -/
theorem scatterScan_eq_free (invRows invCols : Int) (tformIndMat : Img Vec2) (rows cols : Nat)
    (st : ScatterState) (hR : invRows ≤ (rows : Int)) (hC : invCols ≤ (cols : Int)) :
    scatterScan invRows invCols tformIndMat rows cols st
      = some (scatterScanFree invRows invCols tformIndMat rows cols st) := by
  unfold scatterScan scatterScanFree
  apply foldl_bind_eq_some
    (fun i => scatterRow invRows invCols tformIndMat rows cols (i + 1))
    (fun acc i => scatterRowFree invRows invCols tformIndMat cols (i + 1) acc)
  intro i _ s
  exact scatterRow_eq_free invRows invCols tformIndMat rows cols (i + 1) s hR hC

/-- C17, evaluated where it fails. On the 8 x 8 forward field `clashField` with an 8 x 8
inverse field and `scale = 1` every access stays inside the matrices.  Source `(1, 1)` maps
exactly onto cell `(3, 3)` and records the distance 0 there; the next source `(1, 2)` maps
to `(3.875, 3.875)`, so its centre is `(4, 4)` and cell `(3, 3)` is its neighbour `k = 0` at
half squared distance `49/64`.  Line 109 compares with the record of the centre `(4, 4)`,
still 1, so the scan overwrites cell `(3, 3)`: its recorded distance rises from 0 to `49/64`
and its entry ends as source `(2, 1)`, not the closer source `(1, 1)`; the returned inverse
field holds `(1, 0)` there. -/
theorem scatter_overwrites_closer_source :
    (scatterPixel 8 8 8 8 clashField 1 1 scatterInit).map
      (fun st => (st.bestDiff 3 3, st.invIndMat 3 3, st.bestDiff 4 4)) = some (0, (1, 1), 1) ∧
    pointsDiff (clashField 1 2) 3 3 / 2 = 49 / 64 ∧
    ((scatterPixel 8 8 8 8 clashField 1 1 scatterInit).bind
      (scatterPixel 8 8 8 8 clashField 1 2)).map
      (fun st => (st.bestDiff 3 3, st.invIndMat 3 3)) = some (49 / 64, (2, 1)) ∧
    (scatterScan 8 8 clashField 8 8 scatterInit).map
      (fun st => (st.bestDiff 3 3, st.invIndMat 3 3)) = some (49 / 64, (2, 1)) ∧
    (reverseRectification clashTform 8 8 1).map (fun f => f.px 3 3) = some (1, 0) := by
  decide!

/-! ### The inverse of an identity field -/

theorem bilinearMix_fst (fx fy a b : ℚ) (y00 y10 y01 y11 : ℚ) :
    (bilinearMix fx fy (a, y00) (b, y10) (a, y01) (b, y11)).1 = a + fx * (b - a) := by
  simp only [bilinearMix]
  ring

theorem bilinearMix_snd (fx fy a b : ℚ) (x00 x10 x01 x11 : ℚ) :
    (bilinearMix fx fy (x00, a) (x10, a) (x01, b) (x11, b)).2 = a + fy * (b - a) := by
  simp only [bilinearMix]
  ring

/-- Index plus fraction of the 6-fold upsampling coordinate, times 6. -/
theorem resizeCoord_sixth (size n : Nat) (hS : 1 ≤ size) :
    0 ≤ (resizeCoord size (1 / 6) n).1 ∧
    (((resizeCoord size (1 / 6) n).1.toNat : Nat) : ℚ)
      + (resizeCoord size (1 / 6) n).2
        * (((((resizeCoord size (1 / 6) n).1 + 1).toNat : Nat) : ℚ)
          - (((resizeCoord size (1 / 6) n).1.toNat : Nat) : ℚ))
      = clampedPos size n / 6 := by
  have hf : ((n : ℚ) + 1 / 2) * (1 / 6) - 1 / 2 = (2 * (n : ℚ) - 5) / 12 := by ring
  have hSq : (1 : ℚ) ≤ (size : ℚ) := by exact_mod_cast hS
  unfold resizeCoord clampedPos
  rw [hf]
  by_cases h1 : n ≤ 2
  · have hn : (n : ℚ) ≤ 2 := by exact_mod_cast h1
    have hlt : Int.floor ((2 * (n : ℚ) - 5) / 12) < 0 := by
      rw [Int.floor_lt]
      push_cast
      linarith
    simp only [hlt, if_true, h1]
    norm_num
  · have hn : (3 : ℚ) ≤ (n : ℚ) := by
      have : 3 ≤ n := by omega
      exact_mod_cast this
    have hge : ¬ Int.floor ((2 * (n : ℚ) - 5) / 12) < 0 := by
      rw [not_lt, Int.le_floor]
      push_cast
      linarith
    simp only [hge, if_false, h1]
    by_cases h2 : 6 * size ≤ n + 3
    · have hn2 : 6 * (size : ℚ) ≤ (n : ℚ) + 3 := by exact_mod_cast h2
      have hcl : (size : Int) - 1 ≤ Int.floor ((2 * (n : ℚ) - 5) / 12) := by
        rw [Int.le_floor]
        push_cast
        linarith
      simp only [hcl, if_true, h2]
      have h0 : (0 : Int) ≤ (size : Int) - 1 := by omega
      refine ⟨h0, ?_⟩
      have e1 : ((((size : Int) - 1).toNat : Nat) : ℚ) = (size : ℚ) - 1 := by
        have : ((((size : Int) - 1).toNat : Nat) : Int) = (size : Int) - 1 := Int.toNat_of_nonneg h0
        exact_mod_cast congrArg (fun z : Int => (z : ℚ)) this
      rw [e1]
      ring
    · have hn2 : (n : ℚ) + 3 < 6 * (size : ℚ) := by
        have : n + 3 < 6 * size := by omega
        exact_mod_cast this
      have hcl : ¬ ((size : Int) - 1 ≤ Int.floor ((2 * (n : ℚ) - 5) / 12)) := by
        rw [Int.le_floor]
        push_cast
        intro hc
        have h3 : (n : ℚ) + 7 / 2 ≥ 6 * (size : ℚ) := by linarith
        have h4 : n + 4 ≥ 6 * size + 1 ∨ n + 3 < 6 * size := Or.inr (by omega)
        have h5 : (n : ℚ) + 4 ≤ 6 * (size : ℚ) := by
          have : n + 4 ≤ 6 * size := by omega
          exact_mod_cast this
        linarith
      simp only [hcl, if_false, h2]
      have h0 : (0 : Int) ≤ Int.floor ((2 * (n : ℚ) - 5) / 12) := not_lt.mp hge
      refine ⟨h0, ?_⟩
      have e1 : (((Int.floor ((2 * (n : ℚ) - 5) / 12)).toNat : Nat) : ℚ)
          = ((Int.floor ((2 * (n : ℚ) - 5) / 12) : Int) : ℚ) := by
        have := Int.toNat_of_nonneg h0
        exact_mod_cast congrArg (fun z : Int => (z : ℚ)) this
      have e2 : ((((Int.floor ((2 * (n : ℚ) - 5) / 12)) + 1).toNat : Nat) : ℚ)
          = ((Int.floor ((2 * (n : ℚ) - 5) / 12) : Int) : ℚ) + 1 := by
        have := Int.toNat_of_nonneg (show (0 : Int) ≤ Int.floor ((2 * (n : ℚ) - 5) / 12) + 1 by omega)
        exact_mod_cast congrArg (fun z : Int => (z : ℚ)) this
      rw [e1, e2]
      ring

/-- The scaled 6-fold upsampling of an identity field holds the clamped coordinates. -/
theorem upsample_identity (rows cols : Nat) (hr : 1 ≤ rows) (hc : 1 ≤ cols) (i j : Nat) :
    ((resizeLinear rows cols (1 / 6) (1 / 6) (identityField rows cols).px i j).1 * 6,
     (resizeLinear rows cols (1 / 6) (1 / 6) (identityField rows cols).px i j).2 * 6)
      = (clampedPos cols j, clampedPos rows i) := by
  obtain ⟨-, hx⟩ := resizeCoord_sixth cols j hc
  obtain ⟨-, hy⟩ := resizeCoord_sixth rows i hr
  simp only [resizeLinear, identityField]
  rw [bilinearMix_fst, bilinearMix_snd, hx, hy]
  congr 1 <;> ring

theorem cvRound_add_half (m : Int) :
    cvRound ((m : ℚ) + 1 / 2) = if m % 2 = 0 then m else m + 1 := by
  have hf : Int.floor ((m : ℚ) + 1 / 2) = m := by
    rw [Int.floor_eq_iff]
    constructor <;> linarith
  unfold cvRound
  rw [hf]
  have h1 : ¬ ((m : ℚ) + 1 / 2 - (m : ℚ) < 1 / 2) := by norm_num
  have h2 : ¬ ((1 : ℚ) / 2 < (m : ℚ) + 1 / 2 - (m : ℚ)) := by norm_num
  rw [if_neg h1, if_neg h2]

/-- The centre a scanned source index `n` of the upsampled identity field rounds to, when it
exceeds 1: an even `C`, reached from `n = C + 2` (position `C - 1/2`), from `n = C + 3`
(position `C + 1/2`), or from the clamped indices at the far border (position `C`). -/
theorem centre_cases (size n : Nat) (hS : 1 ≤ size) (hc1 : 1 < cvRound (clampedPos size n)) :
    ∃ C : Nat, cvRound (clampedPos size n) = (C : Int) ∧ C % 2 = 0 ∧ 2 ≤ C ∧
      ((n = C + 2 ∧ clampedPos size n = (C : ℚ) - 1 / 2 ∧ n + 4 ≤ 6 * size) ∨
       (n = C + 3 ∧ clampedPos size n = (C : ℚ) + 1 / 2 ∧ n + 4 ≤ 6 * size) ∨
       (C + 6 = 6 * size ∧ C + 3 ≤ n ∧ clampedPos size n = (C : ℚ))) := by
  unfold clampedPos at hc1 ⊢
  by_cases h1 : n ≤ 2
  · simp only [h1, if_true, cvRound_zero] at hc1
    omega
  · simp only [h1, if_false] at hc1 ⊢
    by_cases h2 : 6 * size ≤ n + 3
    · simp only [h2, if_true] at hc1 ⊢
      have e : 6 * (size : ℚ) - 6 = (((6 * size - 6 : Nat) : Int) : ℚ) := by
        have : 6 ≤ 6 * size := by omega
        push_cast [Nat.cast_sub this]
        ring
      rw [e, cvRound_intCast] at hc1
      rw [e, cvRound_intCast]
      refine ⟨6 * size - 6, rfl, by omega, by omega, Or.inr (Or.inr ⟨by omega, by omega, ?_⟩)⟩
      push_cast
      rfl
    · simp only [h2, if_false] at hc1 ⊢
      have e : (n : ℚ) - 5 / 2 = (((n : Int) - 3 : Int) : ℚ) + 1 / 2 := by
        push_cast
        ring
      rw [e, cvRound_add_half] at hc1
      rw [e, cvRound_add_half]
      by_cases hp : ((n : Int) - 3) % 2 = 0
      · simp only [hp, if_true] at hc1 ⊢
        refine ⟨n - 3, by omega, by omega, by omega, Or.inr (Or.inl ⟨by omega, ?_, by omega⟩)⟩
        have : 3 ≤ n := by omega
        push_cast [Nat.cast_sub this]
        ring
      · simp only [hp, if_false] at hc1 ⊢
        refine ⟨n - 2, by omega, by omega, by omega, Or.inl ⟨by omega, ?_, by omega⟩⟩
        have : 2 ≤ n := by omega
        push_cast [Nat.cast_sub this]
        ring

/-- The first source of an even centre `C`: index `C + 2`, at position `C - 1/2`. -/
theorem centre_first (size C : Nat) (hC : C % 2 = 0) (h2 : 2 ≤ C) (hreg : C + 6 ≤ 6 * size) :
    clampedPos size (C + 2) = (C : ℚ) - 1 / 2 ∧
    cvRound (clampedPos size (C + 2)) = (C : Int) := by
  have hpos : clampedPos size (C + 2) = (C : ℚ) - 1 / 2 := by
    unfold clampedPos
    rw [if_neg (by omega), if_neg (by omega)]
    push_cast
    ring
  refine ⟨hpos, ?_⟩
  have e : (C : ℚ) - 1 / 2 = (((C : Int) - 1 : Int) : ℚ) + 1 / 2 := by
    push_cast
    ring
  rw [hpos, e, cvRound_add_half, if_neg (by omega)]
  ring

theorem range_nine : List.range 9 = [0, 1, 2, 3, 4, 5, 6, 7, 8] := by decide

theorem foldl_invariant {σ ι : Type} (f : σ → ι → σ) (Q : σ → Prop) (l : List ι) (s : σ)
    (h0 : Q s) (hstep : ∀ (t : σ) (k : ι), k ∈ l → Q t → Q (f t k)) : Q (l.foldl f s) := by
  induction l generalizing s with
  | nil => exact h0
  | cons a rest ih =>
    simp only [List.foldl_cons]
    apply ih
    · exact hstep s a (List.mem_cons_self _ _) h0
    · intro t k hk ht
      exact hstep t k (List.mem_cons_of_mem _ hk) ht

/-- The body of the loop on `k` for a centre with natural coordinates `(X, Y)`. -/
theorem testNeighbour_nat (pos : Vec2) (X Y i j k : Nat) (st : ScatterState)
    (hX : 1 ≤ X) (hY : 1 ≤ Y) :
    testNeighbourFree pos (X : Int) (Y : Int) i j k st =
      if pointsDiff pos ((X : ℚ) - 1 + ((k % 3 : Nat) : ℚ)) ((Y : ℚ) - 1 + ((k / 3 : Nat) : ℚ)) / 2
          < st.bestDiff Y X then
        { bestDiff := setPixel st.bestDiff (Y - 1 + k / 3) (X - 1 + k % 3)
            (pointsDiff pos ((X : ℚ) - 1 + ((k % 3 : Nat) : ℚ))
              ((Y : ℚ) - 1 + ((k / 3 : Nat) : ℚ)) / 2)
          invIndMat := setPixel st.invIndMat (Y - 1 + k / 3) (X - 1 + k % 3) ((j : ℚ), (i : ℚ)) }
      else st := by
  have hx : ((X : Int) - 1 + ((k % 3 : Nat) : Int)).toNat = X - 1 + k % 3 := by omega
  have hy : ((Y : Int) - 1 + ((k / 3 : Nat) : Int)).toNat = Y - 1 + k / 3 := by omega
  have hxq : ((((X : Int) - 1 + ((k % 3 : Nat) : Int)) : Int) : ℚ)
      = (X : ℚ) - 1 + ((k % 3 : Nat) : ℚ) := by
    simp only [Int.cast_add, Int.cast_sub, Int.cast_natCast, Int.cast_one]
  have hyq : ((((Y : Int) - 1 + ((k / 3 : Nat) : Int)) : Int) : ℚ)
      = (Y : ℚ) - 1 + ((k / 3 : Nat) : ℚ) := by
    simp only [Int.cast_add, Int.cast_sub, Int.cast_natCast, Int.cast_one]
  unfold testNeighbourFree
  simp only [hx, hy, hxq, hyq, Int.toNat_ofNat]

/-- A source none of whose nine distances beats the record of its centre writes nothing. -/
theorem kloop_noop (pos : Vec2) (X Y i j : Nat) (st : ScatterState) (hX : 1 ≤ X) (hY : 1 ≤ Y)
    (h : ∀ k : Nat, k < 9 → st.bestDiff Y X ≤
      pointsDiff pos ((X : ℚ) - 1 + ((k % 3 : Nat) : ℚ)) ((Y : ℚ) - 1 + ((k / 3 : Nat) : ℚ)) / 2) :
    (List.range 9).foldl (fun acc k => testNeighbourFree pos (X : Int) (Y : Int) i j k acc) st
      = st := by
  have step : ∀ k : Nat, k < 9 → testNeighbourFree pos (X : Int) (Y : Int) i j k st = st := by
    intro k hk
    rw [testNeighbour_nat pos X Y i j k st hX hY, if_neg (not_lt.mpr (h k hk))]
  simp only [range_nine, List.foldl, step 0 (by decide), step 1 (by decide), step 2 (by decide),
    step 3 (by decide), step 4 (by decide), step 5 (by decide), step 6 (by decide),
    step 7 (by decide), step 8 (by decide)]

/-- A source whose centre already has a record of at most `1/4`, and whose distances to the
rows above and below the centre are at least `1/4`, can only write the three cells of the
centre's row, and leaves the record of the centre at most `1/4`. -/
theorem kloop_protected (pos : Vec2) (X Y i j : Nat) (st : ScatterState) (hX : 1 ≤ X)
    (hY : 1 ≤ Y) (hbest : st.bestDiff Y X ≤ 1 / 4)
    (h : ∀ k : Nat, k < 9 → k / 3 ≠ 1 → (1 : ℚ) / 4 ≤
      pointsDiff pos ((X : ℚ) - 1 + ((k % 3 : Nat) : ℚ)) ((Y : ℚ) - 1 + ((k / 3 : Nat) : ℚ)) / 2) :
    ((List.range 9).foldl (fun acc k => testNeighbourFree pos (X : Int) (Y : Int) i j k acc)
        st).bestDiff Y X ≤ 1 / 4 ∧
    ∀ r c : Nat, (r ≠ Y ∨ c + 1 < X ∨ X + 1 < c) →
      ((List.range 9).foldl (fun acc k => testNeighbourFree pos (X : Int) (Y : Int) i j k acc)
        st).bestDiff r c = st.bestDiff r c ∧
      ((List.range 9).foldl (fun acc k => testNeighbourFree pos (X : Int) (Y : Int) i j k acc)
        st).invIndMat r c = st.invIndMat r c := by
  apply foldl_invariant (fun acc k => testNeighbourFree pos (X : Int) (Y : Int) i j k acc)
    (fun t => t.bestDiff Y X ≤ 1 / 4 ∧ ∀ r c : Nat, (r ≠ Y ∨ c + 1 < X ∨ X + 1 < c) →
      t.bestDiff r c = st.bestDiff r c ∧ t.invIndMat r c = st.invIndMat r c)
  · exact ⟨hbest, fun r c _ => ⟨rfl, rfl⟩⟩
  · intro t k hk ⟨ht1, ht2⟩
    have hk9 : k < 9 := List.mem_range.mp hk
    rw [testNeighbour_nat pos X Y i j k t hX hY]
    split
    · rename_i hlt
      have hrow : k / 3 = 1 := by
        by_contra hne
        have := h k hk9 hne
        linarith
      constructor
      · simp only [setPixel]
        split
        · linarith
        · exact ht1
      · intro r c hrc
        have hcell : ¬ (r = Y - 1 + k / 3 ∧ c = X - 1 + k % 3) := by
          rw [hrow]
          have : k % 3 < 3 := Nat.mod_lt _ (by decide)
          omega
        simp only [setPixel, hcell, if_false]
        exact ht2 r c hrc
    · exact ⟨ht1, ht2⟩

/-- The first source of a centre `(X, Y)`, at position `(X - 1/2, Y - 1/2)` while the record
of the centre is still 1: it writes the four cells `{X-1, X} x {Y-1, Y}` and nothing else. -/
theorem kloop_first (X Y i j : Nat) (st : ScatterState) (hX : 1 ≤ X) (hY : 1 ≤ Y)
    (hbest : st.bestDiff Y X = 1) :
    (List.range 9).foldl
        (fun acc k => testNeighbourFree ((X : ℚ) - 1 / 2, (Y : ℚ) - 1 / 2) (X : Int) (Y : Int) i j k acc)
        st =
      { bestDiff := setPixel (setPixel (setPixel (setPixel st.bestDiff (Y - 1) (X - 1) (1 / 4))
            (Y - 1) X (1 / 4)) Y (X - 1) (1 / 4)) Y X (1 / 4)
        invIndMat := setPixel (setPixel (setPixel (setPixel st.invIndMat (Y - 1) (X - 1)
            ((j : ℚ), (i : ℚ))) (Y - 1) X ((j : ℚ), (i : ℚ))) Y (X - 1) ((j : ℚ), (i : ℚ)))
            Y X ((j : ℚ), (i : ℚ)) } := by
  have d : ∀ k : Nat, pointsDiff ((X : ℚ) - 1 / 2, (Y : ℚ) - 1 / 2)
      ((X : ℚ) - 1 + ((k % 3 : Nat) : ℚ)) ((Y : ℚ) - 1 + ((k / 3 : Nat) : ℚ)) / 2
      = ((1 / 2 - ((k % 3 : Nat) : ℚ)) ^ 2 + (1 / 2 - ((k / 3 : Nat) : ℚ)) ^ 2) / 2 := by
    intro k
    simp only [pointsDiff]
    ring
  simp only [range_nine, List.foldl]
  rw [testNeighbour_nat _ X Y i j 0 st hX hY, if_pos (by rw [d, hbest]; norm_num)]
  rw [testNeighbour_nat _ X Y i j 1 _ hX hY, if_pos (by
    simp only [d, setPixel, hbest]
    split_ifs <;> first | omega | norm_num)]
  rw [testNeighbour_nat _ X Y i j 2 _ hX hY, if_neg (by
    simp only [d, setPixel, hbest]
    split_ifs <;> first | omega | norm_num)]
  rw [testNeighbour_nat _ X Y i j 3 _ hX hY, if_pos (by
    simp only [d, setPixel, hbest]
    split_ifs <;> first | omega | norm_num)]
  rw [testNeighbour_nat _ X Y i j 4 _ hX hY, if_pos (by
    simp only [d, setPixel, hbest]
    split_ifs <;> first | omega | norm_num)]
  rw [testNeighbour_nat _ X Y i j 5 _ hX hY, if_neg (by
    simp only [d, setPixel, hbest]
    split_ifs <;> first | omega | norm_num)]
  rw [testNeighbour_nat _ X Y i j 6 _ hX hY, if_neg (by
    simp only [d, setPixel, hbest]
    split_ifs <;> first | omega | norm_num)]
  rw [testNeighbour_nat _ X Y i j 7 _ hX hY, if_neg (by
    simp only [d, setPixel, hbest]
    split_ifs <;> first | omega | norm_num)]
  rw [testNeighbour_nat _ X Y i j 8 _ hX hY, if_neg (by
    simp only [d, setPixel, hbest]
    split_ifs <;> first | omega | norm_num)]
  have hX1 : X - 1 + 1 = X := Nat.sub_add_cancel hX
  have hY1 : Y - 1 + 1 = Y := Nat.sub_add_cancel hY
  simp only [d]
  norm_num [hX1, hY1]

theorem ceilEven_spec (n : Nat) :
    ceilEven n % 2 = 0 ∧ n ≤ ceilEven n ∧ ceilEven n ≤ n + 1 ∧ (n % 2 = 0 → ceilEven n = n) := by
  unfold ceilEven
  omega

/-- A source that is the first source of no centre, and whose effect on the tracked cells
is at most to lower the record of an already served centre, preserves the invariant. -/
theorem scatterInv_step_other (H W a b : Nat) (st st2 : ScatterState)
    (hinv : ScatterInv H W a b st)
    (hnot : ∀ X Y : Nat, X % 2 = 0 → Y % 2 = 0 → 2 ≤ X → X + 2 ≤ 6 * W → 2 ≤ Y →
      Y + 6 ≤ 6 * H → ¬ (Y + 2 = a + 1 ∧ X + 2 = b + 1))
    (hbest : ∀ X Y : Nat, X % 2 = 0 → Y % 2 = 0 → 2 ≤ X → X + 2 ≤ 6 * W → 2 ≤ Y →
      Y + 6 ≤ 6 * H → st2.bestDiff Y X = st.bestDiff Y X ∨
        (scanned a b (Y + 2) (X + 2) ∧ st2.bestDiff Y X ≤ 1 / 4))
    (hmat : ∀ x y : Nat, 1 ≤ x → x + 2 ≤ 6 * W → 1 ≤ y → y + 7 ≤ 6 * H →
      st2.invIndMat y x = st.invIndMat y x) :
    ScatterInv H W a (b + 1) st2 := by
  obtain ⟨hc, hm⟩ := hinv
  have hsc : ∀ X Y : Nat, X % 2 = 0 → Y % 2 = 0 → 2 ≤ X → X + 2 ≤ 6 * W → 2 ≤ Y →
      Y + 6 ≤ 6 * H → (scanned a (b + 1) (Y + 2) (X + 2) ↔ scanned a b (Y + 2) (X + 2)) := by
    intro X Y h1 h2 h3 h4 h5 h6
    have := hnot X Y h1 h2 h3 h4 h5 h6
    unfold scanned
    omega
  constructor
  · intro X Y h1 h2 h3 h4 h5 h6
    rw [hsc X Y h1 h2 h3 h4 h5 h6]
    obtain ⟨hA, hB⟩ := hc X Y h1 h2 h3 h4 h5 h6
    rcases hbest X Y h1 h2 h3 h4 h5 h6 with he | ⟨hs, hle⟩
    · rw [he]; exact ⟨hA, hB⟩
    · exact ⟨fun hn => absurd hs hn, fun _ => hle⟩
  · intro x y h1 h2 h3 h4
    obtain ⟨ex0, ex1, ex2, -⟩ := ceilEven_spec x
    obtain ⟨ey0, ey1, ey2, -⟩ := ceilEven_spec y
    have hiff := hsc (ceilEven x) (ceilEven y) ex0 ey0 (by omega) (by omega) (by omega) (by omega)
    rw [hmat x y h1 h2 h3 h4, hm x y h1 h2 h3 h4]
    by_cases hs : scanned a b (ceilEven y + 2) (ceilEven x + 2)
    · rw [if_pos hs, if_pos (hiff.mpr hs)]
    · rw [if_neg hs, if_neg (fun h => hs (hiff.mp h))]

/-- The first source of a valid centre, processed while the invariant holds, preserves the
invariant. -/
theorem scatterInv_step_first (H W a b X Y : Nat) (st : ScatterState)
    (hinv : ScatterInv H W a b st)
    (hX0 : X % 2 = 0) (hY0 : Y % 2 = 0) (hX2 : 2 ≤ X) (hXW : X + 2 ≤ 6 * W) (hY2 : 2 ≤ Y)
    (hYH : Y + 6 ≤ 6 * H) (hI : Y + 2 = a + 1) (hJ : X + 2 = b + 1) :
    ScatterInv H W a (b + 1)
      { bestDiff := setPixel (setPixel (setPixel (setPixel st.bestDiff (Y - 1) (X - 1) (1 / 4))
            (Y - 1) X (1 / 4)) Y (X - 1) (1 / 4)) Y X (1 / 4)
        invIndMat := setPixel (setPixel (setPixel (setPixel st.invIndMat (Y - 1) (X - 1)
            (((b + 1 : Nat) : ℚ), ((a + 1 : Nat) : ℚ))) (Y - 1) X
            (((b + 1 : Nat) : ℚ), ((a + 1 : Nat) : ℚ))) Y (X - 1)
            (((b + 1 : Nat) : ℚ), ((a + 1 : Nat) : ℚ)))
            Y X (((b + 1 : Nat) : ℚ), ((a + 1 : Nat) : ℚ)) } := by
  obtain ⟨hc, hm⟩ := hinv
  constructor
  · intro X2 Y2 h1 h2 h3 h4 h5 h6
    obtain ⟨hA, hB⟩ := hc X2 Y2 h1 h2 h3 h4 h5 h6
    by_cases hsame : Y2 = Y ∧ X2 = X
    · obtain ⟨rfl, rfl⟩ := hsame
      have hs : scanned a (b + 1) (Y2 + 2) (X2 + 2) := Or.inr ⟨hI, by omega⟩
      simp only [setPixel, and_self, if_true]
      exact ⟨fun hn => absurd hs hn, fun _ => le_refl _⟩
    · have hiff : scanned a (b + 1) (Y2 + 2) (X2 + 2) ↔ scanned a b (Y2 + 2) (X2 + 2) := by
        unfold scanned
        omega
      have n1 : ¬ (Y2 = Y - 1 ∧ X2 = X - 1) := by omega
      have n2 : ¬ (Y2 = Y - 1 ∧ X2 = X) := by omega
      have n3 : ¬ (Y2 = Y ∧ X2 = X - 1) := by omega
      rw [hiff]
      simp only [setPixel, n1, n2, n3, hsame, if_false]
      exact ⟨hA, hB⟩
  · intro x y h1 h2 h3 h4
    obtain ⟨ex0, ex1, ex2, ex3⟩ := ceilEven_spec x
    obtain ⟨ey0, ey1, ey2, ey3⟩ := ceilEven_spec y
    by_cases hsame : ceilEven y = Y ∧ ceilEven x = X
    · have hs : scanned a (b + 1) (ceilEven y + 2) (ceilEven x + 2) :=
        Or.inr ⟨by omega, by omega⟩
      rw [if_pos hs]
      have hcell : (y = Y - 1 ∨ y = Y) ∧ (x = X - 1 ∨ x = X) := by
        obtain ⟨hy, hx⟩ := hsame
        constructor
        · by_cases hp : y % 2 = 0
          · right; rw [← hy]; exact (ey3 hp).symm
          · left; omega
        · by_cases hp : x % 2 = 0
          · right; rw [← hx]; exact (ex3 hp).symm
          · left; omega
      have e1 : ((ceilEven x + 2 : Nat) : ℚ) = ((b + 1 : Nat) : ℚ) := by
        congr 1; omega
      have e2 : ((ceilEven y + 2 : Nat) : ℚ) = ((a + 1 : Nat) : ℚ) := by
        congr 1; omega
      rw [e1, e2]
      simp only [setPixel]
      split_ifs <;> first | rfl | (exfalso; omega)
    · have hiff : scanned a (b + 1) (ceilEven y + 2) (ceilEven x + 2) ↔
          scanned a b (ceilEven y + 2) (ceilEven x + 2) := by
        unfold scanned
        omega
      have hcx : ceilEven x = x + x % 2 := rfl
      have hcy : ceilEven y = y + y % 2 := rfl
      have n0 : ¬ (y = Y ∧ x = X) := by omega
      have n1 : ¬ (y = Y - 1 ∧ x = X - 1) := by omega
      have n2 : ¬ (y = Y - 1 ∧ x = X) := by omega
      have n3 : ¬ (y = Y ∧ x = X - 1) := by omega
      simp only [setPixel, n0, n1, n2, n3, if_false]
      rw [hm x y h1 h2 h3 h4]
      by_cases hs : scanned a b (ceilEven y + 2) (ceilEven x + 2)
      · rw [if_pos hs, if_pos (hiff.mpr hs)]
      · rw [if_neg hs, if_neg (fun h => hs (hiff.mp h))]

theorem sq_half_offset_ge (u : ℚ) (m : Int) (hu : u = 1 / 2 ∨ u = -(1 / 2)) :
    (1 : ℚ) / 4 ≤ (u - (m : ℚ)) * (u - (m : ℚ)) := by
  have hm : (0 : ℚ) ≤ (m : ℚ) * ((m : ℚ) - 1) ∧ (0 : ℚ) ≤ (m : ℚ) * ((m : ℚ) + 1) := by
    rcases le_or_lt m 0 with h | h
    · have h1 : (m : ℚ) ≤ 0 := by exact_mod_cast h
      rcases le_or_lt m (-1) with h2 | h2
      · have h3 : (m : ℚ) ≤ -1 := by exact_mod_cast h2
        constructor <;> nlinarith
      · have h3 : m = 0 := by omega
        rw [h3]
        norm_num
    · have h1 : (1 : ℚ) ≤ (m : ℚ) := by exact_mod_cast h
      constructor <;> nlinarith
  rcases hu with h | h <;> rw [h] <;> nlinarith [hm.1, hm.2]

/-- Half squared distance from a position at half-integer offsets of the centre to any of
the nine neighbour cells: at least `1/4`. -/
theorem diff_regular_ge (X Y k : Nat) (u v : ℚ) (hu : u = 1 / 2 ∨ u = -(1 / 2))
    (hv : v = 1 / 2 ∨ v = -(1 / 2)) :
    (1 : ℚ) / 4 ≤ pointsDiff ((X : ℚ) + u, (Y : ℚ) + v) ((X : ℚ) - 1 + ((k % 3 : Nat) : ℚ))
      ((Y : ℚ) - 1 + ((k / 3 : Nat) : ℚ)) / 2 := by
  have hx := sq_half_offset_ge u (((k % 3 : Nat) : Int) - 1) hu
  have hy := sq_half_offset_ge v (((k / 3 : Nat) : Int) - 1) hv
  simp only [Int.cast_sub, Int.cast_natCast, Int.cast_one] at hx hy
  simp only [pointsDiff]
  have ex : (X : ℚ) + u - ((X : ℚ) - 1 + ((k % 3 : Nat) : ℚ)) = u - (((k % 3 : Nat) : ℚ) - 1) := by
    ring
  have ey : (Y : ℚ) + v - ((Y : ℚ) - 1 + ((k / 3 : Nat) : ℚ)) = v - (((k / 3 : Nat) : ℚ) - 1) := by
    ring
  rw [ex, ey]
  linarith

/-- Half squared distance from a position level with the centre's row to a neighbour cell
of another row: at least `1/4`. -/
theorem diff_clamped_ge (X Y k : Nat) (u : ℚ) (hk : k < 9) (hrow : k / 3 ≠ 1) :
    (1 : ℚ) / 4 ≤ pointsDiff ((X : ℚ) + u, (Y : ℚ)) ((X : ℚ) - 1 + ((k % 3 : Nat) : ℚ))
      ((Y : ℚ) - 1 + ((k / 3 : Nat) : ℚ)) / 2 := by
  have hsq : 0 ≤ ((X : ℚ) + u - ((X : ℚ) - 1 + ((k % 3 : Nat) : ℚ)))
      * ((X : ℚ) + u - ((X : ℚ) - 1 + ((k % 3 : Nat) : ℚ))) := mul_self_nonneg _
  have hy : ((Y : ℚ) - ((Y : ℚ) - 1 + ((k / 3 : Nat) : ℚ)))
      * ((Y : ℚ) - ((Y : ℚ) - 1 + ((k / 3 : Nat) : ℚ))) = 1 := by
    have h3 : k / 3 = 0 ∨ k / 3 = 2 := by omega
    rcases h3 with h | h <;> rw [h] <;> push_cast <;> ring
  simp only [pointsDiff]
  rw [hy]
  linarith

theorem scatterInv_congr (H W a b a2 b2 : Nat) (st : ScatterState)
    (hiff : ∀ X Y : Nat, 2 ≤ X → X + 2 ≤ 6 * W →
      (scanned a2 b2 (Y + 2) (X + 2) ↔ scanned a b (Y + 2) (X + 2)))
    (hinv : ScatterInv H W a b st) : ScatterInv H W a2 b2 st := by
  obtain ⟨hc, hm⟩ := hinv
  constructor
  · intro X Y h1 h2 h3 h4 h5 h6
    rw [hiff X Y h3 h4]
    exact hc X Y h1 h2 h3 h4 h5 h6
  · intro x y h1 h2 h3 h4
    obtain ⟨ex0, ex1, ex2, -⟩ := ceilEven_spec x
    have hi := hiff (ceilEven x) (ceilEven y) (by omega) (by omega)
    rw [hm x y h1 h2 h3 h4]
    by_cases hs : scanned a b (ceilEven y + 2) (ceilEven x + 2)
    · rw [if_pos hs, if_pos (hi.mpr hs)]
    · rw [if_neg hs, if_neg (fun h => hs (hi.mp h))]

/-- One source pixel of the scan over the upsampled identity field preserves the
invariant. -/
theorem scatterPixel_inv (H W Wt a b : Nat) (st : ScatterState) (hH : 1 ≤ H) (hW : W < Wt)
    (hinv : ScatterInv H W a b st) :
    ScatterInv H W a (b + 1)
      (scatterPixelFree ((6 * H : Nat) : Int) ((6 * W : Nat) : Int)
        (fun i j => (clampedPos Wt j, clampedPos H i)) (a + 1) (b + 1) st) := by
  have hWt : 1 ≤ Wt := by omega
  have hnotfirst : (¬ (1 < cvRound (clampedPos Wt (b + 1)) ∧ 1 < cvRound (clampedPos H (a + 1)) ∧
      cvRound (clampedPos Wt (b + 1)) < ((6 * W : Nat) : Int) - 1 ∧
      cvRound (clampedPos H (a + 1)) < ((6 * H : Nat) : Int) - 1)) →
      ∀ X Y : Nat, X % 2 = 0 → Y % 2 = 0 → 2 ≤ X → X + 2 ≤ 6 * W → 2 ≤ Y →
        Y + 6 ≤ 6 * H → ¬ (Y + 2 = a + 1 ∧ X + 2 = b + 1) := by
    intro hg X Y h1 h2 h3 h4 h5 h6 ⟨hI, hJ⟩
    apply hg
    obtain ⟨-, hcx⟩ := centre_first Wt X h1 h3 (by omega)
    obtain ⟨-, hcy⟩ := centre_first H Y h2 h5 h6
    rw [← hJ, ← hI, hcx, hcy]
    omega
  unfold scatterPixelFree
  simp only []
  by_cases hg : 1 < cvRound (clampedPos Wt (b + 1)) ∧ 1 < cvRound (clampedPos H (a + 1)) ∧
      cvRound (clampedPos Wt (b + 1)) < ((6 * W : Nat) : Int) - 1 ∧
      cvRound (clampedPos H (a + 1)) < ((6 * H : Nat) : Int) - 1
  · rw [if_pos hg]
    obtain ⟨hcx1, hcy1, hcx2, hcy2⟩ := hg
    obtain ⟨X, hX, hX0, hX2, hXc⟩ := centre_cases Wt (b + 1) hWt hcx1
    obtain ⟨Y, hY, hY0, hY2, hYc⟩ := centre_cases H (a + 1) hH hcy1
    rw [hX] at hcx2
    rw [hY] at hcy2
    rw [hX, hY]
    have hXW : X + 2 ≤ 6 * W := by omega
    have hYH : Y + 6 ≤ 6 * H := by omega
    have hXcases : (b + 1 = X + 2 ∧ clampedPos Wt (b + 1) = (X : ℚ) + -(1 / 2)) ∨
        (b + 1 = X + 3 ∧ clampedPos Wt (b + 1) = (X : ℚ) + 1 / 2) := by
      rcases hXc with ⟨h1, h2, -⟩ | ⟨h1, h2, -⟩ | ⟨h1, -, -⟩
      · left; exact ⟨h1, by rw [h2]; ring⟩
      · right; exact ⟨h1, h2⟩
      · omega
    obtain ⟨hc, hm⟩ := hinv
    obtain ⟨hA, hB⟩ := hc X Y hX0 hY0 hX2 hXW hY2 hYH
    by_cases hfirst : a + 1 = Y + 2 ∧ b + 1 = X + 2
    · -- the first source of the centre
      obtain ⟨hI, hJ⟩ := hfirst
      have hpx : clampedPos Wt (b + 1) = (X : ℚ) - 1 / 2 := by
        rw [hJ]; exact (centre_first Wt X hX0 hX2 (by omega)).1
      have hpy : clampedPos H (a + 1) = (Y : ℚ) - 1 / 2 := by
        rw [hI]; exact (centre_first H Y hY0 hY2 hYH).1
      have hbest : st.bestDiff Y X = 1 := hA (by unfold scanned; omega)
      rw [hpx, hpy, kloop_first X Y (a + 1) (b + 1) st (by omega) (by omega) hbest]
      exact scatterInv_step_first H W a b X Y st ⟨hc, hm⟩ hX0 hY0 hX2 hXW hY2 hYH
        (by omega) (by omega)
    · have hscan : scanned a b (Y + 2) (X + 2) := by
        unfold scanned
        rcases hXcases with ⟨h1, -⟩ | ⟨h1, -⟩ <;>
          rcases hYc with ⟨h3, -, -⟩ | ⟨h3, -, -⟩ | ⟨-, h3, -⟩ <;> omega
      have hle : st.bestDiff Y X ≤ 1 / 4 := hB hscan
      have hpxu : ∃ u : ℚ, (u = 1 / 2 ∨ u = -(1 / 2)) ∧ clampedPos Wt (b + 1) = (X : ℚ) + u := by
        rcases hXcases with ⟨-, h2⟩ | ⟨-, h2⟩
        · exact ⟨-(1 / 2), Or.inr rfl, h2⟩
        · exact ⟨1 / 2, Or.inl rfl, h2⟩
      obtain ⟨u, hu, hpx⟩ := hpxu
      rcases hYc with ⟨h3, h4, -⟩ | ⟨h3, h4, -⟩ | ⟨h3, h3b, h4⟩
      · -- regular row, not the first column
        have hpy : clampedPos H (a + 1) = (Y : ℚ) + -(1 / 2) := by rw [h4]; ring
        rw [hpx, hpy, kloop_noop _ X Y (a + 1) (b + 1) st (by omega) (by omega)
          (fun k _ => le_trans hle (diff_regular_ge X Y k u (-(1 / 2)) hu (Or.inr rfl)))]
        apply scatterInv_step_other H W a b st st ⟨hc, hm⟩
        · intro X2 Y2 g1 g2 g3 g4 g5 g6 ⟨gI, gJ⟩
          have e1 := (centre_first Wt X2 g1 g3 (by omega)).2
          rw [gJ, hX] at e1
          have : X2 = X := by omega
          omega
        · intro X2 Y2 _ _ _ _ _ _
          exact Or.inl rfl
        · intro x y _ _ _ _
          rfl
      · -- regular row, second source row of the centre
        rw [hpx, h4, kloop_noop _ X Y (a + 1) (b + 1) st (by omega) (by omega)
          (fun k _ => le_trans hle (diff_regular_ge X Y k u (1 / 2) hu (Or.inl rfl)))]
        apply scatterInv_step_other H W a b st st ⟨hc, hm⟩
        · intro X2 Y2 g1 g2 g3 g4 g5 g6 ⟨gI, gJ⟩
          have e1 := (centre_first H Y2 g2 g5 g6).2
          rw [gI, hY] at e1
          have : Y2 = Y := by omega
          omega
        · intro X2 Y2 _ _ _ _ _ _
          exact Or.inl rfl
        · intro x y _ _ _ _
          rfl
      · -- clamped rows at the bottom
        rw [hpx, h4]
        obtain ⟨hk1, hk2⟩ := kloop_protected ((X : ℚ) + u, (Y : ℚ)) X Y (a + 1) (b + 1) st
          (by omega) (by omega) hle (fun k hk hrow => diff_clamped_ge X Y k u hk hrow)
        apply scatterInv_step_other H W a b st _ ⟨hc, hm⟩
        · intro X2 Y2 g1 g2 g3 g4 g5 g6 ⟨gI, gJ⟩
          omega
        · intro X2 Y2 g1 g2 g3 g4 g5 g6
          by_cases hsame : Y2 = Y ∧ X2 = X
          · obtain ⟨rfl, rfl⟩ := hsame
            exact Or.inr ⟨hscan, hk1⟩
          · left
            exact (hk2 Y2 X2 (by omega)).1
        · intro x y g1 g2 g3 g4
          exact (hk2 y x (Or.inl (by omega))).2
  · rw [if_neg hg]
    apply scatterInv_step_other H W a b st st hinv (hnotfirst hg)
    · intro X2 Y2 _ _ _ _ _ _
      exact Or.inl rfl
    · intro x y _ _ _ _
      rfl

theorem foldl_range_invariant {σ : Type} (f : σ → Nat → σ) (Q : Nat → σ → Prop) (n : Nat)
    (s : σ) (h0 : Q 0 s) (hstep : ∀ (k : Nat) (t : σ), k < n → Q k t → Q (k + 1) (f t k)) :
    Q n ((List.range n).foldl f s) := by
  induction n with
  | zero => exact h0
  | succ m ih =>
    rw [List.range_succ, List.foldl_append]
    simp only [List.foldl_cons, List.foldl_nil]
    apply hstep m _ (Nat.lt_succ_self m)
    exact ih (fun k t hk hq => hstep k t (Nat.lt_succ_of_lt hk) hq)

theorem scatterInit_inv (H W : Nat) : ScatterInv H W 0 0 scatterInit := by
  constructor
  · intro X Y _ _ _ _ _ _
    refine ⟨fun _ => rfl, fun hs => ?_⟩
    unfold scanned at hs
    omega
  · intro x y _ _ _ _
    have : ¬ scanned 0 0 (ceilEven y + 2) (ceilEven x + 2) := by
      unfold scanned
      omega
    rw [if_neg this]
    rfl

/-- The whole scan over the upsampled identity field establishes the invariant for all
sources. -/
theorem scatterScan_inv (H W Wt : Nat) (hH : 1 ≤ H) (hW : W < Wt) (n : Nat) :
    ScatterInv H W n 0
      (scatterScanFree ((6 * H : Nat) : Int) ((6 * W : Nat) : Int)
        (fun i j => (clampedPos Wt j, clampedPos H i)) (n + 2) (6 * Wt) scatterInit) := by
  unfold scatterScanFree
  simp only [Nat.add_sub_cancel]
  apply foldl_range_invariant
    (fun acc i => scatterRowFree ((6 * H : Nat) : Int) ((6 * W : Nat) : Int)
      (fun i j => (clampedPos Wt j, clampedPos H i)) (6 * Wt) (i + 1) acc)
    (fun a t => ScatterInv H W a 0 t)
  · exact scatterInit_inv H W
  · intro a t _ hq
    have hrow : ScatterInv H W a (6 * Wt - 2)
        (scatterRowFree ((6 * H : Nat) : Int) ((6 * W : Nat) : Int)
          (fun i j => (clampedPos Wt j, clampedPos H i)) (6 * Wt) (a + 1) t) := by
      unfold scatterRowFree
      apply foldl_range_invariant
        (fun acc j => scatterPixelFree ((6 * H : Nat) : Int) ((6 * W : Nat) : Int)
          (fun i j => (clampedPos Wt j, clampedPos H i)) (a + 1) (j + 1) acc)
        (fun b u => ScatterInv H W a b u)
      · exact hq
      · intro b u _ hu
        exact scatterPixel_inv H W Wt a b u hH hW hu
    apply scatterInv_congr H W a (6 * Wt - 2) (a + 1) 0 _ _ hrow
    intro X Y h1 h2
    unfold scanned
    omega

/-- Source index and fraction of the 6-fold downsampling at destination index `n`. -/
theorem resizeCoord_six (size n : Nat) (hn : n + 1 ≤ size) :
    resizeCoord (6 * size) 6 n = (((6 * n + 2 : Nat) : Int), 1 / 2) := by
  have hf : ((n : ℚ) + 1 / 2) * 6 - 1 / 2 = (((6 * n + 2 : Nat) : Int) : ℚ) + 1 / 2 := by
    push_cast
    ring
  have hfl : Int.floor ((((6 * n + 2 : Nat) : Int) : ℚ) + 1 / 2) = ((6 * n + 2 : Nat) : Int) := by
    rw [Int.floor_eq_iff]
    constructor <;> linarith
  unfold resizeCoord
  rw [hf, hfl]
  rw [if_neg (by omega), if_neg (by omega)]
  congr 1
  ring

/-- Every cell of the inverse buffer away from the border holds the first source that
tested it, after the scan of the upsampled identity field. -/
theorem scan_cell (H W Wt : Nat) (hH : 1 ≤ H) (hW : W < Wt) (x y : Nat)
    (hx1 : 1 ≤ x) (hx2 : x + 2 ≤ 6 * W) (hy1 : 1 ≤ y) (hy2 : y + 7 ≤ 6 * H) :
    (scatterScanFree ((6 * H : Nat) : Int) ((6 * W : Nat) : Int)
        (fun i j => (clampedPos Wt j, clampedPos H i)) (6 * H) (6 * Wt) scatterInit).invIndMat y x
      = (((ceilEven x + 2 : Nat) : ℚ), ((ceilEven y + 2 : Nat) : ℚ)) := by
  have hinv := scatterScan_inv H W Wt hH hW (6 * H - 2)
  have hn : 6 * H - 2 + 2 = 6 * H := by omega
  rw [hn] at hinv
  have hb := hinv.2 x y hx1 hx2 hy1 hy2
  have hcx : ceilEven x = x + x % 2 := rfl
  have hcy : ceilEven y = y + y % 2 := rfl
  have hs : scanned (6 * H - 2) 0 (ceilEven y + 2) (ceilEven x + 2) := by
    unfold scanned
    omega
  rw [if_pos hs] at hb
  exact hb

/-- The inverse of an identity field at scale 6, before the final unfolding of the scan. -/
theorem reverseRectification_identity (H W Wt : Nat) (hH : 1 ≤ H) (hW1 : 1 ≤ W) (hW : W < Wt) :
    reverseRectification (identityField H Wt) H W 6 = some
      { rows := H
        cols := W
        px := fun r c =>
          ((resizeLinear (6 * H) (6 * W) 6 6
              (scatterScanFree ((6 * H : Nat) : Int) ((6 * W : Nat) : Int)
                (fun i j => (clampedPos Wt j, clampedPos H i)) (6 * H) (6 * Wt)
                scatterInit).invIndMat r c).1 * (1 / 6) - 1,
           (resizeLinear (6 * H) (6 * W) 6 6
              (scatterScanFree ((6 * H : Nat) : Int) ((6 * W : Nat) : Int)
                (fun i j => (clampedPos Wt j, clampedPos H i)) (6 * H) (6 * Wt)
                scatterInit).invIndMat r c).2 * (1 / 6) - 1) } := by
  have hr : (identityField H Wt).rows = H := rfl
  have hc : (identityField H Wt).cols = Wt := rfl
  have cast6 : ∀ n : Nat, (n : ℚ) * 6 = (((6 * n : Nat) : Int) : ℚ) := by
    intro n
    push_cast
    ring
  have e1 : ∀ n : Nat, cvRound ((n : ℚ) * 6) = ((6 * n : Nat) : Int) := by
    intro n
    rw [cast6, cvRound_intCast]
  have e2 : ∀ n : Nat, truncToInt ((n : ℚ) * 6) = ((6 * n : Nat) : Int) := by
    intro n
    have h0 : (0 : ℚ) ≤ (n : ℚ) * 6 := by positivity
    rw [truncToInt_eq_floor h0, cast6, Int.floor_intCast]
  have hG : (fun (r c : Nat) =>
      ((resizeLinear H Wt (1 / 6) (1 / 6) (identityField H Wt).px r c).1 * 6,
       (resizeLinear H Wt (1 / 6) (1 / 6) (identityField H Wt).px r c).2 * 6))
      = fun i j => (clampedPos Wt j, clampedPos H i) := by
    funext i j
    exact upsample_identity H Wt hH (by omega) i j
  have hdr : ((((6 * H : Nat) : Int) : ℚ)) / (H : ℚ) = 6 := by
    have : (H : ℚ) ≠ 0 := by
      have : (1 : ℚ) ≤ (H : ℚ) := by exact_mod_cast hH
      linarith
    push_cast
    field_simp
  have hdc : ((((6 * W : Nat) : Int) : ℚ)) / (W : ℚ) = 6 := by
    have : (W : ℚ) ≠ 0 := by
      have : (1 : ℚ) ≤ (W : ℚ) := by exact_mod_cast hW1
      linarith
    push_cast
    field_simp
  have hcond : ¬ (H = 0 ∨ Wt = 0 ∨ (6 : ℚ) ≤ 0 ∨ ((6 * H : Nat) : Int) ≤ 0 ∨
      ((6 * Wt : Nat) : Int) ≤ 0 ∨ H = 0 ∨ W = 0 ∨ ((6 * H : Nat) : Int) ≤ 0 ∨
      ((6 * W : Nat) : Int) ≤ 0) := by
    have h6 : ¬ ((6 : ℚ) ≤ 0) := by norm_num
    rintro (h | h | h | h | h | h | h | h | h)
    · omega
    · omega
    · exact h6 h
    · omega
    · omega
    · omega
    · omega
    · omega
    · omega
  have hscan := scatterScan_eq_free ((6 * H : Nat) : Int) ((6 * W : Nat) : Int)
    (fun i j => (clampedPos Wt j, clampedPos H i)) (6 * H) (6 * Wt) scatterInit (le_refl _)
    (by omega)
  unfold reverseRectification
  simp only [hr, hc, e1, e2, Int.toNat_ofNat, hG, hdr, hdc]
  rw [if_neg hcond, hscan]
  rfl

/-- Bilinear sample of an identity field at a position one sixth before an interior pixel. -/
theorem bilinearSample_identity (H Wt r c : Nat) (hr1 : 1 ≤ r) (hr2 : r + 1 ≤ H)
    (hc1 : 1 ≤ c) (hc2 : c + 1 ≤ Wt) :
    bilinearSample H Wt (identityField H Wt).px ((c : ℚ) - 1 / 6, (r : ℚ) - 1 / 6)
      = ((c : ℚ) - 1 / 6, (r : ℚ) - 1 / 6) := by
  have hfl : ∀ n : Nat, 1 ≤ n → Int.floor ((n : ℚ) - 1 / 6) = ((n - 1 : Nat) : Int) := by
    intro n hn
    rw [Int.floor_eq_iff]
    have : (((n - 1 : Nat) : Int) : ℚ) = (n : ℚ) - 1 := by
      push_cast [Nat.cast_sub hn]
      ring
    rw [this]
    constructor <;> linarith
  have hp : ∀ y x : Nat, x < Wt → y < H →
      pixelOrZero H Wt (identityField H Wt).px (y : Int) (x : Int) = ((x : ℚ), (y : ℚ)) := by
    intro y x hx hy
    unfold pixelOrZero
    rw [if_pos (by omega)]
    simp only [Int.toNat_ofNat, identityField]
  have hc' : ((c - 1 : Nat) : Int) + 1 = ((c : Nat) : Int) := by omega
  have hr' : ((r - 1 : Nat) : Int) + 1 = ((r : Nat) : Int) := by omega
  unfold bilinearSample
  simp only [hfl c hc1, hfl r hr1, hc', hr']
  rw [hp (r - 1) (c - 1) (by omega) (by omega), hp (r - 1) c (by omega) (by omega),
    hp r (c - 1) (by omega) (by omega), hp r c (by omega) (by omega)]
  have hcq : (((c - 1 : Nat) : Int) : ℚ) = (c : ℚ) - 1 := by
    push_cast [Nat.cast_sub hc1]
    ring
  have hrq : (((r - 1 : Nat) : Int) : ℚ) = (r : ℚ) - 1 := by
    push_cast [Nat.cast_sub hr1]
    ring
  have hcn : ((c - 1 : Nat) : ℚ) = (c : ℚ) - 1 := by
    push_cast [Nat.cast_sub hc1]
    ring
  have hrn : ((r - 1 : Nat) : ℚ) = (r : ℚ) - 1 := by
    push_cast [Nat.cast_sub hr1]
    ring
  simp only [bilinearMix, hcq, hrq, hcn, hrn]
  ext <;> simp only [] <;> ring

/-- The value of the inverse of an identity field at a pixel away from the last row. -/
theorem inverse_identity_px (H W Wt : Nat) (hW : W < Wt) (r c : Nat) (hr : r + 2 ≤ H)
    (hc : c + 1 ≤ W) :
    ((resizeLinear (6 * H) (6 * W) 6 6
        (scatterScanFree ((6 * H : Nat) : Int) ((6 * W : Nat) : Int)
          (fun i j => (clampedPos Wt j, clampedPos H i)) (6 * H) (6 * Wt)
          scatterInit).invIndMat r c).1 * (1 / 6) - 1,
     (resizeLinear (6 * H) (6 * W) 6 6
        (scatterScanFree ((6 * H : Nat) : Int) ((6 * W : Nat) : Int)
          (fun i j => (clampedPos Wt j, clampedPos H i)) (6 * H) (6 * Wt)
          scatterInit).invIndMat r c).2 * (1 / 6) - 1)
      = ((c : ℚ) - 1 / 6, (r : ℚ) - 1 / 6) := by
  have hH : 1 ≤ H := by omega
  have t1 : (((6 * c + 2 : Nat) : Int)).toNat = 6 * c + 2 := Int.toNat_ofNat _
  have t2 : (((6 * c + 2 : Nat) : Int) + 1).toNat = 6 * c + 3 := by omega
  have t3 : (((6 * r + 2 : Nat) : Int)).toNat = 6 * r + 2 := Int.toNat_ofNat _
  have t4 : (((6 * r + 2 : Nat) : Int) + 1).toNat = 6 * r + 3 := by omega
  have cx0 : ceilEven (6 * c + 2) = 6 * c + 2 := by
    unfold ceilEven
    omega
  have cx1 : ceilEven (6 * c + 3) = 6 * c + 4 := by
    unfold ceilEven
    omega
  have cy0 : ceilEven (6 * r + 2) = 6 * r + 2 := by
    unfold ceilEven
    omega
  have cy1 : ceilEven (6 * r + 3) = 6 * r + 4 := by
    unfold ceilEven
    omega
  unfold resizeLinear
  simp only [resizeCoord_six W c hc, resizeCoord_six H r (by omega), t1, t2, t3, t4]
  rw [scan_cell H W Wt hH hW (6 * c + 2) (6 * r + 2) (by omega) (by omega) (by omega) (by omega),
    scan_cell H W Wt hH hW (6 * c + 3) (6 * r + 2) (by omega) (by omega) (by omega) (by omega),
    scan_cell H W Wt hH hW (6 * c + 2) (6 * r + 3) (by omega) (by omega) (by omega) (by omega),
    scan_cell H W Wt hH hW (6 * c + 3) (6 * r + 3) (by omega) (by omega) (by omega) (by omega)]
  simp only [cx0, cx1, cy0, cy1, bilinearMix]
  push_cast
  ext <;> simp only [] <;> ring

/-- On the identity forward field `forward(i, j) = (j, i)` of `H x Wt` pixels and the
default scale 6, `reverseRectification` returns an `H x W` inverse field (`W < Wt`: the
forward field is wider than the image, as `buildRectification` makes it) whose value at
every interior pixel `(c, r)`, with `1 ≤ r ≤ H - 2` and `1 ≤ c ≤ W - 1`, is
`(c - 1/6, r - 1/6)`; the forward field sampled there returns a coordinate within 1 px of
`(c, r)` in each axis.  On this field the sources of one cell never compete. -/
theorem inverse_round_trip_identity (H W Wt : Nat) (hW : W < Wt) (r c : Nat)
    (hr1 : 1 ≤ r) (hr2 : r + 2 ≤ H) (hc1 : 1 ≤ c) (hc2 : c + 1 ≤ W) :
    ∃ inv : Field, reverseRectification (identityField H Wt) H W 6 = some inv ∧
      inv.rows = H ∧ inv.cols = W ∧
      inv.px r c = ((c : ℚ) - 1 / 6, (r : ℚ) - 1 / 6) ∧
      |(bilinearSample H Wt (identityField H Wt).px (inv.px r c)).1 - (c : ℚ)| ≤ 1 ∧
      |(bilinearSample H Wt (identityField H Wt).px (inv.px r c)).2 - (r : ℚ)| ≤ 1 := by
  refine ⟨_, reverseRectification_identity H W Wt (by omega) (by omega) hW, rfl, rfl, ?_⟩
  have hpx := inverse_identity_px H W Wt hW r c hr2 hc2
  simp only [hpx, true_and]
  rw [bilinearSample_identity H Wt r c hr1 (by omega) hc1 (by omega)]
  simp only []
  constructor
  · rw [abs_le]
    constructor <;> linarith
  · rw [abs_le]
    constructor <;> linarith

/-- Evaluation of `inverse_round_trip_identity` on a 4 x 5 field at pixel `(1, 1)`. -/
theorem inverse_round_trip_identity_witness :
    ∃ inv : Field, reverseRectification (identityField 4 5) 4 4 6 = some inv ∧
      inv.rows = 4 ∧ inv.cols = 4 ∧
      inv.px 1 1 = (((1 : Nat) : ℚ) - 1 / 6, ((1 : Nat) : ℚ) - 1 / 6) ∧
      |(bilinearSample 4 5 (identityField 4 5).px (inv.px 1 1)).1 - ((1 : Nat) : ℚ)| ≤ 1 ∧
      |(bilinearSample 4 5 (identityField 4 5).px (inv.px 1 1)).2 - ((1 : Nat) : ℚ)| ≤ 1 :=
  inverse_round_trip_identity 4 4 5 (by decide) 1 1 (by decide) (by decide) (by decide)
    (by decide)



/-! ### The scan on an encoded state -/

theorem strictNat_eq {β : Type} (n : Nat) (k : Nat → β) : strictNat n k = k n := by
  cases n <;> rfl

theorem strictInt_eq {β : Type} (z : Int) (k : Int → β) : strictInt z k = k z := by
  cases z <;> simp only [strictInt, strictNat_eq]

theorem foldStrict_none {ι : Type} (f : ι → Nat × Nat → Option (Nat × Nat)) (l : List ι) :
    foldStrict f l none = none := by
  cases l <;> rfl

theorem low_add_mul_div (x B z : Nat) (hx : x < B) : (x + B * z) / B = z := by
  have hB : 0 < B := by omega
  rw [Nat.add_mul_div_left x z hB, Nat.div_eq_of_lt hx, Nat.zero_add]

theorem setDigit_eq (n p v : Nat) :
    setDigit n p v = n % 1024 ^ p + 1024 ^ p * (n / (1024 ^ p * 1024) * 1024 + v) := by
  unfold setDigit
  rw [pow_succ]
  ring

theorem getDigit_setDigit_same (n p v : Nat) (hv : v < 1024) :
    getDigit (setDigit n p v) p = v := by
  have hB : 0 < 1024 ^ p := by positivity
  rw [setDigit_eq]
  unfold getDigit
  rw [low_add_mul_div _ _ _ (Nat.mod_lt n hB), Nat.add_comm, Nat.add_mul_mod_self_right,
    Nat.mod_eq_of_lt hv]

theorem getDigit_setDigit_ne (n p q v : Nat) (hv : v < 1024) (h : q ≠ p) :
    getDigit (setDigit n p v) q = getDigit n q := by
  have hB : 0 < 1024 ^ p := by positivity
  rcases Nat.lt_or_gt_of_ne h with hlt | hgt
  · -- a digit below `p`: it lies in the part `n % 1024 ^ p`
    obtain ⟨t, rfl⟩ : ∃ t, p = q + 1 + t := ⟨p - q - 1, by omega⟩
    have hq : 0 < 1024 ^ q := by positivity
    have key : ∀ M : Nat, (n % 1024 ^ (q + 1 + t) + 1024 ^ (q + 1 + t) * M) / 1024 ^ q % 1024
        = n % 1024 ^ (q + 1 + t) / 1024 ^ q % 1024 := by
      intro M
      have e : 1024 ^ (q + 1 + t) * M = 1024 ^ q * (1024 * (1024 ^ t * M)) := by
        rw [pow_add, pow_succ]
        ring
      rw [e, Nat.add_mul_div_left _ _ hq, Nat.add_mul_mod_self_left]
    rw [setDigit_eq]
    unfold getDigit
    rw [key]
    conv_rhs => rw [← Nat.mod_add_div n (1024 ^ (q + 1 + t))]
    rw [key]
  · -- a digit above `p`: it lies in the part `n / 1024 ^ (p + 1)`
    obtain ⟨t, rfl⟩ : ∃ t, q = p + 1 + t := ⟨q - p - 1, by omega⟩
    have hlow : v * 1024 ^ p + n % 1024 ^ p < 1024 ^ p * 1024 := by
      have := Nat.mod_lt n hB
      nlinarith
    have e : setDigit n p v
        = (v * 1024 ^ p + n % 1024 ^ p) + 1024 ^ p * 1024 * (n / (1024 ^ p * 1024)) := by
      unfold setDigit
      rw [pow_succ]
      ring
    have e2 : (1024 : Nat) ^ (p + 1 + t) = 1024 ^ p * 1024 * 1024 ^ t := by
      rw [pow_add, pow_succ]
    unfold getDigit
    rw [e, e2, ← Nat.div_div_eq_div_mul, low_add_mul_div _ _ _ hlow]
    simp only [Nat.div_div_eq_div_mul]

theorem getDigit_zero_left (p : Nat) : getDigit 0 p = 0 := by
  unfold getDigit
  simp

theorem getDigit_fillDigits (n p : Nat) (h : p < n) : getDigit (fillDigits n) p = 512 := by
  induction n with
  | zero => omega
  | succ m ih =>
    rw [fillDigits]
    by_cases hp : p = m
    · rw [hp]
      exact getDigit_setDigit_same _ _ _ (by norm_num)
    · rw [getDigit_setDigit_ne _ _ _ _ (by norm_num) hp]
      exact ih (by omega)

theorem getDigit_lt (n p : Nat) : getDigit n p < 1024 := Nat.mod_lt _ (by norm_num)

theorem cell_index_inj (C r c y x : Nat) (hc : c < C) (hx : x < C)
    (h : r * C + c = y * C + x) : r = y ∧ c = x := by
  have hC : 0 < C := by omega
  have h1 : (r * C + c) % C = c := by
    rw [Nat.add_comm, Nat.add_mul_mod_self_right, Nat.mod_eq_of_lt hc]
  have h2 : (y * C + x) % C = x := by
    rw [Nat.add_comm, Nat.add_mul_mod_self_right, Nat.mod_eq_of_lt hx]
  have h3 : (r * C + c) / C = r := by
    rw [Nat.add_comm, Nat.add_mul_div_right _ _ hC, Nat.div_eq_of_lt hc, Nat.zero_add]
  have h4 : (y * C + x) / C = y := by
    rw [Nat.add_comm, Nat.add_mul_div_right _ _ hC, Nat.div_eq_of_lt hx, Nat.zero_add]
  rw [h] at h1 h3
  exact ⟨by omega, by omega⟩

/-- The initial state of the scan, encoded. -/
theorem encodes_init (R C : Nat) : Encodes R C (fillDigits (R * C), 0) scatterInit := by
  intro r c hr hc
  have hidx : r * C + c < R * C := by
    have : (r + 1) * C ≤ R * C := Nat.mul_le_mul_right C (by omega)
    have e : (r + 1) * C = r * C + C := by ring
    omega
  refine ⟨?_, ?_⟩
  · simp only [scatterInit]
    rw [getDigit_fillDigits _ _ hidx]
    norm_num
  · simp only [scatterInit, getDigit_zero_left]
    norm_num

/-- A strict fold of encoded steps follows a fold of steps on states when every step does. -/
theorem foldStrict_sound {ι : Type} (Rel : Nat × Nat → ScatterState → Prop)
    (f : ι → Nat × Nat → Option (Nat × Nat)) (g : ScatterState → ι → ScatterState)
    (l : List ι)
    (hstep : ∀ x ∈ l, ∀ (code next : Nat × Nat) (st : ScatterState),
      Rel code st → f x code = some next → Rel next (g st x))
    (code final : Nat × Nat) (st : ScatterState) (h : Rel code st)
    (hrun : foldStrict f l (some code) = some final) : Rel final (l.foldl g st) := by
  induction l generalizing code st with
  | nil =>
    simp only [foldStrict, Option.some.injEq] at hrun
    rw [← hrun]
    exact h
  | cons a t ih =>
    simp only [foldStrict] at hrun
    cases hf : f a code with
    | none =>
      rw [hf] at hrun
      exact absurd hrun (by simp)
    | some next =>
      rw [hf] at hrun
      simp only [List.foldl_cons]
      exact ih (fun x hx => hstep x (List.mem_cons_of_mem a hx)) next (g st a)
        (hstep a (List.mem_cons_self a t) code next st h hf) hrun

/-- One encoded test follows `testNeighbourFree`. -/
theorem codeTest_sound (R C : Nat) (pos : Vec2) (p1 p2 cx cy : Int) (i j k : Nat)
    (code next : Nat × Nat) (st : ScatterState)
    (hp1 : pos.1 = (p1 : ℚ) / 16) (hp2 : pos.2 = (p2 : ℚ) / 16)
    (hcx1 : 1 < cx) (hcx2 : cx + 1 < (C : Int)) (hcy1 : 1 < cy) (hcy2 : cy + 1 < (R : Int))
    (hk : k < 9) (h : Encodes R C code st)
    (hrun : codeTest C p1 p2 cx cy i j k code = some next) :
    Encodes R C next (testNeighbourFree pos cx cy i j k st) := by
  have hk3 : k % 3 < 3 := Nat.mod_lt k (by decide)
  have hk9 : k / 3 < 3 := Nat.div_lt_of_lt_mul (by omega)
  obtain ⟨CX, rfl⟩ : ∃ n : Nat, cx = (n : Int) := ⟨cx.toNat, by omega⟩
  obtain ⟨CY, rfl⟩ : ∃ n : Nat, cy = (n : Int) := ⟨cy.toNat, by omega⟩
  obtain ⟨X, hX⟩ : ∃ n : Nat, (CX : Int) - 1 + ((k % 3 : Nat) : Int) = (n : Int) :=
    ⟨CX - 1 + k % 3, by omega⟩
  obtain ⟨Y, hY⟩ : ∃ n : Nat, (CY : Int) - 1 + ((k / 3 : Nat) : Int) = (n : Int) :=
    ⟨CY - 1 + k / 3, by omega⟩
  have hXC : X < C := by omega
  have hYR : Y < R := by omega
  have hread := (h CY CX (by omega) (by omega)).1
  have hdiff : pointsDiff pos (((CX : Int) - 1 + ((k % 3 : Nat) : Int) : Int) : ℚ)
      (((CY : Int) - 1 + ((k / 3 : Nat) : Int) : Int) : ℚ) / 2
      = ((((p1 - 16 * (X : Int)) * (p1 - 16 * (X : Int))
          + (p2 - 16 * (Y : Int)) * (p2 - 16 * (Y : Int)) : Int)) : ℚ) / 512 := by
    rw [hX, hY]
    unfold pointsDiff
    rw [hp1, hp2]
    push_cast
    ring
  have hcond : (pointsDiff pos (((CX : Int) - 1 + ((k % 3 : Nat) : Int) : Int) : ℚ)
      (((CY : Int) - 1 + ((k / 3 : Nat) : Int) : Int) : ℚ) / 2
        < st.bestDiff (CY : Int).toNat (CX : Int).toNat) ↔
      ((p1 - 16 * (X : Int)) * (p1 - 16 * (X : Int))
          + (p2 - 16 * (Y : Int)) * (p2 - 16 * (Y : Int))
        < ((getDigit code.1 (CY * C + CX) : Nat) : Int)) := by
    rw [hdiff, Int.toNat_ofNat, Int.toNat_ofNat, hread, div_lt_div_iff_of_pos_right (by norm_num)]
    constructor
    · intro hlt
      exact_mod_cast hlt
    · intro hlt
      exact_mod_cast hlt
  unfold codeTest at hrun
  rw [hX, hY] at hrun
  simp only [Int.toNat_ofNat] at hrun
  unfold testNeighbourFree
  simp only []
  by_cases hc : (p1 - 16 * (X : Int)) * (p1 - 16 * (X : Int))
      + (p2 - 16 * (Y : Int)) * (p2 - 16 * (Y : Int))
      < ((getDigit code.1 (CY * C + CX) : Nat) : Int)
  · rw [if_pos hc] at hrun
    rw [if_pos (hcond.mpr hc)]
    by_cases hij : i < 32 ∧ j < 32
    · rw [if_pos hij, strictNat_eq, strictNat_eq] at hrun
      simp only [Option.some.injEq] at hrun
      rw [← hrun]
      have hd0 : 0 ≤ (p1 - 16 * (X : Int)) * (p1 - 16 * (X : Int))
          + (p2 - 16 * (Y : Int)) * (p2 - 16 * (Y : Int)) :=
        add_nonneg (mul_self_nonneg _) (mul_self_nonneg _)
      have hdlt : ((p1 - 16 * (X : Int)) * (p1 - 16 * (X : Int))
          + (p2 - 16 * (Y : Int)) * (p2 - 16 * (Y : Int))).toNat < 1024 := by
        have := getDigit_lt code.1 (CY * C + CX)
        omega
      have hdq : ((((p1 - 16 * (X : Int)) * (p1 - 16 * (X : Int))
          + (p2 - 16 * (Y : Int)) * (p2 - 16 * (Y : Int))).toNat : Nat) : ℚ)
          = ((((p1 - 16 * (X : Int)) * (p1 - 16 * (X : Int))
          + (p2 - 16 * (Y : Int)) * (p2 - 16 * (Y : Int)) : Int)) : ℚ) := by
        have := Int.toNat_of_nonneg hd0
        exact_mod_cast congrArg (fun z : Int => (z : ℚ)) this
      have hent : j * 32 + i < 1024 := by omega
      intro r c hr hcc
      simp only [hX, hY, Int.toNat_ofNat, setPixel]
      by_cases hcell : r = Y ∧ c = X
      · rw [hcell.1, hcell.2, if_pos ⟨rfl, rfl⟩, if_pos ⟨rfl, rfl⟩,
          getDigit_setDigit_same _ _ _ hdlt, getDigit_setDigit_same _ _ _ hent, hdq]
        rw [hX, hY] at hdiff
        refine ⟨hdiff, ?_⟩
        have e1 : (j * 32 + i) / 32 = j := by omega
        have e2 : (j * 32 + i) % 32 = i := by omega
        rw [e1, e2]
      · have hne : r * C + c ≠ Y * C + X := by
          intro he
          exact hcell (cell_index_inj C r c Y X hcc hXC he)
        rw [if_neg hcell, if_neg hcell, getDigit_setDigit_ne _ _ _ _ hdlt hne,
          getDigit_setDigit_ne _ _ _ _ hent hne]
        exact h r c hr hcc
    · rw [if_neg hij] at hrun
      exact absurd hrun (by simp)
  · rw [if_neg hc] at hrun
    rw [if_neg (fun hh => hc (hcond.mp hh))]
    simp only [Option.some.injEq] at hrun
    rw [← hrun]
    exact h

theorem codePixel_sound (R C : Nat) (invRows invCols : Int) (tformIndMat : Img Vec2)
    (i j : Nat) (code next : Nat × Nat) (st : ScatterState)
    (hR : invRows ≤ (R : Int)) (hC : invCols ≤ (C : Int)) (h : Encodes R C code st)
    (hrun : codePixel C invRows invCols tformIndMat i j code = some next) :
    Encodes R C next (scatterPixelFree invRows invCols tformIndMat i j st) := by
  unfold codePixel at hrun
  by_cases hden : ((tformIndMat i j).1 * 16).den = 1 ∧ ((tformIndMat i j).2 * 16).den = 1
  · rw [if_pos hden] at hrun
    simp only [strictInt_eq] at hrun
    have hp1 : (tformIndMat i j).1 = ((((tformIndMat i j).1 * 16).num : Int) : ℚ) / 16 := by
      have := Rat.coe_int_num_of_den_eq_one hden.1
      rw [this]
      ring
    have hp2 : (tformIndMat i j).2 = ((((tformIndMat i j).2 * 16).num : Int) : ℚ) / 16 := by
      have := Rat.coe_int_num_of_den_eq_one hden.2
      rw [this]
      ring
    unfold scatterPixelFree
    by_cases hg : 1 < cvRound (tformIndMat i j).1 ∧ 1 < cvRound (tformIndMat i j).2 ∧
        cvRound (tformIndMat i j).1 < invCols - 1 ∧ cvRound (tformIndMat i j).2 < invRows - 1
    · rw [if_pos hg] at hrun
      rw [if_pos hg]
      exact foldStrict_sound (Encodes R C)
        (fun k => codeTest C ((tformIndMat i j).1 * 16).num ((tformIndMat i j).2 * 16).num
          (cvRound (tformIndMat i j).1) (cvRound (tformIndMat i j).2) i j k)
        (fun acc k => testNeighbourFree (tformIndMat i j) (cvRound (tformIndMat i j).1)
          (cvRound (tformIndMat i j).2) i j k acc)
        (List.range 9)
        (fun k hk c n s hrel hstep =>
          codeTest_sound R C (tformIndMat i j) _ _ _ _ i j k c n s hp1 hp2 hg.1 (by omega)
            hg.2.1 (by omega) (List.mem_range.mp hk) hrel hstep)
        code next st h hrun
    · rw [if_neg hg] at hrun
      rw [if_neg hg]
      simp only [Option.some.injEq] at hrun
      rw [← hrun]
      exact h
  · rw [if_neg hden] at hrun
    exact absurd hrun (by simp)

theorem codeRow_sound (R C : Nat) (invRows invCols : Int) (tformIndMat : Img Vec2)
    (fieldCols i : Nat) (code next : Nat × Nat) (st : ScatterState)
    (hR : invRows ≤ (R : Int)) (hC : invCols ≤ (C : Int)) (h : Encodes R C code st)
    (hrun : codeRow C invRows invCols tformIndMat fieldCols i code = some next) :
    Encodes R C next (scatterRowFree invRows invCols tformIndMat fieldCols i st) := by
  unfold codeRow at hrun
  unfold scatterRowFree
  exact foldStrict_sound (Encodes R C)
    (fun j => codePixel C invRows invCols tformIndMat i (j + 1))
    (fun acc j => scatterPixelFree invRows invCols tformIndMat i (j + 1) acc)
    (List.range (fieldCols - 2))
    (fun j _ c n s hrel hstep =>
      codePixel_sound R C invRows invCols tformIndMat i (j + 1) c n s hR hC hrel hstep)
    code next st h hrun

/-- The encoded scan follows `scatterScanFree` on the window of the inverse buffer. -/
theorem codeScan_sound (R C : Nat) (invRows invCols : Int) (tformIndMat : Img Vec2)
    (fieldRows fieldCols : Nat) (code final : Nat × Nat) (st : ScatterState)
    (hR : invRows ≤ (R : Int)) (hC : invCols ≤ (C : Int)) (h : Encodes R C code st)
    (hrun : codeScan C invRows invCols tformIndMat fieldRows fieldCols code = some final) :
    Encodes R C final (scatterScanFree invRows invCols tformIndMat fieldRows fieldCols st) := by
  unfold codeScan at hrun
  unfold scatterScanFree
  exact foldStrict_sound (Encodes R C)
    (fun i => codeRow C invRows invCols tformIndMat fieldCols (i + 1))
    (fun acc i => scatterRowFree invRows invCols tformIndMat fieldCols (i + 1) acc)
    (List.range (fieldRows - 2))
    (fun i _ c n s hrel hstep =>
      codeRow_sound R C invRows invCols tformIndMat fieldCols (i + 1) c n s hR hC hrel hstep)
    code final st h hrun

/-- The four cells of the inverse buffer that pixel `(2, 2)` of the inverse of
`tiltField 4 5` is resampled from: two hold a source, two were never written. -/
theorem tilt_scan_cells :
    (scatterScanFree 24 24 tiltUp 24 30 scatterInit).invIndMat 14 14 = (16, 16) ∧
    (scatterScanFree 24 24 tiltUp 24 30 scatterInit).invIndMat 14 15 = (0, 0) ∧
    (scatterScanFree 24 24 tiltUp 24 30 scatterInit).invIndMat 15 14 = (16, 17) ∧
    (scatterScanFree 24 24 tiltUp 24 30 scatterInit).invIndMat 15 15 = (0, 0) := by
  have hrun : (codeScan 24 24 24 tiltUp 24 30 (fillDigits (24 * 24), 0)).map
      (fun code => [getDigit code.2 (14 * 24 + 14), getDigit code.2 (14 * 24 + 15),
        getDigit code.2 (15 * 24 + 14), getDigit code.2 (15 * 24 + 15)])
      = some [528, 0, 529, 0] := by decide!
  cases hc : codeScan 24 24 24 tiltUp 24 30 (fillDigits (24 * 24), 0) with
  | none =>
    rw [hc] at hrun
    exact absurd hrun (by simp)
  | some final =>
    rw [hc] at hrun
    simp only [Option.map_some', Option.some.injEq, List.cons.injEq, and_true] at hrun
    obtain ⟨h1, h2, h3, h4⟩ := hrun
    have henc := codeScan_sound 24 24 24 24 tiltUp 24 30 _ final scatterInit (by norm_num)
      (by norm_num) (encodes_init 24 24) hc
    refine ⟨?_, ?_, ?_, ?_⟩
    · rw [(henc 14 14 (by norm_num) (by norm_num)).2, h1]
      norm_num
    · rw [(henc 14 15 (by norm_num) (by norm_num)).2, h2]
      norm_num
    · rw [(henc 15 14 (by norm_num) (by norm_num)).2, h3]
      norm_num
    · rw [(henc 15 15 (by norm_num) (by norm_num)).2, h4]
      norm_num

/-- The inverse of `tiltField 4 5` at scale 6 in terms of the scan without bounds. -/
theorem reverseRectification_tilt :
    reverseRectification (tiltField 4 5) 4 4 6 = some
      { rows := 4
        cols := 4
        px := fun r c =>
          ((resizeLinear 24 24 6 6
              (scatterScanFree 24 24 tiltUp 24 30 scatterInit).invIndMat r c).1 * (1 / 6) - 1,
           (resizeLinear 24 24 6 6
              (scatterScanFree 24 24 tiltUp 24 30 scatterInit).invIndMat r c).2 * (1 / 6) - 1) } := by
  have hr : (tiltField 4 5).rows = 4 := rfl
  have hc : (tiltField 4 5).cols = 5 := rfl
  have e1 : cvRound (((4 : Nat) : ℚ) * 6) = 24 := by decide!
  have e2 : cvRound (((5 : Nat) : ℚ) * 6) = 30 := by decide!
  have e3 : truncToInt (((4 : Nat) : ℚ) * 6) = 24 := by decide!
  have hd : (((24 : Int) : ℚ)) / ((4 : Nat) : ℚ) = 6 := by norm_num
  have hscan := scatterScan_eq_free 24 24 tiltUp 24 30 scatterInit (by norm_num) (by norm_num)
  have hcond : ¬ (4 = 0 ∨ 5 = 0 ∨ (6 : ℚ) ≤ 0 ∨ (24 : Int) ≤ 0 ∨ (30 : Int) ≤ 0 ∨ 4 = 0 ∨
      4 = 0 ∨ (24 : Int) ≤ 0 ∨ (24 : Int) ≤ 0) := by norm_num
  unfold reverseRectification
  simp only [hr, hc, e1, e2, e3, hd]
  rw [if_neg hcond]
  exact congrArg (Option.map _) hscan

/-- Pixel `(2, 2)` of the 4 x 4 field resampled from a 24 x 24 buffer, given the four cells
it averages. -/
theorem resample_pixel (inv : Img Vec2) (c1 : inv 14 14 = (16, 16)) (c2 : inv 14 15 = (0, 0))
    (c3 : inv 15 14 = (16, 17)) (c4 : inv 15 15 = (0, 0)) :
    ((resizeLinear 24 24 6 6 inv 2 2).1 * (1 / 6) - 1,
     (resizeLinear 24 24 6 6 inv 2 2).2 * (1 / 6) - 1) = ((1 : ℚ) / 3, (3 : ℚ) / 8) := by
  have hcoord : resizeCoord 24 6 2 = (14, 1 / 2) := by decide!
  have t1 : ((14 : Int)).toNat = 14 := rfl
  have t2 : ((14 : Int) + 1).toNat = 15 := rfl
  simp only [resizeLinear, hcoord, t1, t2, c1, c2, c3, c4, bilinearMix]
  norm_num

/-- C14, evaluated where it fails. For the smooth forward field
`forward(i, j) = (j, i + j/8)` of 4 x 5 pixels, an inverse field of 4 x 4 pixels and the
default scale 6, the inverse field built by `reverseRectification` holds `(1/3, 3/8)` at the
interior pixel `(2, 2)`, whose exact preimage is `(2, 7/4)`: two of the four cells of the
inverse buffer behind that pixel were never written.  Forward composed with inverse returns
`(1/3, 5/12)` there, `5/3` px and `19/12` px away from `(2, 2)`. -/
theorem inverse_round_trip_fails :
    (reverseRectification (tiltField 4 5) 4 4 6).map (fun inv => inv.px 2 2)
      = some (1 / 3, 3 / 8) ∧
    bilinearSample 4 5 (tiltField 4 5).px (2, 7 / 4) = (2, 2) ∧
    bilinearSample 4 5 (tiltField 4 5).px (1 / 3, 3 / 8) = (1 / 3, 5 / 12) ∧
    (1 : ℚ) < |1 / 3 - 2| ∧ (1 : ℚ) < |5 / 12 - 2| := by
  obtain ⟨c1, c2, c3, c4⟩ := tilt_scan_cells
  have hpx := resample_pixel _ c1 c2 c3 c4
  refine ⟨?_, by decide!, by decide!, by decide!, by decide!⟩
  rw [reverseRectification_tilt, Option.map_some']
  exact congrArg some hpx

end FastBirefStereo
